import Mathlib

/-!
# Verification of the browson tree-view engine

A shallow embedding of the core of the browson interactive JSON/tree browser:

* `src/node.py`    — the `Node` tree model (`PyVal`, `NData`, `NTree`, `nodeAt`,
  `nodeEq` for `Node.__eq__`, ancestor chains as path prefixes);
* `src/style.py`   — the `Style` rendering contract, `DrawableNode.render`
  (`renderNode`), and the `TruncateLines` truncation strategy (`truncateLine`);
* `src/nodeview.py`— the `NodeView` state machine (`View`, `nodeSpan`,
  `adjustViewport`, the collapse/expand/navigation operations, and the
  escape-merging pass of the search highlighter (`combineF`) over a
  fragment model of styled text);
* `src/utils.py`   — `clamp` (`clampI`) and `LzList`.

Node *identity* (Python `is`) is modelled by the node's path from the root
(a `List Nat` of child indices); Python `==` on nodes (`Node.__eq__`) is
modelled by `nodeEq`, which compares only `name` and `value`, exactly as the
source does.  Styled terminal text is modelled at the fragment level
(`Frag`): the blessed terminal collaborator's `split_seqs`/`strip_seqs`/
`length` primitives are specified (per spec §6) as operating on a list of
zero-width escape fragments and single visible characters.

Loops from the source are embedded as structural recursions; the few
`while` loops without a structural measure take an explicit fuel argument
that is always instantiated large enough to make the embedding exact.
-/

/-- Python values handled by `Node.build` (src/node.py): the JSON scalars
plus `dict` / `list` / `tuple` containers. -/
inductive PyVal where
  | vnone
  | vbool (b : Bool)
  | vint (n : Int)
  | vstr (s : String)
  | vlist (xs : List PyVal)
  | vtuple (xs : List PyVal)
  | vdict (xs : List (String × PyVal))

instance : Inhabited PyVal := ⟨.vnone⟩

/-- `node.kind` is `type(node.value)`; these are the types occurring in
build-produced trees. -/
inductive Kind where
  | knone | kbool | kint | kstr | klist | ktuple | kdict
  deriving DecidableEq, Repr

instance : Inhabited Kind := ⟨.knone⟩

/-- Key lookup in a Python dict (first binding wins; Python dicts have no
duplicate keys). -/
def dictFind (k : String) : List (String × PyVal) → Option PyVal
  | [] => none
  | (k2, w) :: ys => if k == k2 then some w else dictFind k ys

mutual
/-- Model of Python `==` on `PyVal`: `bool` compares equal to the
corresponding `int` (`True == 1`), lists/tuples compare pointwise and never
cross-kind, and dicts compare key-based and order-insensitively. -/
def pyValEq : PyVal → PyVal → Bool
  | .vnone, .vnone => true
  | .vbool a, .vbool b => a == b
  | .vbool a, .vint n => (if a then (1 : Int) else 0) == n
  | .vint n, .vbool a => n == (if a then (1 : Int) else 0)
  | .vint m, .vint n => m == n
  | .vstr s, .vstr t => s == t
  | .vlist xs, .vlist ys => pyValEqL xs ys
  | .vtuple xs, .vtuple ys => pyValEqL xs ys
  | .vdict xs, .vdict ys => xs.length == ys.length && pyValEqD xs ys
  | _, _ => false

def pyValEqL : List PyVal → List PyVal → Bool
  | [], [] => true
  | x :: xs, y :: ys => pyValEq x y && pyValEqL xs ys
  | _, _ => false

def pyValEqD : List (String × PyVal) → List (String × PyVal) → Bool
  | [], _ => true
  | (k, v) :: rest, ys =>
    (match dictFind k ys with
     | some w => pyValEq v w
     | none => false) && pyValEqD rest ys
end

/-- The immutable per-node attributes of `Node` (src/node.py): `name`,
`kind`, `value`, and the optional mapping `key`. -/
structure NData where
  name : String
  kind : Kind
  value : PyVal
  key : Option PyVal

instance : Inhabited NData := ⟨⟨"", .knone, .vnone, none⟩⟩

/-- Model of `Node.__eq__` (src/node.py lines 55-60): two nodes compare
equal iff their `name`s and `value`s do; `kind`, `key`, children and
collapsed state are not consulted. -/
def nodeEq (a b : NData) : Bool :=
  a.name == b.name && pyValEq a.value b.value

/-- A tree of `DrawableNode`s: immutable data, the leaf flag
(`_children is None` in the source), the mutable `collapsed` flag, and the
ordered children.  A node's path from the root (list of child indices)
models Python object identity; the parent reference is the path minus its
last entry. -/
inductive NTree where
  | mk (data : NData) (leaf : Bool) (collapsed : Bool) (children : List NTree)

instance : Inhabited NTree := ⟨.mk default true false []⟩

def NTree.data : NTree → NData
  | .mk d _ _ _ => d

def NTree.leaf : NTree → Bool
  | .mk _ l _ _ => l

def NTree.collapsed : NTree → Bool
  | .mk _ _ c _ => c

def NTree.children : NTree → List NTree
  | .mk _ _ _ cs => cs

/-- Model of `Node.__eq__` at tree level: only `data.name` and `data.value`
take part; children and collapsed state are ignored. -/
def pyNodeEq (a b : NTree) : Bool := nodeEq a.data b.data

/-- `Node.__eq__` including its `assert self.kind is other.kind`: when the
comparison succeeds but the kinds differ the assertion fires (`none`). -/
def pyNodeEqChecked (a b : NTree) : Option Bool :=
  if pyNodeEq a b && !(a.data.kind == b.data.kind) then none
  else some (pyNodeEq a b)

/-- Child lookup along a path of child indices (Python attribute access
through `children`). -/
def nodeAt : NTree → List Nat → Option NTree
  | t, [] => some t
  | t, j :: p =>
    match t.children[j]? with
    | some k => nodeAt k p
    | none => none

/-- The data at a path, defaulting for invalid paths (which the verified
operations never dereference). -/
def dataAtD (t : NTree) (p : List Nat) : NData :=
  match nodeAt t p with
  | some sub => sub.data
  | none => default

mutual
/-- All valid node paths of a tree, in depth-first (pre-)order; this is the
path image of `Node.dfwalk`. -/
def nodePaths : NTree → List (List Nat)
  | .mk _ _ _ kids => [] :: nodePathsKids 0 kids

def nodePathsKids : Nat → List NTree → List (List Nat)
  | _, [] => []
  | j, k :: rest => (nodePaths k).map (fun q => j :: q) ++ nodePathsKids (j + 1) rest
end

/-- `visPath t p` holds when `p` is a valid path all of whose *strict*
ancestors are expanded — i.e. node `p` contributes lines to the rendering
(the node itself may be collapsed). -/
def visPath : NTree → List Nat → Bool
  | _, [] => true
  | t, j :: p =>
    !t.collapsed &&
    match t.children[j]? with
    | some k => visPath k p
    | none => false

mutual
/-- Bulk update of the `collapsed` flags: every node at path `q` gets flag
`f q old`.  All tree mutations of the view (single-node collapse/expand,
`collapse_all`, `expand_all`, `expand_below`, `collapse_other`) are
instances. -/
def setFlags (f : List Nat → Bool → Bool) (path : List Nat) : NTree → NTree
  | .mk d l c kids => .mk d l (f path c) (setFlagsKids f path 0 kids)

def setFlagsKids (f : List Nat → Bool → Bool) (path : List Nat) (j : Nat) :
    List NTree → List NTree
  | [] => []
  | k :: rest => setFlags f (path ++ [j]) k :: setFlagsKids f path (j + 1) rest
end

/-- `isPre p q` iff `p` is an initial segment of `q`: node `q` is `p`
itself or a descendant of `p` (ancestor chains are path prefixes). -/
def isPre : List Nat → List Nat → Bool
  | [], _ => true
  | a :: as, b :: bs => a == b && isPre as bs
  | _ :: _, [] => false

/-- All initial segments of a path, the path itself included: the paths of
`node.ancestors(include_self=True)`. -/
def prefixesOf : List Nat → List (List Nat)
  | [] => [[]]
  | a :: as => [] :: (prefixesOf as).map (fun q => a :: q)

/-- Proper initial segments of a path: the paths of `node.ancestors()`
without `include_self`. -/
def strictPrefixesOf : List Nat → List (List Nat)
  | [] => []
  | a :: as => [] :: (strictPrefixesOf as).map (fun q => a :: q)

/-- Model of the `inside(child)` test of `NodeView.node_span`
(src/nodeview.py line 134): the target node data `nd` is compared by
`Node.__eq__` against every ancestor-or-self of the node at path `q`. -/
def insideB (t : NTree) (nd : NData) (q : List Nat) : Bool :=
  (prefixesOf q).any fun r =>
    match nodeAt t r with
    | some sub => nodeEq nd sub.data
    | none => false

/-- `nodeEq` separates nodes exactly like path identity does: distinct
nodes of the tree never compare `==`-equal and every node compares equal
to itself.  This is the regime in which `node_span`'s ancestor test (which
uses `Node.__eq__`, not identity) is reliable. -/
def eqFaithfulB (t : NTree) : Bool :=
  (nodePaths t).all fun p => (nodePaths t).all fun q =>
    nodeEq (dataAtD t p) (dataAtD t q) == decide (p = q)

/-- The read-only view a `Style` has of one node (src/style.py): the node's
data plus the derived positional attributes `is_leaf`, `children`-emptiness,
`level`, `is_child`, `is_last_child`. -/
structure NodeCtx where
  data : NData
  isLeaf : Bool
  childrenEmpty : Bool
  level : Nat
  isChild : Bool
  isLastChild : Bool

/-- The `Style` contract (src/style.py lines 62-88): `compact` yields the
one-line collapsed form, `full` yields the `(pre_lines, post_lines)` pair
around the children's rendering. -/
structure Style where
  compact : NodeCtx → String
  full : NodeCtx → List String × List String

/-- Spec §4.2 obligations on styles actually satisfied by every
`CodeLikeStyle`: the full rendering opens with at least one pre-line, so
every subtree renders to at least one line. -/
def Style.productive (s : Style) : Prop := ∀ c : NodeCtx, (s.full c).1 ≠ []

/-- Spec §3: "a leaf yields exactly one line" — the full form of a leaf is
a single pre-line and no post-lines (true of every `CodeLikeStyle`). -/
def Style.leafOneLine (s : Style) : Prop :=
  ∀ c : NodeCtx, c.isLeaf = true → (s.full c).1.length = 1 ∧ (s.full c).2 = []

/-- One entry of the view's line list (`RenderedLine` in src/style.py):
the styled text and the owning node (as its path). -/
structure RLine where
  line : String
  owner : List Nat
  deriving DecidableEq, Repr

instance : Inhabited RLine := ⟨⟨"", []⟩⟩

mutual
/-- Model of `DrawableNode.render` (src/style.py lines 45-59): a collapsed
node yields its single compact line; an expanded node yields its pre-lines,
the children's renderings in order, then its post-lines.  All lines are
tagged with the owning node's path.  The style cache (`compact`/`full`
attributes) is semantically transparent because styles are deterministic
functions, so the cache-free rendering is used. -/
def renderNode (s : Style) (path : List Nat) (level : Nat) (ic il : Bool) : NTree → List RLine
  | .mk d leaf coll kids =>
    let ctx : NodeCtx := ⟨d, leaf, kids.isEmpty, level, ic, il⟩
    if coll then [⟨s.compact ctx, path⟩]
    else
      ((s.full ctx).1.map (fun l => ⟨l, path⟩)) ++
      renderKids s path level 0 kids ++
      ((s.full ctx).2.map (fun l => ⟨l, path⟩))

def renderKids (s : Style) (path : List Nat) (level : Nat) (j : Nat) : List NTree → List RLine
  | [] => []
  | k :: rest =>
    renderNode s (path ++ [j]) (level + 1) true rest.isEmpty k ++
    renderKids s path level (j + 1) rest
end

/-- Rendering of the whole tree from the root (level 0, not a child). -/
def render (s : Style) (t : NTree) : List RLine :=
  renderNode s [] 0 false false t

/-- The `is_child` attribute of the node at path `p` below a node whose own
`is_child` attribute is `ic`. -/
def icAt (ic : Bool) (p : List Nat) : Bool :=
  if p.isEmpty then ic else true

/-- The `is_last_child` attribute of the node at path `p` inside `t`, where
`t`'s own attribute is `il`. -/
def ilAt (il : Bool) : NTree → List Nat → Bool
  | _, [] => il
  | t, j :: p =>
    match t.children[j]? with
    | some k => if p.isEmpty then j + 1 == t.children.length else ilAt il k p
    | none => il

/-- The block of lines a node (and its visible descendants) contributes to
the full rendering: `node.render(style)` invoked on the node at path `p`. -/
def renderSeg (s : Style) (t : NTree) (p : List Nat) : List RLine :=
  match nodeAt t p with
  | some sub => renderNode s p p.length (icAt false p) (ilAt false t p) sub
  | none => []

/-- The downward scan of `node_span` (src/nodeview.py lines 138-140):
`while first > 0 and inside(self.lines[first - 1].node): first -= 1`. -/
def scanDown (pred : Nat → Bool) : Nat → Nat
  | 0 => 0
  | f + 1 => if pred f then scanDown pred f else f + 1

/-- The upward scan of `node_span` (src/nodeview.py lines 141-143):
`while last < len(self.lines) - 1 and inside(self.lines[last + 1].node)`.
The explicit fuel argument exceeds the loop's maximal step count at every
call site, making the embedding exact. -/
def scanUpF (pred : Nat → Bool) (len : Nat) : Nat → Nat → Nat
  | 0, l => l
  | fuel + 1, l =>
    if l < len - 1 && pred (l + 1) then scanUpF pred len fuel (l + 1) else l

/-- Model of `NodeView.node_span` (src/nodeview.py lines 111-144): walk
outward from line `start` while the neighbouring line's node reports `nd`
as an ancestor-or-self.  (The function's entry `assert inside(...)` holds
in every state the theorems below consider.) -/
def nodeSpan (t : NTree) (lines : List RLine) (start : Nat) (nd : NData) : Nat × Nat :=
  let pred := fun j =>
    match lines[j]? with
    | some rl => insideB t nd rl.owner
    | none => false
  (scanDown pred start, scanUpF pred lines.length lines.length start)

/-- `utils.clamp` (src/utils.py lines 16-18).  The source's
`assert maximum >= minimum` holds at every verified call site (the line
list is non-empty there). -/
def clampI (val lo hi : Int) : Int :=
  if val < lo then lo else if val > hi then hi else val

/-- The terminal-text collaborator as seen by `NodeView` itself (spec §6):
only `strip_seqs` is consulted by the embedded operations (for search
matching). -/
structure TermM where
  strip_seqs : String → String

/-- `needle` occurs at the front of `hay`. -/
def listStarts : List Char → List Char → Bool
  | [], _ => true
  | c :: cs, d :: ds => c == d && listStarts cs ds
  | _ :: _, [] => false

/-- `needle` occurs somewhere in `hay` (Python `needle in hay`). -/
def listHas : List Char → List Char → Bool
  | n, [] => n.isEmpty
  | n, d :: ds => listStarts n (d :: ds) || listHas n ds

def strContains (hay needle : String) : Bool :=
  listHas needle.toList hay.toList

/-- The mutable state of `NodeView` (src/nodeview.py lines 26-46): the tree
(whose `collapsed` flags are the implicit state machine), the style and
terminal collaborators, the line-entry list, the focus index, the viewport
geometry and the active search term. -/
structure View where
  tree : NTree
  style : Style
  term : TermM
  lines : List RLine
  focus : Int
  width : Int
  height : Int
  context : Int
  visible : Int × Int
  search : String
  needRedraw : Bool

/-- `NodeView.adjust_viewport` (src/nodeview.py lines 95-109), transcribed
over unbounded integers exactly as the Python arithmetic. -/
def View.adjustViewport (v : View) : View :=
  let first := v.visible.1
  let first :=
    if v.focus < first + v.context then v.focus - v.context
    else if v.focus > first + v.height - v.context then v.focus + v.context - v.height
    else first
  let first := max 0 (min ((v.lines.length : Int) - 1) (first + v.height) - v.height)
  { v with visible := (first, first + v.height), needRedraw := true }

/-- `NodeView.set_focus` (src/nodeview.py lines 165-168). -/
def View.setFocus (v : View) (line : Int) : View :=
  View.adjustViewport { v with focus := clampI line 0 ((v.lines.length : Int) - 1) }

/-- `NodeView.move_focus` (src/nodeview.py lines 170-172). -/
def View.moveFocus (v : View) (relative : Int) : View :=
  v.setFocus (v.focus + relative)

/-- The owner path of `self.lines[i]` (the node object stored in the line
entry). -/
def View.ownerAt (v : View) (i : Nat) : List Nat :=
  (v.lines.getD i default).owner

/-- Python list slice assignment `lines[first : last + 1] = new` for the
in-range indices produced by `node_span`. -/
def spliceIncl (xs : List RLine) (first last : Nat) (new : List RLine) : List RLine :=
  xs.take first ++ new ++ xs.drop (last + 1)

/-- `NodeView._render` (src/nodeview.py lines 82-93) for an explicit node
path and span: regenerate the node's lines, splice them over the old span,
adjust the viewport, and report the new span. -/
def View.renderSpan (v : View) (p : List Nat) (first last : Nat) : View × (Nat × Nat) :=
  let newLines := renderSeg v.style v.tree p
  let v' := View.adjustViewport { v with lines := spliceIncl v.lines first last newLines }
  (v', (first, first + newLines.length - 1))

/-- `NodeView.rerender` (src/nodeview.py lines 146-161): find the span of
the node owning line `start` and regenerate it in place. -/
def View.rerender (v : View) (start : Nat) : View × (Nat × Nat) :=
  let p := v.ownerAt start
  let sp := nodeSpan v.tree v.lines start (dataAtD v.tree p)
  v.renderSpan p sp.1 sp.2

/-- `NodeView._matches` (src/nodeview.py lines 69-72). -/
def View.matches (v : View) (i : Nat) : Bool :=
  let line := v.term.strip_seqs (v.lines.getD i default).line
  !(v.search == "") && strContains line v.search

/-- `NodeView.jump_match` (src/nodeview.py lines 194-203). -/
def View.jumpMatch (v : View) (forwards : Bool) : View :=
  let idxs : List Nat :=
    if forwards then List.range' (v.focus.toNat + 1) (v.lines.length - (v.focus.toNat + 1))
    else (List.range v.focus.toNat).reverse
  match idxs.find? (fun i => v.matches i) with
  | some i => v.setFocus (i : Int)
  | none => v

/-- The ancestor-walking loop of `jump_node` (src/nodeview.py lines
185-191), by recursion on the reversed current path (each iteration moves
to the parent, i.e. drops the last path entry). -/
def jumpUpRev (t : NTree) (lines : List RLine) (focus : Int) (fw : Bool) :
    List Nat → Int → Int
  | [], target => target
  | _ :: rp, target =>
    if focus == target then
      let pp := rp.reverse
      let sp := nodeSpan t lines focus.toNat (dataAtD t pp)
      jumpUpRev t lines focus fw rp (if fw then (sp.2 : Int) else (sp.1 : Int))
    else target

/-- `NodeView.jump_node` (src/nodeview.py lines 174-192). -/
def View.jumpNode (v : View) (forwards : Bool) : View :=
  let p := v.ownerAt v.focus.toNat
  let sp := nodeSpan v.tree v.lines v.focus.toNat (dataAtD v.tree p)
  let target : Int := if forwards then (sp.2 : Int) else (sp.1 : Int)
  v.setFocus (jumpUpRev v.tree v.lines v.focus forwards p.reverse target)

/-- `NodeView.collapse_current` (src/nodeview.py lines 205-217). -/
def View.collapseCurrent (v : View) : View :=
  let p := v.ownerAt v.focus.toNat
  match nodeAt v.tree p with
  | none => v
  | some sub =>
    if sub.collapsed then v
    else
      let v1 := { v with tree := setFlags (fun q c => if q = p then true else c) [] v.tree }
      let r := v1.rerender v.focus.toNat
      r.1.setFocus (r.2.1 : Int)

/-- `NodeView.expand_current` (src/nodeview.py lines 248-260). -/
def View.expandCurrent (v : View) : View :=
  let p := v.ownerAt v.focus.toNat
  match nodeAt v.tree p with
  | none => v
  | some sub =>
    if !sub.collapsed then v
    else
      let v1 := { v with tree := setFlags (fun q c => if q = p then false else c) [] v.tree }
      let r := v1.rerender v.focus.toNat
      r.1.setFocus (r.2.1 : Int)

/-- `NodeView.expand_below` (src/nodeview.py lines 262-273): expand the
current node and all its descendants, then redraw that span. -/
def View.expandBelow (v : View) : View :=
  let p := v.ownerAt v.focus.toNat
  let v1 := { v with tree := setFlags (fun q c => if isPre p q then false else c) [] v.tree }
  let r := v1.rerender v.focus.toNat
  r.1.setFocus (r.2.1 : Int)

/-- `NodeView.collapse_all` (src/nodeview.py lines 241-246). -/
def View.collapseAll (v : View) : View :=
  let v1 := { v with tree := setFlags (fun _ _ => true) [] v.tree }
  let r := v1.rerender 0
  r.1.setFocus (r.2.1 : Int)

/-- Index of the first line owned by node `p` (the `for i, (_, n) in
enumerate(self.lines): if n is current` identity scan). -/
def firstOwner (p : List Nat) : List RLine → Option Nat
  | [] => none
  | rl :: rest =>
    if rl.owner = p then some 0 else (firstOwner p rest).map (fun i => i + 1)

/-- Re-focus the first line owned by `p`, if any (shared tail of
`collapse_other` and `expand_all`). -/
def View.refocus (v : View) (p : List Nat) : View :=
  match firstOwner p v.lines with
  | some i => v.setFocus (i : Int)
  | none => v

/-- `NodeView.expand_all` (src/nodeview.py lines 275-289). -/
def View.expandAll (v : View) : View :=
  let p := v.ownerAt v.focus.toNat
  let v1 := { v with tree := setFlags (fun _ _ => false) [] v.tree }
  let r := v1.rerender 0
  r.1.refocus p

/-- The flag update of `collapse_other` (src/nodeview.py lines 219-239):
walking every node `q`, descendants of the current node `p` are skipped
(`current in node.ancestors()`), and every node not `==`-equal to a member
of `current.ancestors(include_self=True)` is collapsed.  Both membership
tests go through `Node.__eq__`. -/
def collapseOtherF (t : NTree) (p : List Nat) (q : List Nat) (c : Bool) : Bool :=
  if (strictPrefixesOf q).any (fun r => nodeEq (dataAtD t p) (dataAtD t r)) then c
  else if !((prefixesOf p).any (fun r => nodeEq (dataAtD t q) (dataAtD t r))) then true
  else c

/-- `NodeView.collapse_other` (src/nodeview.py lines 219-239). -/
def View.collapseOther (v : View) : View :=
  let p := v.ownerAt v.focus.toNat
  let v1 := { v with tree := setFlags (collapseOtherF v.tree p) [] v.tree }
  let r := v1.rerender 0
  r.1.refocus p

/-- The public navigation / collapse / expand operations of `NodeView`
named by the spec's focus invariant. -/
inductive NavOp where
  | setF (i : Int)
  | moveF (d : Int)
  | jumpN (fw : Bool)
  | jumpM (fw : Bool)
  | colCur
  | colOther
  | colAll
  | expCur
  | expBelow
  | expAll

def applyOp (v : View) : NavOp → View
  | .setF i => v.setFocus i
  | .moveF d => v.moveFocus d
  | .jumpN fw => v.jumpNode fw
  | .jumpM fw => v.jumpMatch fw
  | .colCur => v.collapseCurrent
  | .colOther => v.collapseOther
  | .colAll => v.collapseAll
  | .expCur => v.expandCurrent
  | .expBelow => v.expandBelow
  | .expAll => v.expandAll

def applyOps (ops : List NavOp) (v : View) : View :=
  ops.foldl applyOp v

/-- A freshly constructed view (`NodeView.__init__` followed by the initial
full `_render` performed by the `style` property setter): the line list is
the full rendering, focus is 0, the viewport starts at the top. -/
def mkView (root : NTree) (s : Style) (tm : TermM) (w h : Int) (search : String) : View :=
  let v : View :=
    { tree := root, style := s, term := tm, lines := [], focus := 0,
      width := w, height := h, context := 1, visible := (0, h - 1),
      search := search, needRedraw := true }
  View.adjustViewport { v with lines := render s root }

/-- The state invariant tying a view to its tree: the line list is the
rendering of the current tree state (spec §3's "valid flattening"),
`Node.__eq__` is unambiguous on the tree, and the focus is in bounds. -/
def ViewInv (v : View) : Prop :=
  v.lines = render v.style v.tree ∧
  eqFaithfulB v.tree = true ∧
  0 ≤ v.focus ∧
  v.focus < (v.lines.length : Int)

/-! ## The lazy materializing sequence (`utils.LzList`) -/

/-- `utils.LazyList` (src/utils.py lines 50-111): the realized prefix plus
the wrapped producer.  The producer (a Python iterator) is modelled by the
list of elements it has yet to yield; `iterator = none` models the
`self.iterator = None` discarded state, while `some []` models an exhausted
but still referenced iterator. -/
structure LzList (α : Type) where
  iterator : Option (List α)
  realized : List α
  deriving DecidableEq, Repr

/-- `LazyList._extract_until_len` (src/utils.py lines 76-78): pull from the
producer until at least `n` elements are realized or the producer is
exhausted; a discarded (`None`) producer yields nothing. -/
def extractUntilLen {α : Type} (n : Nat) (ll : LzList α) : LzList α :=
  match ll.iterator with
  | some it =>
    if n > ll.realized.length then
      { iterator := some (it.drop (n - ll.realized.length))
        realized := ll.realized ++ it.take (n - ll.realized.length) }
    else ll
  | none => ll

/-- Python list index read with `IndexError` as `none`. -/
def pyListGet {α : Type} (xs : List α) (i : Nat) : Option α := xs[i]?

/-- Python list slice read `xs[s:e]` for non-negative bounds. -/
def pyListGetSlice {α : Type} (xs : List α) (s : Nat) (e : Option Nat) : List α :=
  match e with
  | some e => (xs.take e).drop s
  | none => xs.drop s

/-- Python list slice assignment `xs[s:e] = vals` for non-negative bounds
(indices clamp to the list's length, and an inverted range inserts at the
start index). -/
def pyListSetSlice {α : Type} (xs : List α) (s : Nat) (e : Option Nat) (vals : List α) :
    List α :=
  match e with
  | some e => xs.take s ++ vals ++ xs.drop (max s e)
  | none => xs.take s ++ vals

/-- Python list slice deletion `del xs[s:e]`. -/
def pyListDelSlice {α : Type} (xs : List α) (s : Nat) (e : Option Nat) : List α :=
  match e with
  | some e => xs.take s ++ xs.drop (max s e)
  | none => xs.take s

/-- `LazyList.__getitem__` with an int index (src/utils.py lines 85-92):
realize through index `i`, then read (out of range raises). -/
def LzList.getItem {α : Type} (ll : LzList α) (i : Nat) : LzList α × Option α :=
  let ll := extractUntilLen (i + 1) ll
  (ll, pyListGet ll.realized i)

/-- `LazyList.__getitem__` with a slice (src/utils.py lines 85-92): an
unbounded stop realizes everything (`sys.maxsize`). -/
def LzList.getSlice {α : Type} (ll : LzList α) (s : Nat) (e : Option Nat) :
    LzList α × List α :=
  let ll :=
    match e with
    | some e => extractUntilLen e ll
    | none =>
      match ll.iterator with
      | some it => { iterator := some [], realized := ll.realized ++ it }
      | none => ll
  (ll, pyListGetSlice ll.realized s e)

/-- `LazyList.__setitem__` with an int index (src/utils.py lines 97-108):
realize through the replaced index, then assign (`none` on `IndexError`). -/
def LzList.setItem {α : Type} (ll : LzList α) (i : Nat) (x : α) : Option (LzList α) :=
  let ll := extractUntilLen (i + 1) ll
  if i < ll.realized.length then some { ll with realized := ll.realized.set i x }
  else none

/-- `LazyList.__setitem__` with a slice (src/utils.py lines 97-108): an
open-ended slice (`stop is None`) permanently discards the producer
(`self.iterator = None`) without pulling from it; a bounded slice realizes
up to its stop index first. -/
def LzList.setSlice {α : Type} (ll : LzList α) (s : Nat) (e : Option Nat)
    (vals : List α) : LzList α :=
  match e with
  | none => { iterator := none, realized := pyListSetSlice ll.realized s none vals }
  | some e =>
    let ll := extractUntilLen e ll
    { ll with realized := pyListSetSlice ll.realized s (some e) vals }

/-- `LazyList.__delitem__` with an int index (src/utils.py lines 94-95):
only the realized list is touched (`none` on `IndexError`). -/
def LzList.delItem {α : Type} (ll : LzList α) (i : Nat) : Option (LzList α) :=
  if i < ll.realized.length then some { ll with realized := ll.realized.eraseIdx i }
  else none

/-- `LazyList.__delitem__` with a slice (src/utils.py lines 94-95). -/
def LzList.delSlice {α : Type} (ll : LzList α) (s : Nat) (e : Option Nat) : LzList α :=
  { ll with realized := pyListDelSlice ll.realized s e }

/-- `LazyList.insert` (src/utils.py lines 110-111), also `append` via
`MutableSequence`. -/
def LzList.insertAt {α : Type} (ll : LzList α) (i : Nat) (x : α) : LzList α :=
  { ll with realized := ll.realized.insertIdx i x }

/-- `LazyList.real_length` (src/utils.py lines 80-83). -/
def LzList.realLength {α : Type} (ll : LzList α) : LzList α × Nat :=
  match ll.iterator with
  | some it =>
    let ll := { iterator := some ([] : List α), realized := ll.realized ++ it }
    (ll, ll.realized.length)
  | none => (ll, ll.realized.length)

/-- The `MutableSequence` operations of `LazyList`, as state transformers
(read operations keep their realization side effect). -/
inductive LLOp (α : Type) where
  | getI (i : Nat)
  | getS (s : Nat) (e : Option Nat)
  | setI (i : Nat) (x : α)
  | setS (s : Nat) (e : Option Nat) (vals : List α)
  | delI (i : Nat)
  | delS (s : Nat) (e : Option Nat)
  | ins (i : Nat) (x : α)
  | lenReal

def LLOp.step {α : Type} (ll : LzList α) : LLOp α → LzList α
  | .getI i => (ll.getItem i).1
  | .getS s e => (ll.getSlice s e).1
  | .setI i x => (ll.setItem i x).getD (extractUntilLen (i + 1) ll)
  | .setS s e vals => ll.setSlice s e vals
  | .delI i => (ll.delItem i).getD ll
  | .delS s e => ll.delSlice s e
  | .ins i x => ll.insertAt i x
  | .lenReal => (ll.realLength).1

/-! ## Styled terminal text: fragments, search highlighting, truncation -/

/-- One fragment of `term.split_seqs(line)`: a zero-width styling escape or
a single visible character (the source asserts every fragment has visible
length 0 or 1). -/
inductive Frag where
  | ch (c : Char)
  | esc (e : String)
  deriving DecidableEq, Repr

/-- `term.length` of a fragment. -/
def fragLen : Frag → Nat
  | .ch _ => 1
  | .esc _ => 0

/-- `term.length` of a styled line: the number of visible characters. -/
def visLen (l : List Frag) : Nat := (l.map fragLen).sum

/-- `term.strip_seqs`: the visible characters, escapes removed. -/
def stripSeqs (l : List Frag) : List Char :=
  l.filterMap fun fr => match fr with
    | .ch c => some c
    | .esc _ => none

/-- `term_escapes_before(index)` (src/nodeview.py lines 318-328): the
styling escapes of the line occurring before its `index + 1`-th visible
character (all of them if the line is shorter). -/
def escapesBefore : List Frag → Nat → List Frag
  | [], _ => []
  | .esc e :: rest, idx => .esc e :: escapesBefore rest idx
  | .ch _ :: rest, idx => if idx = 0 then [] else escapesBefore rest (idx - 1)

/-- The highlight-on escape of `term.black_on_bright_yellow`. -/
def hlOn : Frag := .esc "\x1b[30;103m"

/-- The style-reset escape terminating a blessed formatting call. -/
def hlOff : Frag := .esc "\x1b[m"

/-- `term.black_on_bright_yellow(substr)`: highlight-on, the visible
characters, then the reset. -/
def hlWrap (cs : List Char) : List Frag :=
  hlOn :: cs.map .ch ++ [hlOff]

/-- `combine_escapes(line1, line2)` (src/nodeview.py lines 335-350): merge
two fragment streams with identical visible text, emitting escapes from
either side as encountered (line1's first) and each visible character
exactly once.  `fuel` bounds the loop and is instantiated with the total
length, which the merge never exceeds. -/
def combineF : Nat → List Frag → List Frag → List Frag
  | 0, l1, l2 => l1 ++ l2
  | fuel + 1, l1, l2 =>
    match l1, l2 with
    | [], _ => l2
    | _, [] => l1
    | .esc e :: r1, _ => .esc e :: combineF fuel r1 l2
    | .ch c :: r1, .esc e :: r2 => .esc e :: combineF fuel (.ch c :: r1) r2
    | .ch c :: r1, .ch _ :: r2 => .ch c :: combineF fuel r1 r2

/-- `TruncateLines._trunc_index`'s scan loop (src/style.py lines 305-309):
`for i in range(target_length, len(seqs) + 1)` accumulating visible length
until it exceeds `target`; reading `seqs[len(seqs)]` raises `IndexError`
(`none`), as does falling through to the final `assert False`.  `fuel` is
instantiated above the loop's range. -/
def truncLoop (seqs : List Frag) (target : Nat) : Nat → Nat → Nat → Option Nat
  | 0, _, _ => none
  | fuel + 1, i, length =>
    match seqs[i]? with
    | none => none
    | some fr =>
      let length := length + fragLen fr
      if length > target then some (i - 1)
      else truncLoop seqs target fuel (i + 1) length

/-- `TruncateLines._trunc_index` (src/style.py lines 302-309), including
its entry `assert length < target_length` (`none` when it fires). -/
def truncIndex (seqs : List Frag) (target : Nat) : Option Nat :=
  let length := visLen (seqs.take target)
  if length < target then truncLoop seqs target (seqs.length + 2) target length
  else none

/-- The `self.term.reverse("̇̇̇…")` truncation marker. -/
def truncMarker : List Frag :=
  .esc "\x1b[7m" :: ("̇̇̇…".toList).map .ch ++ [.esc "\x1b[m"]

/-- `TruncateLines.truncate` (src/style.py lines 311-317): lines wider than
the terminal are cut at `_trunc_index` and the marker appended; `none`
models an uncaught exception inside `_trunc_index`. -/
def truncateLine (width : Nat) (line : List Frag) : Option (List Frag) :=
  if visLen line > width then
    match truncIndex line (width - 1) with
    | some i => some (line.take i ++ truncMarker)
    | none => none
  else some line

/-! ## Concrete instances -/

/-- A minimal concrete code-like style: the full form is one pre-line
holding the node's name and no post-lines; the compact form appends a
marker.  It satisfies both §4.2 obligations (`productive`, `leafOneLine`). -/
def sStyle : Style :=
  { compact := fun c => c.data.name ++ " *"
    full := fun c => ([c.data.name], []) }

/-- A terminal whose `strip_seqs` is the identity (the fixture lines carry
no escapes). -/
def tmId : TermM := ⟨fun s => s⟩

/-- The leaf `.b[0] = 7` produced by list element `0` of key `"b"`. -/
def leafB0 : NTree := .mk ⟨".b[0]", .kint, .vint 7, some (.vint 0)⟩ true false []

/-- The list node `.b = [7]`. -/
def nodeB : NTree :=
  .mk ⟨".b", .klist, .vlist [.vint 7], some (.vstr "b")⟩ false false [leafB0]

/-- The leaf produced by the dict key `"b[0]"`: its generated name `.b[0]`
and its value `7` coincide with `leafB0`'s, so `Node.__eq__` identifies the
two distinct nodes. -/
def leafDup : NTree := .mk ⟨".b[0]", .kint, .vint 7, some (.vstr "b[0]")⟩ true false []

/-- The tree of `{"b": [7], "b[0]": 7}`: two distinct nodes compare
`==`-equal (`eqFaithfulB tCex = false`). -/
def tCex : NTree :=
  .mk ⟨".", .kdict, .vdict [("b", .vlist [.vint 7]), ("b[0]", .vint 7)], none⟩ false false
    [nodeB, leafDup]

/-- `leafB0` with its `collapsed` flag already set. -/
def leafB0c : NTree := .mk ⟨".b[0]", .kint, .vint 7, some (.vint 0)⟩ true true []

def nodeBc : NTree :=
  .mk ⟨".b", .klist, .vlist [.vint 7], some (.vstr "b")⟩ false false [leafB0c]

/-- `tCex` with the node at path `[0, 0]` collapsed. -/
def tCex2 : NTree :=
  .mk ⟨".", .kdict, .vdict [("b", .vlist [.vint 7]), ("b[0]", .vint 7)], none⟩ false false
    [nodeBc, leafDup]

/-- The tree of `{"a": 1, "b": 2}`: all node names differ, so `Node.__eq__`
is faithful on it. -/
def tGood : NTree :=
  .mk ⟨".", .kdict, .vdict [("a", .vint 1), ("b", .vint 2)], none⟩ false false
    [.mk ⟨".a", .kint, .vint 1, some (.vstr "a")⟩ true false [],
     .mk ⟨".b", .kint, .vint 2, some (.vstr "b")⟩ true false []]

/-- A view of the ambiguous tree, focused on line 2 (the leaf at `[0, 0]`). -/
def vCex : View := (mkView tCex sStyle tmId 80 10 "").setFocus 2

/-- A view of `tCex2`, focused on line 2 (the collapsed leaf at `[0, 0]`). -/
def vCex3 : View := (mkView tCex2 sStyle tmId 80 10 "").setFocus 2

/-- A freshly opened view of the unambiguous tree (3 lines, focus 0). -/
def vGood : View := mkView tGood sStyle tmId 80 10 ""

def subAtD (t : NTree) (p : List Nat) : NTree := (nodeAt t p).getD default

/-- The two structural facts `Node.build` guarantees about every tree it
produces, regardless of `==`-collisions between cousins: every node
compares `==`-equal to itself (Python `==` is reflexive on built values),
and no node compares `==`-equal to a strict ancestor (a child's generated
name strictly extends its parent's name, so the `name` comparison already
fails).  The ambiguous tree `tCex` satisfies this even though
`eqFaithfulB tCex = false`. -/
def treeSane (t : NTree) : Bool :=
  (nodePaths t).all fun p =>
    nodeEq (dataAtD t p) (dataAtD t p) &&
    (strictPrefixesOf p).all fun r => !(nodeEq (dataAtD t p) (dataAtD t r))

/-- Block structure of a line list: for every path `q`, the lines owned by
`q` or its descendants form a contiguous block (stated as convexity of the
hit set). -/
def blockStr (lines : List RLine) : Prop :=
  ∀ (q : List Nat) (i j k : Nat), i ≤ j → j ≤ k → k < lines.length →
    isPre q ((lines.getD i default).owner) = true →
    isPre q ((lines.getD k default).owner) = true →
    isPre q ((lines.getD j default).owner) = true

/-- Decidable convexity of a Boolean indicator list. -/
def convexB (bs : List Bool) : Bool :=
  (List.range bs.length).all fun i =>
    (List.range bs.length).all fun j =>
      (List.range bs.length).all fun k =>
        !(decide (i ≤ j) && decide (j ≤ k) && bs.getD i false && bs.getD k false)
          || bs.getD j false

/-- Decidable block structure (checked only at the owners' prefixes, which
suffices). -/
def blockStrD (lines : List RLine) : Bool :=
  lines.all fun rl => (prefixesOf rl.owner).all fun q =>
    convexB (lines.map fun rl2 => isPre q rl2.owner)

/-- The weak view invariant: focus in bounds, every line's owner visible in
the tree, line 0 owned by the root, the tree `build`-sane, and the line
list block-structured.  Unlike `ViewInv` it does not require the line list
to equal the rendering of the tree, nor `Node.__eq__` to be faithful, so it
also covers views whose line list has drifted from the tree through
`==`-confused spans. -/
def WInv (v : View) : Prop :=
  0 ≤ v.focus ∧ v.focus < (v.lines.length : Int) ∧
  (∀ rl ∈ v.lines, visPath v.tree rl.owner = true) ∧
  (v.lines.getD 0 default).owner = [] ∧
  treeSane v.tree = true ∧
  blockStr v.lines

/-! ## Path and prefix lemmas -/

theorem isPre_refl (p : List Nat) : isPre p p = true := by
  induction p with
  | nil => rfl
  | cons a as ih => simp [isPre, ih]

theorem isPre_append (p q : List Nat) : isPre p (p ++ q) = true := by
  induction p with
  | nil => rfl
  | cons a as ih => simp [isPre, ih]

theorem isPre_iff_append {p q : List Nat} : isPre p q = true ↔ ∃ r, q = p ++ r := by
  constructor
  · intro h
    induction p generalizing q with
    | nil => exact ⟨q, rfl⟩
    | cons a as ih =>
      match q with
      | [] => simp [isPre] at h
      | b :: bs =>
        simp only [isPre, Bool.and_eq_true, beq_iff_eq] at h
        obtain ⟨r, hr⟩ := ih h.2
        exact ⟨r, by simp [h.1, hr]⟩
  · rintro ⟨r, rfl⟩; exact isPre_append p r

theorem isPre_length {p q : List Nat} (h : isPre p q = true) : p.length ≤ q.length := by
  obtain ⟨r, rfl⟩ := isPre_iff_append.mp h
  simp

theorem isPre_false_of_short {p q : List Nat} (h : q.length < p.length) :
    isPre p q = false := by
  cases hpq : isPre p q
  · rfl
  · exact absurd (isPre_length hpq) (by omega)

theorem isPre_append_cancel (p q r : List Nat) :
    isPre (p ++ q) (p ++ r) = isPre q r := by
  induction p with
  | nil => rfl
  | cons a as ih => simp [isPre, ih]

theorem isPre_of_append_left {p q r : List Nat} (h : isPre (p ++ q) r = true) :
    isPre p r = true := by
  obtain ⟨u, rfl⟩ := isPre_iff_append.mp h
  rw [List.append_assoc]
  exact isPre_append p _

theorem isPre_trans {p q r : List Nat} (h1 : isPre p q = true) (h2 : isPre q r = true) :
    isPre p r = true := by
  obtain ⟨u, rfl⟩ := isPre_iff_append.mp h1
  exact isPre_of_append_left h2

theorem mem_prefixesOf {p q : List Nat} : p ∈ prefixesOf q ↔ isPre p q = true := by
  induction q generalizing p with
  | nil =>
    simp only [prefixesOf, List.mem_singleton]
    constructor
    · rintro rfl; rfl
    · intro h
      match p with
      | [] => rfl
      | a :: as => simp [isPre] at h
  | cons b bs ih =>
    simp only [prefixesOf, List.mem_cons, List.mem_map]
    constructor
    · rintro (rfl | ⟨r, hr, rfl⟩)
      · rfl
      · simp [isPre, ih.mp hr]
    · intro h
      match p with
      | [] => exact Or.inl rfl
      | a :: as =>
        simp only [isPre, Bool.and_eq_true, beq_iff_eq] at h
        exact Or.inr ⟨as, ih.mpr h.2, by simp [h.1]⟩

theorem mem_strictPrefixesOf {p q : List Nat} :
    p ∈ strictPrefixesOf q ↔ isPre p q = true ∧ p ≠ q := by
  induction q generalizing p with
  | nil =>
    simp only [strictPrefixesOf, List.not_mem_nil, false_iff]
    intro ⟨h1, h2⟩
    match p with
    | [] => exact h2 rfl
    | a :: as => simp [isPre] at h1
  | cons b bs ih =>
    simp only [strictPrefixesOf, List.mem_cons, List.mem_map]
    constructor
    · rintro (rfl | ⟨r, hr, rfl⟩)
      · exact ⟨rfl, by simp⟩
      · obtain ⟨h1, h2⟩ := ih.mp hr
        exact ⟨by simp [isPre, h1], by simp [h2]⟩
    · intro ⟨h1, h2⟩
      match p with
      | [] => exact Or.inl rfl
      | a :: as =>
        simp only [isPre, Bool.and_eq_true, beq_iff_eq] at h1
        refine Or.inr ⟨as, ih.mpr ⟨h1.2, ?_⟩, by simp [h1.1]⟩
        intro hcon
        exact h2 (by simp [h1.1, hcon])

/-! ## Structural lemmas about `nodeAt`, `nodePaths`, `setFlags` -/

theorem nodeAt_append (t : NTree) (p q : List Nat) :
    nodeAt t (p ++ q) = (nodeAt t p).bind (fun sub => nodeAt sub q) := by
  induction p generalizing t with
  | nil => simp [nodeAt]
  | cons j p ih =>
    simp only [List.cons_append, nodeAt]
    match t.children[j]? with
    | some k => exact ih k
    | none => rfl

theorem isSome_nodeAt_of_isPre {t : NTree} {p q : List Nat}
    (hq : (nodeAt t q).isSome = true) (hpq : isPre p q = true) :
    (nodeAt t p).isSome = true := by
  obtain ⟨r, rfl⟩ := isPre_iff_append.mp hpq
  rw [nodeAt_append] at hq
  match h : nodeAt t p with
  | some _ => rfl
  | none => rw [h] at hq; simp at hq

theorem nodeAt_cons (t : NTree) (j : Nat) (p : List Nat) :
    nodeAt t (j :: p) = (t.children[j]?).bind (fun k => nodeAt k p) := by
  simp only [nodeAt]
  match t.children[j]? with
  | some k => rfl
  | none => rfl

theorem nodePathsKids_mem (kids : List NTree) : ∀ (j : Nat) (p : List Nat),
    p ∈ nodePathsKids j kids ↔
      ∃ m q, p = (j + m) :: q ∧ ∃ k, kids[m]? = some k ∧ q ∈ nodePaths k := by
  induction kids with
  | nil => intro j p; simp [nodePathsKids]
  | cons k0 rest ih =>
    intro j p
    simp only [nodePathsKids, List.mem_append, List.mem_map, ih]
    constructor
    · rintro (⟨q, hq, rfl⟩ | ⟨m, q, rfl, k, hk, hq⟩)
      · exact ⟨0, q, by simp, k0, by simp, hq⟩
      · refine ⟨m + 1, q, ?_, k, ?_, hq⟩
        · rw [show j + (m + 1) = j + 1 + m by omega]
        · simpa using hk
    · rintro ⟨m, q, rfl, k, hk, hq⟩
      match m with
      | 0 =>
        simp only [List.getElem?_cons_zero, Option.some.injEq] at hk
        subst hk
        exact Or.inl ⟨q, hq, by simp⟩
      | m + 1 =>
        simp only [List.getElem?_cons_succ] at hk
        refine Or.inr ⟨m, q, ?_, k, hk, hq⟩
        rw [show j + (m + 1) = j + 1 + m by omega]

mutual
theorem mem_nodePaths : ∀ (t : NTree) (p : List Nat),
    p ∈ nodePaths t ↔ (nodeAt t p).isSome = true
  | .mk d l c kids, p => by
    match p with
    | [] => simp [nodePaths, nodeAt]
    | j :: q =>
      simp only [nodePaths, List.mem_cons, nodeAt_cons, NTree.children]
      rw [show ((j :: q = ([] : List Nat)) ↔ False) by simp]
      rw [false_or, nodePathsKids_mem]
      constructor
      · rintro ⟨m, q', hpq, k, hk, hq⟩
        have h1 : j = 0 + m := by
          have := congrArg (fun l => List.headD l 0) hpq; simpa using this
        have h2 : q = q' := by
          have := congrArg List.tail hpq; simpa using this
        subst h2
        rw [show m = j by omega] at hk
        rw [hk]
        simp only [Option.some_bind]
        exact (mem_nodePaths k q).mp hq
      · intro h
        match hk : kids[j]? with
        | some k =>
          rw [hk] at h
          simp only [Option.some_bind] at h
          exact ⟨j, q, by simp, k, hk, (mem_nodePaths k q).mpr h⟩
        | none => rw [hk] at h; simp at h
end

theorem setFlagsKids_getElem (f : List Nat → Bool → Bool) (path : List Nat) :
    ∀ (kids : List NTree) (j i : Nat),
      (setFlagsKids f path j kids)[i]? =
        (kids[i]?).map (fun k => setFlags f (path ++ [j + i]) k) := by
  intro kids
  induction kids with
  | nil => intro j i; simp [setFlagsKids]
  | cons k0 rest ih =>
    intro j i
    match i with
    | 0 => simp [setFlagsKids]
    | i + 1 =>
      simp only [setFlagsKids, List.getElem?_cons_succ, ih (j + 1) i]
      rw [show j + 1 + i = j + (i + 1) by omega]

theorem setFlagsKids_length (f : List Nat → Bool → Bool) (path : List Nat) :
    ∀ (kids : List NTree) (j : Nat), (setFlagsKids f path j kids).length = kids.length := by
  intro kids
  induction kids with
  | nil => intro j; rfl
  | cons k0 rest ih => intro j; simp [setFlagsKids, ih]

theorem setFlags_data (f : List Nat → Bool → Bool) (path : List Nat) (t : NTree) :
    (setFlags f path t).data = t.data := by
  match t with
  | .mk d l c kids => rfl

theorem setFlags_leaf (f : List Nat → Bool → Bool) (path : List Nat) (t : NTree) :
    (setFlags f path t).leaf = t.leaf := by
  match t with
  | .mk d l c kids => rfl

theorem setFlags_collapsed (f : List Nat → Bool → Bool) (path : List Nat) (t : NTree) :
    (setFlags f path t).collapsed = f path t.collapsed := by
  match t with
  | .mk d l c kids => rfl

theorem setFlags_children (f : List Nat → Bool → Bool) (path : List Nat) (t : NTree) :
    (setFlags f path t).children = setFlagsKids f path 0 t.children := by
  match t with
  | .mk d l c kids => rfl

theorem nodeAt_setFlags (f : List Nat → Bool → Bool) :
    ∀ (q : List Nat) (t : NTree) (path : List Nat),
      nodeAt (setFlags f path t) q = (nodeAt t q).map (fun sub => setFlags f (path ++ q) sub) := by
  intro q
  induction q with
  | nil => intro t path; simp [nodeAt]
  | cons j q ih =>
    intro t path
    simp only [nodeAt_cons, setFlags_children, setFlagsKids_getElem]
    match hk : t.children[j]? with
    | some k =>
      simp only [Nat.zero_add, Option.map_some', Option.some_bind]
      rw [ih k (path ++ [j])]
      simp [List.append_assoc]
    | none => simp

theorem dataAtD_setFlags (f : List Nat → Bool → Bool) (t : NTree) (q : List Nat) :
    dataAtD (setFlags f [] t) q = dataAtD t q := by
  simp only [dataAtD, nodeAt_setFlags]
  match nodeAt t q with
  | some sub => simp [setFlags_data]
  | none => rfl

theorem collapsed_nodeAt_setFlags (f : List Nat → Bool → Bool) (t : NTree) (q : List Nat) :
    (nodeAt (setFlags f [] t) q).map NTree.collapsed =
      (nodeAt t q).map (fun sub => f q sub.collapsed) := by
  simp only [nodeAt_setFlags]
  match nodeAt t q with
  | some sub => simp [setFlags_collapsed]
  | none => rfl

theorem isSome_nodeAt_setFlags (f : List Nat → Bool → Bool) (t : NTree) (q : List Nat) :
    (nodeAt (setFlags f [] t) q).isSome = (nodeAt t q).isSome := by
  simp [nodeAt_setFlags]

theorem mem_nodePaths_setFlags (f : List Nat → Bool → Bool) (t : NTree) (p : List Nat) :
    p ∈ nodePaths (setFlags f [] t) ↔ p ∈ nodePaths t := by
  rw [mem_nodePaths, mem_nodePaths, isSome_nodeAt_setFlags]

theorem eqFaithfulB_setFlags (f : List Nat → Bool → Bool) (t : NTree)
    (h : eqFaithfulB t = true) : eqFaithfulB (setFlags f [] t) = true := by
  simp only [eqFaithfulB, List.all_eq_true] at h ⊢
  intro p hp q hq
  rw [dataAtD_setFlags, dataAtD_setFlags]
  exact h p ((mem_nodePaths_setFlags f t p).mp hp) q ((mem_nodePaths_setFlags f t q).mp hq)

theorem insideB_setFlags (f : List Nat → Bool → Bool) (t : NTree) (nd : NData) (q : List Nat) :
    insideB (setFlags f [] t) nd q = insideB t nd q := by
  simp only [insideB]
  congr 1
  funext r
  rw [nodeAt_setFlags]
  match nodeAt t r with
  | some sub => simp [setFlags_data]
  | none => rfl

mutual
theorem setFlags_eq_self : ∀ (f : List Nat → Bool → Bool) (path : List Nat) (t : NTree),
    (∀ q sub, nodeAt t q = some sub → f (path ++ q) sub.collapsed = sub.collapsed) →
    setFlags f path t = t
  | f, path, .mk d l c kids, h => by
    simp only [setFlags, NTree.mk.injEq, true_and]
    refine ⟨?_, ?_⟩
    · have := h [] (.mk d l c kids) rfl
      simpa using this
    · refine setFlagsKids_eq_self f path 0 kids ?_
      intro m k hk q sub hsub
      have hstep : nodeAt (NTree.mk d l c kids) ((0 + m) :: q) = some sub := by
        rw [nodeAt_cons]
        simp only [NTree.children, Nat.zero_add, hk, Option.some_bind]
        exact hsub
      have h2 := h ((0 + m) :: q) sub hstep
      simpa using h2

theorem setFlagsKids_eq_self : ∀ (f : List Nat → Bool → Bool) (path : List Nat) (j0 : Nat)
    (kids : List NTree),
    (∀ m k, kids[m]? = some k →
      ∀ q sub, nodeAt k q = some sub → f (path ++ (j0 + m) :: q) sub.collapsed = sub.collapsed) →
    setFlagsKids f path j0 kids = kids
  | f, path, j0, [], _ => rfl
  | f, path, j0, k0 :: rest, h => by
    simp only [setFlagsKids, List.cons.injEq]
    refine ⟨?_, ?_⟩
    · refine setFlags_eq_self f (path ++ [j0]) k0 ?_
      intro q sub hsub
      have h2 := h 0 k0 (by simp) q sub hsub
      simpa using h2
    · refine setFlagsKids_eq_self f path (j0 + 1) rest ?_
      intro m k hk q sub hsub
      have h2 := h (m + 1) k (by simpa using hk) q sub hsub
      rw [show j0 + (m + 1) = j0 + 1 + m by omega] at h2
      exact h2
end

theorem setFlags_id (path : List Nat) (t : NTree) :
    setFlags (fun _ c => c) path t = t :=
  setFlags_eq_self _ path t (fun _ _ _ => rfl)

mutual
theorem setFlags_setFlags : ∀ (g f : List Nat → Bool → Bool) (path : List Nat) (t : NTree),
    setFlags g path (setFlags f path t) = setFlags (fun q c => g q (f q c)) path t
  | g, f, path, .mk d l c kids => by
    simp only [setFlags, NTree.mk.injEq, true_and]
    exact setFlagsKids_setFlagsKids g f path 0 kids

theorem setFlagsKids_setFlagsKids : ∀ (g f : List Nat → Bool → Bool) (path : List Nat)
    (j : Nat) (kids : List NTree),
    setFlagsKids g path j (setFlagsKids f path j kids) =
      setFlagsKids (fun q c => g q (f q c)) path j kids
  | g, f, path, j, [] => rfl
  | g, f, path, j, k0 :: rest => by
    simp only [setFlagsKids, List.cons.injEq]
    exact ⟨setFlags_setFlags g f (path ++ [j]) k0,
           setFlagsKids_setFlagsKids g f path (j + 1) rest⟩
end

theorem visPath_cons (t : NTree) (j : Nat) (p : List Nat) :
    visPath t (j :: p) =
      (!t.collapsed && (t.children[j]?).elim false (fun k => visPath k p)) := by
  simp only [visPath]
  match t.children[j]? with
  | some k => rfl
  | none => rfl

/-- `visPath` characterized pointwise: the path is valid and every strict
ancestor is expanded. -/
theorem visPath_iff (t : NTree) (p : List Nat) :
    visPath t p = true ↔
      (nodeAt t p).isSome = true ∧
      ∀ q ∈ strictPrefixesOf p, ∃ sub, nodeAt t q = some sub ∧ sub.collapsed = false := by
  induction p generalizing t with
  | nil => simp [visPath, nodeAt, strictPrefixesOf]
  | cons j p ih =>
    rw [visPath_cons]
    match hk : t.children[j]? with
    | some k =>
      simp only [Option.elim, Bool.and_eq_true, Bool.not_eq_eq_eq_not, Bool.not_true, ih k]
      constructor
      · intro ⟨hc, hv, hanc⟩
        refine ⟨?_, ?_⟩
        · rw [nodeAt_cons, hk, Option.some_bind]; exact hv
        · intro q hq
          rw [mem_strictPrefixesOf] at hq
          obtain ⟨h1, h2⟩ := hq
          match q with
          | [] => exact ⟨t, rfl, hc⟩
          | a :: as =>
            simp only [isPre, Bool.and_eq_true, beq_iff_eq] at h1
            obtain ⟨rfl, h1⟩ := h1
            have has : as ∈ strictPrefixesOf p := by
              rw [mem_strictPrefixesOf]
              exact ⟨h1, fun hcon => h2 (by rw [hcon])⟩
            obtain ⟨sub, hsub, hco⟩ := hanc as has
            refine ⟨sub, ?_, hco⟩
            rw [nodeAt_cons, hk, Option.some_bind]
            exact hsub
      · intro ⟨hv, hanc⟩
        have hroot : t.collapsed = false := by
          obtain ⟨sub, hsub, hco⟩ := hanc [] (by
            rw [mem_strictPrefixesOf]; exact ⟨rfl, by simp⟩)
          simp only [nodeAt] at hsub
          cases hsub
          exact hco
        refine ⟨hroot, ?_, ?_⟩
        · rw [nodeAt_cons, hk, Option.some_bind] at hv; exact hv
        · intro r hr
          have hjr : (j :: r) ∈ strictPrefixesOf (j :: p) := by
            rw [mem_strictPrefixesOf] at hr ⊢
            refine ⟨by simp [isPre, hr.1], ?_⟩
            intro hcon
            exact hr.2 (by injection hcon)
          obtain ⟨sub, hsub, hco⟩ := hanc (j :: r) hjr
          rw [nodeAt_cons, hk, Option.some_bind] at hsub
          exact ⟨sub, hsub, hco⟩
    | none =>
      simp only [Option.elim, Bool.and_false, false_iff, Bool.false_eq_true]
      intro ⟨hv, _⟩
      rw [nodeAt_cons, hk] at hv
      simp at hv

/-! ## Render lemmas -/

mutual
theorem renderNode_owner : ∀ (s : Style) (path : List Nat) (lvl : Nat) (ic il : Bool)
    (t : NTree), ∀ rl ∈ renderNode s path lvl ic il t,
    ∃ q, rl.owner = path ++ q ∧ visPath t q = true
  | s, path, lvl, ic, il, .mk d leaf coll kids => by
    intro rl hrl
    simp only [renderNode] at hrl
    split at hrl
    · simp only [List.mem_singleton] at hrl
      subst hrl
      exact ⟨[], by simp, rfl⟩
    · simp only [List.mem_append, List.mem_map] at hrl
      rcases hrl with (⟨l, _, rfl⟩ | h) | ⟨l, _, rfl⟩
      · exact ⟨[], by simp, rfl⟩
      · obtain ⟨m, q, k, hk, ho, hv⟩ := renderKids_owner s path lvl 0 kids rl h
        refine ⟨(0 + m) :: q, ho, ?_⟩
        rw [visPath_cons]
        simp only [NTree.children, NTree.collapsed]
        have hcoll : coll = false := by
          rename_i hc; simpa using hc
        rw [hcoll]
        simp only [Nat.zero_add] at hk ⊢
        rw [hk]
        simpa using hv
      · exact ⟨[], by simp, rfl⟩

theorem renderKids_owner : ∀ (s : Style) (path : List Nat) (lvl j : Nat)
    (kids : List NTree), ∀ rl ∈ renderKids s path lvl j kids,
    ∃ m q k, kids[m]? = some k ∧ rl.owner = path ++ ((j + m) :: q) ∧ visPath k q = true
  | s, path, lvl, j, [] => by intro rl hrl; simp [renderKids] at hrl
  | s, path, lvl, j, k0 :: rest => by
    intro rl hrl
    simp only [renderKids, List.mem_append] at hrl
    rcases hrl with h | h
    · obtain ⟨q, ho, hv⟩ := renderNode_owner s (path ++ [j]) (lvl + 1) true rest.isEmpty k0 rl h
      refine ⟨0, q, k0, by simp, ?_, hv⟩
      rw [ho, List.append_assoc]
      simp
    · obtain ⟨m, q, k, hk, ho, hv⟩ := renderKids_owner s path lvl (j + 1) rest rl h
      refine ⟨m + 1, q, k, by simpa using hk, ?_, hv⟩
      rw [ho, show j + 1 + m = j + (m + 1) by omega]
end

theorem renderNode_head (s : Style) (hs : Style.productive s) (path : List Nat)
    (lvl : Nat) (ic il : Bool) (t : NTree) :
    ∃ l rest, renderNode s path lvl ic il t = ⟨l, path⟩ :: rest := by
  match t with
  | .mk d leaf coll kids =>
    simp only [renderNode]
    split
    · exact ⟨_, [], rfl⟩
    · match hf : (s.full ⟨d, leaf, kids.isEmpty, lvl, ic, il⟩).1 with
      | [] => exact absurd hf (hs _)
      | l0 :: ls =>
        refine ⟨l0, (ls.map (fun l => (⟨l, path⟩ : RLine))) ++ renderKids s path lvl 0 kids ++
          ((s.full ⟨d, leaf, kids.isEmpty, lvl, ic, il⟩).2.map (fun l => (⟨l, path⟩ : RLine))), ?_⟩
        simp [hf]

theorem renderNode_ne_nil (s : Style) (hs : Style.productive s) (path : List Nat)
    (lvl : Nat) (ic il : Bool) (t : NTree) :
    renderNode s path lvl ic il t ≠ [] := by
  obtain ⟨l, rest, h⟩ := renderNode_head s hs path lvl ic il t
  simp [h]

mutual
theorem renderNode_contains : ∀ (s : Style), Style.productive s →
    ∀ (path : List Nat) (lvl : Nat) (ic il : Bool) (t : NTree) (q : List Nat),
    visPath t q = true →
    ∃ rl ∈ renderNode s path lvl ic il t, rl.owner = path ++ q
  | s, hs, path, lvl, ic, il, .mk d leaf coll kids, q, hq => by
    match q with
    | [] =>
      obtain ⟨l, rest, hh⟩ := renderNode_head s hs path lvl ic il (.mk d leaf coll kids)
      exact ⟨⟨l, path⟩, by simp [hh], by simp⟩
    | j :: q' =>
      rw [visPath_cons] at hq
      simp only [NTree.collapsed, NTree.children, Bool.and_eq_true,
        Bool.not_eq_eq_eq_not, Bool.not_true] at hq
      obtain ⟨hcoll, hrest⟩ := hq
      match hk : kids[j]? with
      | some k =>
        rw [hk] at hrest
        simp only [Option.elim] at hrest
        obtain ⟨rl, hmem, ho⟩ := renderKids_contains s hs path lvl 0 kids j k q' hk hrest
        refine ⟨rl, ?_, by simpa using ho⟩
        simp only [renderNode, hcoll]
        simp only [Bool.false_eq_true, if_false]
        simp only [List.mem_append]
        exact Or.inl (Or.inr hmem)
      | none => rw [hk] at hrest; simp at hrest

theorem renderKids_contains : ∀ (s : Style), Style.productive s →
    ∀ (path : List Nat) (lvl j : Nat) (kids : List NTree) (m : Nat) (k : NTree)
    (q : List Nat), kids[m]? = some k → visPath k q = true →
    ∃ rl ∈ renderKids s path lvl j kids, rl.owner = path ++ ((j + m) :: q)
  | s, hs, path, lvl, j, [], m, k, q, hk, hq => by simp at hk
  | s, hs, path, lvl, j, k0 :: rest, m, k, q, hk, hq => by
    match m with
    | 0 =>
      simp only [List.getElem?_cons_zero, Option.some.injEq] at hk
      subst hk
      obtain ⟨rl, hmem, ho⟩ := renderNode_contains s hs (path ++ [j]) (lvl + 1) true
        rest.isEmpty k0 q hq
      refine ⟨rl, ?_, ?_⟩
      · simp only [renderKids, List.mem_append]
        exact Or.inl hmem
      · rw [ho, List.append_assoc]
        simp
    | m + 1 =>
      simp only [List.getElem?_cons_succ] at hk
      obtain ⟨rl, hmem, ho⟩ := renderKids_contains s hs path lvl (j + 1) rest m k q hk hq
      refine ⟨rl, ?_, ?_⟩
      · simp only [renderKids, List.mem_append]
        exact Or.inr hmem
      · rw [ho, show j + 1 + m = j + (m + 1) by omega]
end

/-! ## Decomposition of a rendering around one node's span -/

/-- The subtree at a path (defaulting on invalid paths, which no verified
call reaches). -/
theorem isEmpty_set {α : Type} (xs : List α) (i : Nat) (a : α) :
    (xs.set i a).isEmpty = xs.isEmpty := by
  match xs, i with
  | [], _ => rfl
  | x :: rest, 0 => rfl
  | x :: rest, i + 1 => rfl

theorem icAt_nil (ic : Bool) : icAt ic [] = ic := rfl

theorem icAt_cons (ic : Bool) (j : Nat) (p : List Nat) : icAt ic (j :: p) = true := rfl

theorem icAt_true (p : List Nat) : icAt true p = true := by
  match p with
  | [] => rfl
  | _ :: _ => rfl

theorem ilAt_cons (il : Bool) (t : NTree) (j : Nat) (p : List Nat) :
    ilAt il t (j :: p) =
      (t.children[j]?).elim il
        (fun k => if p.isEmpty then j + 1 == t.children.length else ilAt il k p) := by
  simp only [ilAt]
  match t.children[j]? with
  | some k => rfl
  | none => rfl

theorem ilAt_indep (p : List Nat) : ∀ (t : NTree) (b1 b2 : Bool), p ≠ [] →
    (nodeAt t p).isSome = true → ilAt b1 t p = ilAt b2 t p := by
  induction p with
  | nil => intro t b1 b2 h; exact absurd rfl h
  | cons j p ih =>
    intro t b1 b2 _ hv
    rw [ilAt_cons, ilAt_cons]
    match hk : t.children[j]? with
    | some k =>
      simp only [Option.elim]
      match p with
      | [] => simp
      | q :: qs =>
        simp only [List.isEmpty_cons, Bool.false_eq_true, if_false]
        refine ih k b1 b2 (by simp) ?_
        rw [nodeAt_cons, hk, Option.some_bind] at hv
        exact hv
    | none =>
      rw [nodeAt_cons, hk] at hv
      simp at hv

theorem ilAt_setFlags (f : List Nat → Bool → Bool) (p : List Nat) :
    ∀ (t : NTree) (path : List Nat) (il : Bool),
      ilAt il (setFlags f path t) p = ilAt il t p := by
  induction p with
  | nil => intro t path il; rfl
  | cons j p ih =>
    intro t path il
    rw [ilAt_cons, ilAt_cons, setFlags_children, setFlagsKids_getElem]
    match hk : t.children[j]? with
    | some k =>
      simp only [Option.map_some', Option.elim]
      rw [setFlagsKids_length]
      match p with
      | [] => simp
      | q :: qs =>
        simp only [List.isEmpty_cons, Bool.false_eq_true, if_false]
        exact ih k (path ++ [0 + j]) il
    | none => simp

theorem subAtD_setFlags (f : List Nat → Bool → Bool) (t : NTree) (p : List Nat)
    (hv : (nodeAt t p).isSome = true) :
    subAtD (setFlags f [] t) p = setFlags f p (subAtD t p) := by
  simp only [subAtD, nodeAt_setFlags, List.nil_append]
  match h : nodeAt t p with
  | some sub => rfl
  | none => rw [h] at hv; simp at hv

/-- A tree fixed by `setFlags` has a pointwise-trivial flag function. -/
theorem setFlags_pointwise {f : List Nat → Bool → Bool} {path : List Nat} {t : NTree}
    (h : setFlags f path t = t) :
    ∀ q sub, nodeAt t q = some sub → f (path ++ q) sub.collapsed = sub.collapsed := by
  intro q sub hsub
  have h3 := congrArg (fun u => (nodeAt u q).map NTree.collapsed) h
  simp only [nodeAt_setFlags, hsub, Option.map_some', setFlags_collapsed,
    Option.some.injEq] at h3
  exact h3

/-- When the flag function is trivial on every sibling subtree, flagging
the child list only rewrites the one targeted child. -/
theorem setFlagsKids_as_set (f : List Nat → Bool → Bool) (path : List Nat) :
    ∀ (kids : List NTree) (j0 i : Nat) (k : NTree), kids[i]? = some k →
    (∀ m k', kids[m]? = some k' → m ≠ i → setFlags f (path ++ [j0 + m]) k' = k') →
    setFlagsKids f path j0 kids = kids.set i (setFlags f (path ++ [j0 + i]) k) := by
  intro kids
  induction kids with
  | nil => intro j0 i k hk; simp at hk
  | cons k0 rest ih =>
    intro j0 i k hk hsib
    match i with
    | 0 =>
      simp only [List.getElem?_cons_zero, Option.some.injEq] at hk
      subst hk
      simp only [setFlagsKids, List.set_cons_zero, List.cons.injEq]
      refine ⟨rfl, ?_⟩
      refine setFlagsKids_eq_self f path (j0 + 1) rest ?_
      intro m k' hk' q sub hsub
      have h2 := hsib (m + 1) k' (by simpa using hk') (by simp)
      rw [show j0 + (m + 1) = j0 + 1 + m by omega] at h2
      have h3 := setFlags_pointwise h2 q sub hsub
      rw [show (path ++ [j0 + 1 + m]) ++ q = path ++ (j0 + 1 + m) :: q by simp] at h3
      exact h3
    | i + 1 =>
      simp only [List.getElem?_cons_succ] at hk
      simp only [setFlagsKids, List.set_cons_succ, List.cons.injEq]
      refine ⟨?_, ?_⟩
      · exact hsib 0 k0 (by simp) (by simp)
      · have harg : ∀ m k', rest[m]? = some k' → m ≠ i →
            setFlags f (path ++ [j0 + 1 + m]) k' = k' := by
          intro m k' hk' hne
          have h2 := hsib (m + 1) k' (by simpa using hk') (by omega)
          rw [show j0 + (m + 1) = j0 + 1 + m by omega] at h2
          exact h2
        rw [ih (j0 + 1) i k hk harg, show j0 + 1 + i = j0 + (i + 1) by omega]

/-- Decomposition of the children's rendering around one child: replacing
child `i` by any subtree `k'` only replaces the middle block, and both
outer blocks consist of lines owned by *other* children's subtrees. -/
theorem renderKids_decomp (s : Style) (path : List Nat) (lvl : Nat) :
    ∀ (kids : List NTree) (j0 i : Nat) (k : NTree), kids[i]? = some k →
    ∃ KA KB,
      (∀ k', renderKids s path lvl j0 (kids.set i k')
        = KA ++ renderNode s (path ++ [j0 + i]) (lvl + 1) true
            ((kids.drop (i + 1)).isEmpty) k' ++ KB) ∧
      (∀ rl ∈ KA, ∃ i2 q2, i2 ≠ j0 + i ∧ rl.owner = path ++ i2 :: q2) ∧
      (∀ rl ∈ KB, ∃ i2 q2, i2 ≠ j0 + i ∧ rl.owner = path ++ i2 :: q2) := by
  intro kids
  induction kids with
  | nil => intro j0 i k hk; simp at hk
  | cons k0 rest ih =>
    intro j0 i k hk
    match i with
    | 0 =>
      refine ⟨[], renderKids s path lvl (j0 + 1) rest, ?_, by simp, ?_⟩
      · intro k'
        simp only [List.set_cons_zero, renderKids, List.drop_succ_cons, List.drop_zero,
          List.nil_append, Nat.add_zero]
      · intro rl hrl
        obtain ⟨m, q, k2, hk2, ho, hv⟩ := renderKids_owner s path lvl (j0 + 1) rest rl hrl
        exact ⟨j0 + 1 + m, q, by omega, ho⟩
    | i + 1 =>
      simp only [List.getElem?_cons_succ] at hk
      obtain ⟨KA, KB, heq, hA, hB⟩ := ih (j0 + 1) i k hk
      refine ⟨renderNode s (path ++ [j0]) (lvl + 1) true rest.isEmpty k0 ++ KA, KB, ?_, ?_, ?_⟩
      · intro k'
        simp only [List.set_cons_succ, renderKids, isEmpty_set]
        rw [heq k', show j0 + 1 + i = j0 + (i + 1) by omega]
        simp [List.append_assoc, List.drop_succ_cons]
      · intro rl hrl
        simp only [List.mem_append] at hrl
        rcases hrl with h | h
        · obtain ⟨q, ho, _⟩ := renderNode_owner s (path ++ [j0]) (lvl + 1) true rest.isEmpty k0 rl h
          refine ⟨j0, q, by omega, ?_⟩
          rw [ho, List.append_assoc]
          simp
        · obtain ⟨i2, q2, hne, ho⟩ := hA rl h
          exact ⟨i2, q2, by omega, ho⟩
      · intro rl hrl
        obtain ⟨i2, q2, hne, ho⟩ := hB rl hrl
        exact ⟨i2, q2, by omega, ho⟩

theorem isEmpty_eq_beq_length {α : Type} (xs : List α) : xs.isEmpty = (xs.length == 0) := by
  cases xs <;> rfl

theorem lt_length_of_getElem? {α : Type} :
    ∀ (xs : List α) (i : Nat) (a : α), xs[i]? = some a → i < xs.length := by
  intro xs
  induction xs with
  | nil => intro i a h; simp at h
  | cons x rest ih =>
    intro i a h
    match i with
    | 0 => simp
    | i + 1 =>
      simp only [List.getElem?_cons_succ] at h
      have := ih i a h
      simp
      omega

theorem isPre_cons_index_false {j m : Nat} (path p' q : List Nat) (hne : j ≠ m) :
    isPre (path ++ j :: p') (path ++ m :: q) = false := by
  rw [isPre_append_cancel]
  simp only [isPre, Bool.and_eq_false_iff]
  left
  simpa using hne

/-- Main decomposition: the rendering of a tree splits as `A ++ M ++ B`
around the span of the (visible) node at path `p`, where `A` and `B` are
unchanged by any collapsed-flag modification confined to `p`'s subtree and
carry only lines owned outside that subtree, while `M` is the rendering of
the (possibly re-flagged) subtree itself. -/
theorem renderDecomp (s : Style) :
    ∀ (p : List Nat) (t : NTree) (path : List Nat) (lvl : Nat) (ic il : Bool),
    visPath t p = true →
    ∃ A B,
      (∀ f, (∀ q c, isPre (path ++ p) q = false → f q c = c) →
        renderNode s path lvl ic il (setFlags f path t)
          = A ++ renderNode s (path ++ p) (lvl + p.length) (icAt ic p) (ilAt il t p)
              (setFlags f (path ++ p) (subAtD t p)) ++ B) ∧
      (∀ rl ∈ A, isPre (path ++ p) rl.owner = false) ∧
      (∀ rl ∈ B, isPre (path ++ p) rl.owner = false) := by
  intro p
  induction p with
  | nil =>
    intro t path lvl ic il _
    refine ⟨[], [], ?_, by simp, by simp⟩
    intro f _
    simp [subAtD, nodeAt, icAt, ilAt]
  | cons j p' ih =>
    intro t path lvl ic il hvis
    match t with
    | .mk d leaf coll kids =>
      rw [visPath_cons] at hvis
      simp only [NTree.collapsed, NTree.children, Bool.and_eq_true,
        Bool.not_eq_eq_eq_not, Bool.not_true] at hvis
      obtain ⟨hcoll, hvk0⟩ := hvis
      subst hcoll
      match hk : kids[j]? with
      | some k =>
        rw [hk] at hvk0
        simp only [Option.elim] at hvk0
        have hj : j < kids.length := lt_length_of_getElem? kids j k hk
        obtain ⟨A', B', hmid, hA', hB'⟩ :=
          ih k (path ++ [j]) (lvl + 1) true ((kids.drop (j + 1)).isEmpty) hvk0
        obtain ⟨KA, KB, hK, hKA, hKB⟩ := renderKids_decomp s path lvl kids 0 j k hk
        let ctx : NodeCtx := ⟨d, leaf, kids.isEmpty, lvl, ic, il⟩
        refine ⟨((s.full ctx).1.map (fun l => (⟨l, path⟩ : RLine))) ++ KA ++ A',
                B' ++ KB ++ ((s.full ctx).2.map (fun l => (⟨l, path⟩ : RLine))), ?_, ?_, ?_⟩
        · intro f hf
          -- the root's flag is untouched
          have hroot : f path false = false := by
            refine hf path false (isPre_false_of_short ?_)
            simp
          -- siblings are untouched
          have hsib : ∀ m k', kids[m]? = some k' → m ≠ j →
              setFlags f (path ++ [0 + m]) k' = k' := by
            intro m k' hk' hne
            refine setFlags_eq_self f (path ++ [0 + m]) k' ?_
            intro q sub hsub
            refine hf _ _ ?_
            rw [show (path ++ [0 + m]) ++ q = path ++ (0 + m) :: q from (by simp)]
            exact isPre_cons_index_false path p' q (by omega)
          have hstep : setFlags f path (NTree.mk d leaf false kids)
              = NTree.mk d leaf false (kids.set j (setFlags f (path ++ [0 + j]) k)) := by
            simp only [setFlags, hroot]
            rw [setFlagsKids_as_set f path kids 0 j k hk hsib]
          rw [hstep]
          -- unfold the outer render over the replaced child list
          simp only [renderNode, isEmpty_set, Bool.false_eq_true, if_false]
          rw [hK (setFlags f (path ++ [0 + j]) k)]
          have hmid2 := hmid f (by
            intro q c hq
            refine hf q c ?_
            rw [show (path ++ [j]) ++ p' = path ++ j :: p' from (by simp)] at hq
            exact hq)
          simp only [Nat.zero_add] at hmid2 ⊢
          rw [hmid2]
          -- align the nested arguments with the statement's form
          have e1 : (path ++ [j]) ++ p' = path ++ j :: p' := by simp
          have e2 : lvl + 1 + p'.length = lvl + (j :: p').length := by simp; omega
          have e3 : icAt true p' = icAt ic (j :: p') := by rw [icAt_true, icAt_cons]
          have e4 : ilAt ((kids.drop (j + 1)).isEmpty) k p'
              = ilAt il (NTree.mk d leaf false kids) (j :: p') := by
            rw [ilAt_cons]
            simp only [NTree.children, hk, Option.elim]
            match p' with
            | [] =>
              simp only [List.isEmpty_nil, if_true, ilAt]
              rw [isEmpty_eq_beq_length, List.length_drop]
              rw [Bool.eq_iff_iff]
              simp only [beq_iff_eq]
              omega
            | q :: qs =>
              simp only [List.isEmpty_cons, Bool.false_eq_true, if_false]
              refine ilAt_indep (q :: qs) k _ _ (by simp) ?_
              exact ((visPath_iff k (q :: qs)).mp hvk0).1
          have e5 : subAtD k p' = subAtD (NTree.mk d leaf false kids) (j :: p') := by
            simp [subAtD, nodeAt_cons, NTree.children, hk]
          rw [e1, e2, e3, e4, e5]
          simp [List.append_assoc]
        · intro rl hrl
          simp only [List.mem_append, List.mem_map] at hrl
          rcases hrl with (⟨l, _, rfl⟩ | h) | h
          · exact isPre_false_of_short (by simp)
          · obtain ⟨i2, q2, hne, ho⟩ := hKA rl h
            rw [ho]
            exact isPre_cons_index_false path p' q2 (by omega)
          · have h2 := hA' rl h
            rw [show (path ++ [j]) ++ p' = path ++ j :: p' from (by simp)] at h2
            exact h2
        · intro rl hrl
          simp only [List.mem_append, List.mem_map] at hrl
          rcases hrl with (h | h) | ⟨l, _, rfl⟩
          · have h2 := hB' rl h
            rw [show (path ++ [j]) ++ p' = path ++ j :: p' from (by simp)] at h2
            exact h2
          · obtain ⟨i2, q2, hne, ho⟩ := hKB rl h
            rw [ho]
            exact isPre_cons_index_false path p' q2 (by omega)
          · exact isPre_false_of_short (by simp)
      | none =>
        rw [hk] at hvk0
        simp at hvk0

/-! ## Faithful equality and the span scan -/

theorem eqFaithful_iff {t : NTree} (h : eqFaithfulB t = true) :
    ∀ p q, (nodeAt t p).isSome = true → (nodeAt t q).isSome = true →
    (nodeEq (dataAtD t p) (dataAtD t q) = true ↔ p = q) := by
  simp only [eqFaithfulB, List.all_eq_true] at h
  intro p q hp hq
  have h2 := h p ((mem_nodePaths t p).mpr hp) q ((mem_nodePaths t q).mpr hq)
  simp only [beq_iff_eq] at h2
  rw [h2]
  simp

/-- Under faithful equality, `node_span`'s `inside` test is exactly the
path-prefix (descendant-or-self) relation. -/
theorem insideB_eq_isPre {t : NTree} (h : eqFaithfulB t = true) (p q : List Nat)
    (hp : (nodeAt t p).isSome = true) (hq : (nodeAt t q).isSome = true) :
    insideB t (dataAtD t p) q = isPre p q := by
  rw [Bool.eq_iff_iff]
  simp only [insideB, List.any_eq_true]
  constructor
  · rintro ⟨r, hr, hmatch⟩
    rw [mem_prefixesOf] at hr
    have hrv : (nodeAt t r).isSome = true := isSome_nodeAt_of_isPre hq hr
    match hnr : nodeAt t r with
    | some sub =>
      rw [hnr] at hmatch
      have : nodeEq (dataAtD t p) (dataAtD t r) = true := by
        rw [show dataAtD t r = sub.data from (by simp [dataAtD, hnr])]
        exact hmatch
      have := (eqFaithful_iff h p r hp hrv).mp this
      subst this
      exact hr
    | none => rw [hnr] at hmatch; simp at hmatch
  · intro hpq
    refine ⟨p, mem_prefixesOf.mpr hpq, ?_⟩
    match hnp : nodeAt t p with
    | some sub =>
      have : dataAtD t p = sub.data := by simp [dataAtD, hnp]
      rw [this] at *
      have h3 := (eqFaithful_iff h p p hp hp).mpr rfl
      rw [show dataAtD t p = sub.data from (by simp [dataAtD, hnp])] at h3
      exact h3
    | none => rw [hnp] at hp; simp at hp

theorem scanDown_eq (pred : Nat → Bool) :
    ∀ (start a : Nat), a ≤ start → (∀ k, a ≤ k → k < start → pred k = true) →
    (a = 0 ∨ pred (a - 1) = false) → scanDown pred start = a := by
  intro start
  induction start with
  | zero =>
    intro a h1 _ _
    have : a = 0 := by omega
    simp [scanDown, this]
  | succ s ih =>
    intro a h1 h2 h3
    by_cases has : a = s + 1
    · subst has
      rcases h3 with h3 | h3
      · omega
      · simp only [scanDown, Nat.add_sub_cancel] at h3 ⊢
        rw [h3]
        simp
    · have ha : a ≤ s := by omega
      have hps : pred s = true := h2 s ha (by omega)
      simp only [scanDown, hps, if_true]
      exact ih a ha (fun k hk1 hk2 => h2 k hk1 (by omega)) h3

theorem scanUpF_eq (pred : Nat → Bool) (len : Nat) :
    ∀ (fuel l b : Nat), l ≤ b → b ≤ len - 1 →
    (∀ k, l < k → k ≤ b → pred k = true) →
    (b = len - 1 ∨ pred (b + 1) = false) →
    b - l ≤ fuel → scanUpF pred len fuel l = b := by
  intro fuel
  induction fuel with
  | zero =>
    intro l b h1 h2 h3 h4 h5
    have : l = b := by omega
    simp [scanUpF, this]
  | succ fu ih =>
    intro l b h1 h2 h3 h4 h5
    by_cases hlb : l = b
    · subst hlb
      simp only [scanUpF]
      rcases h4 with h4 | h4
      · have : ¬(l < len - 1) := by omega
        simp [this]
      · simp [h4]
    · have hlt : l < b := by omega
      have hp : pred (l + 1) = true := h3 (l + 1) (by omega) (by omega)
      have hguard : l < len - 1 := by omega
      simp only [scanUpF]
      rw [if_pos (by simp [hguard, hp])]
      exact ih (l + 1) b (by omega) h2 (fun k hk1 hk2 => h3 k (by omega) hk2) h4 (by omega)

theorem mem_of_getElem? {α : Type} :
    ∀ (xs : List α) (i : Nat) (a : α), xs[i]? = some a → a ∈ xs := by
  intro xs
  induction xs with
  | nil => intro i a h; simp at h
  | cons x rest ih =>
    intro i a h
    match i with
    | 0 => simp at h; simp [h]
    | i + 1 =>
      simp only [List.getElem?_cons_succ] at h
      exact List.mem_cons_of_mem x (ih i a h)

theorem getD_eq_of_getElem? {α : Type} [Inhabited α] (xs : List α) (i : Nat) (a : α)
    (h : xs[i]? = some a) : xs.getD i default = a := by
  rw [List.getD_eq_getElem?_getD, h]
  rfl

/-- Correctness of the outward scan: on a line list `A ++ M ++ B` where the
`inside` test holds exactly on `M`, `node_span` from any start inside `M`
returns `M`'s bounds. -/
theorem nodeSpan_seg (t : NTree) (nd : NData) (A M B : List RLine) (start : Nat)
    (hM : M ≠ [])
    (hin : ∀ rl ∈ M, insideB t nd rl.owner = true)
    (hA : ∀ rl ∈ A, insideB t nd rl.owner = false)
    (hB : ∀ rl ∈ B, insideB t nd rl.owner = false)
    (h1 : A.length ≤ start) (h2 : start < A.length + M.length) :
    nodeSpan t (A ++ M ++ B) start nd = (A.length, A.length + M.length - 1) := by
  have hMlen : 1 ≤ M.length := by
    match M with
    | [] => exact absurd rfl hM
    | _ :: _ => simp
  set lines := A ++ M ++ B with hlines
  have hlen : lines.length = A.length + M.length + B.length := by
    simp only [hlines, List.length_append]
  have hgetA : ∀ k, k < A.length → lines[k]? = A[k]? := by
    intro k hk
    rw [hlines, List.append_assoc, List.getElem?_append_left hk]
  have hgetM : ∀ k, A.length ≤ k → k < A.length + M.length →
      lines[k]? = M[k - A.length]? := by
    intro k hk1 hk2
    rw [hlines, List.append_assoc, List.getElem?_append_right hk1,
      List.getElem?_append_left (by omega)]
  have hgetB : ∀ k, A.length + M.length ≤ k → lines[k]? = B[k - A.length - M.length]? := by
    intro k hk
    rw [hlines, List.append_assoc, List.getElem?_append_right (by omega),
      List.getElem?_append_right (by omega)]
  have hpredM : ∀ k, A.length ≤ k → k < A.length + M.length →
      (match lines[k]? with
       | some rl => insideB t nd rl.owner
       | none => false) = true := by
    intro k hk1 hk2
    rw [hgetM k hk1 hk2]
    match hm : M[k - A.length]? with
    | some rl => exact hin rl (mem_of_getElem? M _ rl hm)
    | none =>
      have := lt_length_of_getElem? M (k - A.length) -- unusable without some; contradiction:
      exfalso
      have hlt : k - A.length < M.length := by omega
      rw [List.getElem?_eq_getElem hlt] at hm
      simp at hm
  have hpredA : ∀ k, k < A.length →
      (match lines[k]? with
       | some rl => insideB t nd rl.owner
       | none => false) = false := by
    intro k hk
    rw [hgetA k hk]
    match hm : A[k]? with
    | some rl => exact hA rl (mem_of_getElem? A _ rl hm)
    | none => rfl
  have hpredB : ∀ k, A.length + M.length ≤ k →
      (match lines[k]? with
       | some rl => insideB t nd rl.owner
       | none => false) = false := by
    intro k hk
    rw [hgetB k hk]
    match hm : B[k - A.length - M.length]? with
    | some rl => exact hB rl (mem_of_getElem? B _ rl hm)
    | none => rfl
  simp only [nodeSpan, Prod.mk.injEq]
  constructor
  · refine scanDown_eq _ start A.length h1 (fun k hk1 hk2 => hpredM k hk1 (by omega)) ?_
    match hA0 : A.length with
    | 0 => exact Or.inl rfl
    | n + 1 =>
      refine Or.inr (hpredA n (by omega))
  · refine scanUpF_eq _ lines.length lines.length start (A.length + M.length - 1)
      (by omega) (by omega) (fun k hk1 hk2 => hpredM k (by omega) (by omega)) ?_ (by omega)
    by_cases hBe : B.length = 0
    · exact Or.inl (by omega)
    · refine Or.inr ?_
      rw [show A.length + M.length - 1 + 1 = A.length + M.length by omega]
      exact hpredB (A.length + M.length) (by omega)

theorem subAtD_eq {t : NTree} {p : List Nat} {sub : NTree} (h : nodeAt t p = some sub) :
    subAtD t p = sub := by simp [subAtD, h]

theorem renderSeg_eq_of_valid (s : Style) (t : NTree) (p : List Nat) (sub : NTree)
    (h : nodeAt t p = some sub) :
    renderSeg s t p = renderNode s p p.length (icAt false p) (ilAt false t p) sub := by
  simp [renderSeg, h]

theorem renderSeg_ne_nil (s : Style) (hs : Style.productive s) (t : NTree) (p : List Nat)
    (hv : (nodeAt t p).isSome = true) : renderSeg s t p ≠ [] := by
  match h : nodeAt t p with
  | some sub =>
    rw [renderSeg_eq_of_valid s t p sub h]
    exact renderNode_ne_nil s hs p p.length (icAt false p) (ilAt false t p) sub
  | none => rw [h] at hv; simp at hv

theorem renderSeg_as_renderNode (s : Style) (t : NTree) (p : List Nat)
    (hv : (nodeAt t p).isSome = true) :
    renderSeg s t p
      = renderNode s p (0 + p.length) (icAt false p) (ilAt false t p) (subAtD t p) := by
  match h : nodeAt t p with
  | some sub =>
    rw [renderSeg_eq_of_valid s t p sub h, subAtD_eq h, Nat.zero_add]
  | none => rw [h] at hv; simp at hv

/-- The root-level decomposition: the full rendering splits around any
visible node's span, and the flanks survive any flag change confined to
that node's subtree. -/
theorem renderDecompRoot (s : Style) (t : NTree) (p : List Nat) (hvis : visPath t p = true) :
    ∃ A B,
      render s t = A ++ renderSeg s t p ++ B ∧
      (∀ f, (∀ q c, isPre p q = false → f q c = c) →
        render s (setFlags f [] t) = A ++ renderSeg s (setFlags f [] t) p ++ B) ∧
      (∀ rl ∈ A, isPre p rl.owner = false) ∧
      (∀ rl ∈ B, isPre p rl.owner = false) := by
  obtain ⟨A, B, heq, hA, hB⟩ := renderDecomp s p t [] 0 false false hvis
  simp only [List.nil_append] at heq hA hB
  have hvalid : (nodeAt t p).isSome = true := ((visPath_iff t p).mp hvis).1
  refine ⟨A, B, ?_, ?_, hA, hB⟩
  · have h2 := heq (fun _ c => c) (fun _ _ _ => rfl)
    rw [setFlags_id, setFlags_id] at h2
    rw [render, h2, renderSeg_as_renderNode s t p hvalid]
  · intro f hf
    have h2 := heq f hf
    rw [render, h2]
    have hvalid2 : (nodeAt (setFlags f [] t) p).isSome = true := by
      rw [isSome_nodeAt_setFlags]; exact hvalid
    rw [renderSeg_as_renderNode s (setFlags f [] t) p hvalid2,
        ilAt_setFlags, subAtD_setFlags f t p hvalid]

theorem nodeSpan_tree_congr (t1 t2 : NTree) (lines : List RLine) (start : Nat)
    (nd : NData) (h : ∀ q, insideB t1 nd q = insideB t2 nd q) :
    nodeSpan t1 lines start nd = nodeSpan t2 lines start nd := by
  simp only [nodeSpan]
  have hp : (fun (j : Nat) =>
      match lines[j]? with
      | some rl => insideB t1 nd rl.owner
      | none => false)
    = (fun (j : Nat) =>
      match lines[j]? with
      | some rl => insideB t2 nd rl.owner
      | none => false) := by
    funext j
    match lines[j]? with
    | some rl => exact h rl.owner
    | none => rfl
  rw [hp]

/-- Ownership and validity facts for the line under a given index of a
rendered line list. -/
theorem lines_owner_valid {s : Style} {t : NTree} {lines : List RLine}
    (hlines : lines = render s t) {start : Nat} {rl : RLine}
    (hget : lines[start]? = some rl) : visPath t rl.owner = true := by
  subst hlines
  have hmem := mem_of_getElem? _ _ _ hget
  obtain ⟨q, ho, hv⟩ := renderNode_owner s [] 0 false false t rl hmem
  simp only [List.nil_append] at ho
  rw [ho]
  exact hv

/-- The core of every collapse/expand operation: with the view's line list
a valid rendering, node equality faithful, and the flag change confined to
the subtree of the node owning line `start`, `rerender` replaces exactly
that node's old span by its new rendering, leaving the line list equal to
the full rendering of the updated tree. -/
theorem rerender_core (v : View) (f : List Nat → Bool → Bool) (start : Nat)
    (hlines : v.lines = render v.style v.tree)
    (hEq : eqFaithfulB v.tree = true)
    (hs : Style.productive v.style)
    (hstart : start < v.lines.length)
    (hf : ∀ q c, isPre (v.ownerAt start) q = false → f q c = c) :
    ∃ A B,
      v.lines = A ++ renderSeg v.style v.tree (v.ownerAt start) ++ B ∧
      render v.style (setFlags f [] v.tree)
        = A ++ renderSeg v.style (setFlags f [] v.tree) (v.ownerAt start) ++ B ∧
      visPath v.tree (v.ownerAt start) = true ∧
      A.length ≤ start ∧
      start < A.length + (renderSeg v.style v.tree (v.ownerAt start)).length ∧
      nodeSpan (setFlags f [] v.tree) v.lines start
        (dataAtD (setFlags f [] v.tree) (v.ownerAt start))
        = (A.length, A.length + (renderSeg v.style v.tree (v.ownerAt start)).length - 1) ∧
      View.rerender { v with tree := setFlags f [] v.tree } start =
        (View.adjustViewport
          { v with
            tree := setFlags f [] v.tree
            lines := render v.style (setFlags f [] v.tree) },
         (A.length,
          A.length + (renderSeg v.style (setFlags f [] v.tree) (v.ownerAt start)).length - 1)) := by
  set s := v.style with hsdef
  set t := v.tree with htdef
  set p := v.ownerAt start with hpdef
  set t2 := setFlags f [] t with ht2
  -- the line at start and its owner
  have hget : v.lines[start]? = some (v.lines.getD start default) := by
    rw [List.getD_eq_getElem?_getD, List.getElem?_eq_getElem hstart]
    rfl
  have howner : (v.lines.getD start default).owner = p := rfl
  have hvis : visPath t p = true := by
    rw [← howner]
    exact lines_owner_valid hlines hget
  have hvalid : (nodeAt t p).isSome = true := ((visPath_iff t p).mp hvis).1
  obtain ⟨A, B, hOrig, hMod, hA, hB⟩ := renderDecompRoot s t p hvis
  have hMod2 := hMod f hf
  set M := renderSeg s t p with hM
  have hMne : M ≠ [] := renderSeg_ne_nil s hs t p hvalid
  have hMlen : 0 < M.length := List.length_pos.mpr hMne
  have hlines2 : v.lines = A ++ M ++ B := by rw [hlines, hOrig]
  -- validity of all owners in the rendering
  have hvalid_all : ∀ rl ∈ render s t, (nodeAt t rl.owner).isSome = true := by
    intro rl hmem
    obtain ⟨q, ho, hv⟩ := renderNode_owner s [] 0 false false t rl hmem
    simp only [List.nil_append] at ho
    rw [ho]
    exact ((visPath_iff t q).mp hv).1
  -- start lies within M's block
  have hpos : A.length ≤ start ∧ start < A.length + M.length := by
    constructor
    · by_contra hcon
      have hlt : start < A.length := by omega
      have : v.lines[start]? = A[start]? := by
        rw [hlines2, List.append_assoc, List.getElem?_append_left hlt]
      rw [hget] at this
      have hmemA : v.lines.getD start default ∈ A :=
        mem_of_getElem? A start _ this.symm
      have := hA _ hmemA
      rw [howner, isPre_refl] at this
      simp at this
    · by_contra hcon
      have hge : A.length + M.length ≤ start := by omega
      have hlen2 : v.lines.length = A.length + M.length + B.length := by
        rw [hlines2]; simp only [List.length_append]
      have : v.lines[start]? = B[start - A.length - M.length]? := by
        rw [hlines2, List.append_assoc, List.getElem?_append_right (by omega),
          List.getElem?_append_right (by omega)]
      rw [hget] at this
      have hmemB : v.lines.getD start default ∈ B :=
        mem_of_getElem? B _ _ this.symm
      have := hB _ hmemB
      rw [howner, isPre_refl] at this
      simp at this
  -- the span over the old lines is M's block
  have hspan : nodeSpan t2 v.lines start (dataAtD t2 p)
      = (A.length, A.length + M.length - 1) := by
    rw [show dataAtD t2 p = dataAtD t p from dataAtD_setFlags f t p]
    rw [nodeSpan_tree_congr t2 t v.lines start (dataAtD t p)
      (fun q => insideB_setFlags f t (dataAtD t p) q)]
    rw [hlines2]
    refine nodeSpan_seg t (dataAtD t p) A M B start hMne ?_ ?_ ?_ hpos.1 hpos.2
    · intro rl hmem
      have hmem2 : rl ∈ render s t := by
        rw [hOrig]
        simp only [List.mem_append]
        exact Or.inl (Or.inr hmem)
      have hov := hvalid_all rl hmem2
      rw [insideB_eq_isPre hEq p rl.owner hvalid hov]
      -- owners inside M extend p
      match hsub : nodeAt t p with
      | some sub =>
        rw [renderSeg_eq_of_valid s t p sub hsub] at hM
        rw [hM] at hmem
        obtain ⟨q, ho, _⟩ := renderNode_owner s p p.length (icAt false p)
          (ilAt false t p) sub rl hmem
        rw [ho]
        exact isPre_append p q
      | none => rw [hsub] at hvalid; simp at hvalid
    · intro rl hmem
      have hmem2 : rl ∈ render s t := by
        rw [hOrig]; simp only [List.mem_append]; exact Or.inl (Or.inl hmem)
      rw [insideB_eq_isPre hEq p rl.owner hvalid (hvalid_all rl hmem2)]
      exact hA rl hmem
    · intro rl hmem
      have hmem2 : rl ∈ render s t := by
        rw [hOrig]; simp only [List.mem_append]; exact Or.inr hmem
      rw [insideB_eq_isPre hEq p rl.owner hvalid (hvalid_all rl hmem2)]
      exact hB rl hmem
  refine ⟨A, B, hlines2, hMod2, hvis, hpos.1, hpos.2, hspan, ?_⟩
  -- unfold rerender over the computed span
  have hown2 : View.ownerAt { v with tree := t2 } start = p := rfl
  simp only [View.rerender, hown2, View.renderSpan]
  rw [hspan]
  have hsplice : spliceIncl v.lines A.length (A.length + M.length - 1)
      (renderSeg s t2 p) = render s t2 := by
    simp only [spliceIncl]
    rw [show A.length + M.length - 1 + 1 = A.length + M.length from (by omega)]
    rw [hlines2, hMod2]
    rw [List.append_assoc A M B, List.take_left A (M ++ B)]
    rw [show A ++ (M ++ B) = (A ++ M) ++ B from (List.append_assoc A M B).symm,
        show A.length + M.length = (A ++ M).length from (by simp),
        List.drop_left (A ++ M) B]
  rw [hsplice]

/-! ## View-level facts -/

theorem render_ne_nil (s : Style) (hs : Style.productive s) (t : NTree) :
    render s t ≠ [] :=
  renderNode_ne_nil s hs [] 0 false false t

theorem clampI_bounds (val lo hi : Int) (h : lo ≤ hi) :
    lo ≤ clampI val lo hi ∧ clampI val lo hi ≤ hi := by
  simp only [clampI]
  split
  · exact ⟨le_refl lo, h⟩
  · split
    · exact ⟨h, le_refl hi⟩
    · omega

theorem adjustViewport_lines (v : View) : (View.adjustViewport v).lines = v.lines := rfl

theorem adjustViewport_focus (v : View) : (View.adjustViewport v).focus = v.focus := rfl

theorem adjustViewport_tree (v : View) : (View.adjustViewport v).tree = v.tree := rfl

theorem adjustViewport_style (v : View) : (View.adjustViewport v).style = v.style := rfl

theorem setFocus_lines (v : View) (i : Int) : (v.setFocus i).lines = v.lines := rfl

theorem setFocus_tree (v : View) (i : Int) : (v.setFocus i).tree = v.tree := rfl

theorem setFocus_style (v : View) (i : Int) : (v.setFocus i).style = v.style := rfl

theorem setFocus_focus (v : View) (i : Int) :
    (v.setFocus i).focus = clampI i 0 ((v.lines.length : Int) - 1) := rfl

/-- `set_focus` restores the focus invariant on any non-empty line list. -/
theorem setFocus_inv (v : View) (i : Int)
    (hlines : v.lines = render v.style v.tree)
    (hEq : eqFaithfulB v.tree = true)
    (hne : v.lines ≠ []) : ViewInv (v.setFocus i) := by
  have hlen : 1 ≤ v.lines.length := List.length_pos.mpr hne
  have hb := clampI_bounds i 0 ((v.lines.length : Int) - 1) (by omega)
  refine ⟨setFocus_lines v i ▸ hlines, setFocus_tree v i ▸ hEq, ?_, ?_⟩
  · rw [setFocus_focus]; exact hb.1
  · rw [setFocus_focus, setFocus_lines]; omega

theorem firstOwner_lt (p : List Nat) :
    ∀ (lines : List RLine) (i : Nat), firstOwner p lines = some i → i < lines.length := by
  intro lines
  induction lines with
  | nil => intro i h; simp [firstOwner] at h
  | cons rl rest ih =>
    intro i h
    simp only [firstOwner] at h
    split at h
    · cases h; simp
    · match hfo : firstOwner p rest with
      | some i2 =>
        rw [hfo] at h
        simp only [Option.map_some', Option.some.injEq] at h
        subst h
        have := ih i2 hfo
        simp
        omega
      | none => rw [hfo] at h; simp at h

theorem firstOwner_isSome_of_mem {p : List Nat} :
    ∀ {lines : List RLine} {rl : RLine}, rl ∈ lines → rl.owner = p →
    (firstOwner p lines).isSome = true := by
  intro lines
  induction lines with
  | nil => intro rl h; simp at h
  | cons rl0 rest ih =>
    intro rl h ho
    simp only [List.mem_cons] at h
    simp only [firstOwner]
    rcases h with rfl | h
    · rw [if_pos ho]; rfl
    · split
      · rfl
      · have := ih h ho
        match hfo : firstOwner p rest with
        | some i => simp
        | none => rw [hfo] at this; simp at this

/-- The first line of a rendered view is owned by the root. -/
theorem ownerAt_zero (v : View) (hlines : v.lines = render v.style v.tree)
    (hs : Style.productive v.style) : v.ownerAt 0 = [] := by
  obtain ⟨l, rest, hh⟩ := renderNode_head v.style hs [] 0 false false v.tree
  simp only [View.ownerAt, hlines, render, hh]
  rfl

theorem lines_ne_nil_of_inv {v : View} (hInv : ViewInv v) : v.lines ≠ [] := by
  obtain ⟨_, _, h0, h1⟩ := hInv
  intro hcon
  rw [hcon] at h1
  simp at h1
  omega

theorem focus_toNat_lt {v : View} (hInv : ViewInv v) : v.focus.toNat < v.lines.length := by
  obtain ⟨_, _, h0, h1⟩ := hInv
  omega

/-- Invariant preservation for the shared tail of `collapse_current`,
`expand_current` and `expand_below`: re-flag inside the focused node's
subtree, rerender at the focus, then focus the span's first line. -/
theorem inv_flag_rerender_focus (v : View) (f : List Nat → Bool → Bool)
    (hs : Style.productive v.style) (hInv : ViewInv v)
    (hf : ∀ q c, isPre (v.ownerAt v.focus.toNat) q = false → f q c = c) :
    ViewInv ((View.rerender { v with tree := setFlags f [] v.tree } v.focus.toNat).1.setFocus
      (((View.rerender { v with tree := setFlags f [] v.tree } v.focus.toNat).2.1 : Nat) : Int)) := by
  obtain ⟨hlines, hEq, hf0, hf1⟩ := hInv
  obtain ⟨A, B, h1, h2, h3, h4, h5, hsp, h6⟩ := rerender_core v f v.focus.toNat hlines hEq hs
    (focus_toNat_lt ⟨hlines, hEq, hf0, hf1⟩) hf
  rw [h6]
  refine setFocus_inv _ _ ?_ ?_ ?_
  · rfl
  · exact eqFaithfulB_setFlags f v.tree hEq
  · rw [adjustViewport_lines]
    exact render_ne_nil v.style hs (setFlags f [] v.tree)

/-- Invariant preservation for the shared head of `collapse_all`,
`expand_all` and `collapse_other`: rerendering at line 0 replaces the whole
line list with the updated tree's rendering. -/
theorem rerender_zero_eq (v : View) (f : List Nat → Bool → Bool)
    (hs : Style.productive v.style)
    (hlines : v.lines = render v.style v.tree) (hEq : eqFaithfulB v.tree = true)
    (hne : v.lines ≠ []) :
    ∃ sp, View.rerender { v with tree := setFlags f [] v.tree } 0 =
      (View.adjustViewport
        { v with
          tree := setFlags f [] v.tree
          lines := render v.style (setFlags f [] v.tree) }, sp) := by
  have h0 : (0 : Nat) < v.lines.length := List.length_pos.mpr hne
  have hp0 : v.ownerAt 0 = [] := ownerAt_zero v hlines hs
  have hf : ∀ q c, isPre (v.ownerAt 0) q = false → f q c = c := by
    rw [hp0]
    intro q c hq
    simp [isPre] at hq
  obtain ⟨A, B, h1, h2, h3, h4, h5, hsp, h6⟩ := rerender_core v f 0 hlines hEq hs h0 hf
  exact ⟨_, h6⟩

/-- Invariant preservation for the refocus scan, provided the target node
is visible in the current tree state. -/
theorem inv_refocus (w : View) (p : List Nat)
    (hlines : w.lines = render w.style w.tree) (hEq : eqFaithfulB w.tree = true)
    (hs : Style.productive w.style) (hvis : visPath w.tree p = true) :
    ViewInv (w.refocus p) := by
  obtain ⟨rl, hmem, ho⟩ := renderNode_contains w.style hs [] 0 false false w.tree p hvis
  have hsome : (firstOwner p w.lines).isSome = true := by
    rw [hlines]
    exact firstOwner_isSome_of_mem hmem (by simpa using ho)
  have hne : w.lines ≠ [] := by
    rw [hlines]
    exact List.ne_nil_of_mem hmem
  simp only [View.refocus]
  match hfo : firstOwner p w.lines with
  | some i => exact setFocus_inv w (i : Int) hlines hEq hne
  | none => rw [hfo] at hsome; simp at hsome

theorem ownerAt_vis (v : View) (hlines : v.lines = render v.style v.tree) (start : Nat)
    (hst : start < v.lines.length) : visPath v.tree (v.ownerAt start) = true := by
  have hget : v.lines[start]? = some (v.lines.getD start default) := by
    rw [List.getD_eq_getElem?_getD, List.getElem?_eq_getElem hst]
    rfl
  exact lines_owner_valid hlines hget

theorem inv_setFocus {v : View} (hInv : ViewInv v) (i : Int) : ViewInv (v.setFocus i) :=
  setFocus_inv v i hInv.1 hInv.2.1 (lines_ne_nil_of_inv hInv)

theorem inv_moveFocus {v : View} (hInv : ViewInv v) (d : Int) : ViewInv (v.moveFocus d) :=
  inv_setFocus hInv _

theorem inv_jumpNode {v : View} (hInv : ViewInv v) (fw : Bool) : ViewInv (v.jumpNode fw) := by
  simp only [View.jumpNode]
  exact inv_setFocus hInv _

theorem inv_jumpMatch {v : View} (hInv : ViewInv v) (fw : Bool) : ViewInv (v.jumpMatch fw) := by
  simp only [View.jumpMatch]
  split
  · exact inv_setFocus hInv _
  · exact hInv

theorem inv_collapseCurrent {v : View} (hs : Style.productive v.style) (hInv : ViewInv v) :
    ViewInv v.collapseCurrent := by
  simp only [View.collapseCurrent]
  split
  · exact hInv
  · split
    · exact hInv
    · refine inv_flag_rerender_focus v _ hs hInv ?_
      intro q c hq
      rw [if_neg]
      intro hqp
      subst hqp
      rw [isPre_refl] at hq
      simp at hq

theorem inv_expandCurrent {v : View} (hs : Style.productive v.style) (hInv : ViewInv v) :
    ViewInv v.expandCurrent := by
  simp only [View.expandCurrent]
  split
  · exact hInv
  · split
    · exact hInv
    · refine inv_flag_rerender_focus v _ hs hInv ?_
      intro q c hq
      rw [if_neg]
      intro hqp
      subst hqp
      rw [isPre_refl] at hq
      simp at hq

theorem inv_expandBelow {v : View} (hs : Style.productive v.style) (hInv : ViewInv v) :
    ViewInv v.expandBelow := by
  simp only [View.expandBelow]
  refine inv_flag_rerender_focus v _ hs hInv ?_
  intro q c hq
  simp [hq]

theorem inv_collapseAll {v : View} (hs : Style.productive v.style) (hInv : ViewInv v) :
    ViewInv v.collapseAll := by
  obtain ⟨hlines, hEq, hf0, hf1⟩ := hInv
  simp only [View.collapseAll]
  obtain ⟨sp, hre⟩ := rerender_zero_eq v (fun _ _ => true) hs hlines hEq
    (lines_ne_nil_of_inv ⟨hlines, hEq, hf0, hf1⟩)
  rw [hre]
  refine setFocus_inv _ _ rfl (eqFaithfulB_setFlags _ _ hEq) ?_
  rw [adjustViewport_lines]
  exact render_ne_nil v.style hs _

theorem inv_expandAll {v : View} (hs : Style.productive v.style) (hInv : ViewInv v) :
    ViewInv v.expandAll := by
  obtain ⟨hlines, hEq, hf0, hf1⟩ := hInv
  have hvis0 : visPath v.tree (v.ownerAt v.focus.toNat) = true :=
    ownerAt_vis v hlines _ (focus_toNat_lt ⟨hlines, hEq, hf0, hf1⟩)
  simp only [View.expandAll]
  obtain ⟨sp, hre⟩ := rerender_zero_eq v (fun _ _ => false) hs hlines hEq
    (lines_ne_nil_of_inv ⟨hlines, hEq, hf0, hf1⟩)
  rw [hre]
  refine inv_refocus _ _ rfl (eqFaithfulB_setFlags _ _ hEq) hs ?_
  show visPath (setFlags (fun _ _ => false) [] v.tree) (v.ownerAt v.focus.toNat) = true
  rw [visPath_iff]
  obtain ⟨hvalid0, hanc0⟩ := (visPath_iff _ _).mp hvis0
  constructor
  · rw [isSome_nodeAt_setFlags]
    exact hvalid0
  · intro q hq
    have hqv : (nodeAt v.tree q).isSome = true :=
      isSome_nodeAt_of_isPre hvalid0 (mem_strictPrefixesOf.mp hq).1
    match hnq : nodeAt v.tree q with
    | some sub =>
      refine ⟨setFlags (fun _ _ => false) q sub, ?_, ?_⟩
      · rw [nodeAt_setFlags]
        simp [hnq]
      · rw [setFlags_collapsed]
    | none => rw [hnq] at hqv; simp at hqv

theorem inv_collapseOther {v : View} (hs : Style.productive v.style) (hInv : ViewInv v) :
    ViewInv v.collapseOther := by
  obtain ⟨hlines, hEq, hf0, hf1⟩ := hInv
  have hvis0 : visPath v.tree (v.ownerAt v.focus.toNat) = true :=
    ownerAt_vis v hlines _ (focus_toNat_lt ⟨hlines, hEq, hf0, hf1⟩)
  simp only [View.collapseOther]
  obtain ⟨sp, hre⟩ := rerender_zero_eq v
    (collapseOtherF v.tree (v.ownerAt v.focus.toNat)) hs hlines hEq
    (lines_ne_nil_of_inv ⟨hlines, hEq, hf0, hf1⟩)
  rw [hre]
  refine inv_refocus _ _ rfl (eqFaithfulB_setFlags _ _ hEq) hs ?_
  show visPath (setFlags (collapseOtherF v.tree (v.ownerAt v.focus.toNat)) [] v.tree)
    (v.ownerAt v.focus.toNat) = true
  rw [visPath_iff]
  obtain ⟨hvalid0, hanc0⟩ := (visPath_iff _ _).mp hvis0
  constructor
  · rw [isSome_nodeAt_setFlags]
    exact hvalid0
  · intro q hq
    obtain ⟨hqpre, hqne⟩ := mem_strictPrefixesOf.mp hq
    have hqv : (nodeAt v.tree q).isSome = true :=
      isSome_nodeAt_of_isPre hvalid0 hqpre
    obtain ⟨sub, hnq, hco⟩ := hanc0 q hq
    refine ⟨setFlags (collapseOtherF v.tree (v.ownerAt v.focus.toNat)) q sub, ?_, ?_⟩
    · rw [nodeAt_setFlags]
      simp [hnq]
    · rw [setFlags_collapsed, hco]
      -- collapseOtherF leaves ancestors of the current node untouched
      simp only [collapseOtherF]
      split
      · rfl
      · rw [if_neg]
        simp only [Bool.not_eq_true', Bool.not_eq_false]
        rw [List.any_eq_true]
        refine ⟨q, mem_prefixesOf.mpr hqpre, ?_⟩
        exact (eqFaithful_iff hEq q q hqv hqv).mpr rfl

theorem applyOp_style (v : View) (op : NavOp) : (applyOp v op).style = v.style := by
  cases op with
  | setF i => rfl
  | moveF d => rfl
  | jumpN fw => rfl
  | jumpM fw =>
    simp only [applyOp, View.jumpMatch]
    split <;> rfl
  | colCur =>
    simp only [applyOp, View.collapseCurrent]
    split
    · rfl
    · split <;> rfl
  | colOther =>
    simp only [applyOp, View.collapseOther, View.refocus]
    split <;> rfl
  | colAll => rfl
  | expCur =>
    simp only [applyOp, View.expandCurrent]
    split
    · rfl
    · split <;> rfl
  | expBelow => rfl
  | expAll =>
    simp only [applyOp, View.expandAll, View.refocus]
    split <;> rfl

theorem applyOp_inv (v : View) (op : NavOp) (hs : Style.productive v.style)
    (hInv : ViewInv v) : ViewInv (applyOp v op) := by
  cases op with
  | setF i => exact inv_setFocus hInv i
  | moveF d => exact inv_moveFocus hInv d
  | jumpN fw => exact inv_jumpNode hInv fw
  | jumpM fw => exact inv_jumpMatch hInv fw
  | colCur => exact inv_collapseCurrent hs hInv
  | colOther => exact inv_collapseOther hs hInv
  | colAll => exact inv_collapseAll hs hInv
  | expCur => exact inv_expandCurrent hs hInv
  | expBelow => exact inv_expandBelow hs hInv
  | expAll => exact inv_expandAll hs hInv

theorem applyOps_inv (ops : List NavOp) (v : View) (hs : Style.productive v.style)
    (hInv : ViewInv v) : ViewInv (applyOps ops v) := by
  induction ops generalizing v with
  | nil => exact hInv
  | cons op rest ih =>
    have h1 := applyOp_inv v op hs hInv
    have h2 : Style.productive (applyOp v op).style := by
      rw [applyOp_style]; exact hs
    exact ih (applyOp v op) h2 h1

/-- A freshly constructed view satisfies the state invariant. -/
theorem mkView_inv (root : NTree) (s : Style) (tm : TermM) (w h : Int) (search : String)
    (hs : Style.productive s) (hEq : eqFaithfulB root = true) :
    ViewInv (mkView root s tm w h search) := by
  refine ⟨rfl, hEq, le_refl 0, ?_⟩
  show (0 : Int) < ((render s root).length : Int)
  have := List.length_pos.mpr (render_ne_nil s hs root)
  omega

theorem clampI_eq_self (val lo hi : Int) (h1 : lo ≤ val) (h2 : val ≤ hi) :
    clampI val lo hi = val := by
  simp only [clampI]
  split
  · omega
  · split
    · omega
    · rfl

theorem getD_middle (A B : List RLine) (c : RLine) :
    (A ++ c :: B).getD A.length default = c := by
  refine getD_eq_of_getElem? _ _ _ ?_
  rw [List.getElem?_append_right (le_refl A.length)]
  simp

/-- Characterization of the shared tail of `collapse_current` /
`expand_current` / `expand_below` in the non-trivial branch: the view ends
up with the updated tree's full rendering as its line list, focused on the
first line of the updated node's span. -/
theorem flag_rerender_focus_eq (v : View) (f : List Nat → Bool → Bool)
    (hs : Style.productive v.style) (hInv : ViewInv v)
    (hf : ∀ q c, isPre (v.ownerAt v.focus.toNat) q = false → f q c = c) :
    ∃ A B,
      v.lines = A ++ renderSeg v.style v.tree (v.ownerAt v.focus.toNat) ++ B ∧
      render v.style (setFlags f [] v.tree)
        = A ++ renderSeg v.style (setFlags f [] v.tree) (v.ownerAt v.focus.toNat) ++ B ∧
      visPath v.tree (v.ownerAt v.focus.toNat) = true ∧
      ((View.rerender { v with tree := setFlags f [] v.tree } v.focus.toNat).1.setFocus
        (((View.rerender { v with tree := setFlags f [] v.tree } v.focus.toNat).2.1 : Nat) : Int))
        = View.setFocus
            (View.adjustViewport
              { v with
                tree := setFlags f [] v.tree
                lines := render v.style (setFlags f [] v.tree) })
            ((A.length : Nat) : Int) := by
  obtain ⟨hlines, hEq, hf0, hf1⟩ := hInv
  obtain ⟨A, B, h1, h2, h3, h4, h5, hsp, h6⟩ := rerender_core v f v.focus.toNat hlines hEq hs
    (focus_toNat_lt ⟨hlines, hEq, hf0, hf1⟩) hf
  refine ⟨A, B, h1, h2, h3, ?_⟩
  rw [h6]

theorem renderNode_of_collapsed (s : Style) (path : List Nat) (lvl : Nat) (ic il : Bool)
    (u : NTree) (hc : u.collapsed = true) :
    ∃ c, renderNode s path lvl ic il u = [⟨c, path⟩] := by
  match u with
  | .mk d l cc kids =>
    simp only [NTree.collapsed] at hc
    subst hc
    exact ⟨_, rfl⟩

theorem renderSeg_collapsed (s : Style) (t : NTree) (p : List Nat) (sub : NTree)
    (hsub : nodeAt t p = some sub) (hc : sub.collapsed = true) :
    ∃ c, renderSeg s t p = [⟨c, p⟩] := by
  rw [renderSeg_eq_of_valid s t p sub hsub]
  exact renderNode_of_collapsed s p p.length (icAt false p) (ilAt false t p) sub hc

/-- Amended C1: on a view whose line list is the rendering of its tree,
with `Node.__eq__` faithful on that tree and the style satisfying the §4.2
obligations, collapsing the (currently expanded) focused node and then
immediately expanding it restores both the tree state and the line-entry
list byte for byte. -/
theorem c1_collapse_expand_roundtrip (v : View)
    (hs : Style.productive v.style) (hInv : ViewInv v)
    (hexp : ∀ sub, nodeAt v.tree (v.ownerAt v.focus.toNat) = some sub →
      sub.collapsed = false) :
    (v.collapseCurrent.expandCurrent).lines = v.lines ∧
    (v.collapseCurrent.expandCurrent).tree = v.tree := by
  obtain ⟨hlines, hEq, hfo0, hfo1⟩ := hInv
  have hstart : v.focus.toNat < v.lines.length := focus_toNat_lt ⟨hlines, hEq, hfo0, hfo1⟩
  set s := v.style with hsdef
  set t := v.tree with htdef
  set p := v.ownerAt v.focus.toNat with hpdef
  have hvis : visPath t p = true := ownerAt_vis v hlines _ hstart
  have hvalid : (nodeAt t p).isSome = true := ((visPath_iff t p).mp hvis).1
  match hsub : nodeAt t p with
  | none => rw [hsub] at hvalid; simp at hvalid
  | some sub =>
  have hsubc : sub.collapsed = false := hexp sub hsub
  set f1 : List Nat → Bool → Bool := fun q c => if q = p then true else c with hf1def
  have hf1cond : ∀ q c, isPre p q = false → f1 q c = c := by
    intro q c hq
    have hne : q ≠ p := by
      intro h; subst h; rw [isPre_refl] at hq; simp at hq
    show (if q = p then true else c) = c
    simp [hne]
  obtain ⟨A, B, h1, h2, h3, hvc⟩ :=
    flag_rerender_focus_eq v f1 hs ⟨hlines, hEq, hfo0, hfo1⟩ hf1cond
  rw [← hsdef, ← htdef, ← hpdef] at h1 h2
  set t1 := setFlags f1 [] t with ht1def
  set vc := View.setFocus
    (View.adjustViewport { v with tree := t1, lines := render s t1 })
    ((A.length : Nat) : Int) with hvcdef
  -- identify `collapse_current v` with the characterized view `vc`
  have hcc : v.collapseCurrent = vc := by
    rw [← hvc]
    simp only [View.collapseCurrent]
    rw [← htdef, ← hpdef, hsub]
    show (if sub.collapsed = true then v else _) = _
    rw [hsubc]
    rw [if_neg (show ¬(false = true) from (by simp))]
  -- the collapsed subtree renders as a single line owned by `p`
  have hsub1 : nodeAt t1 p = some (setFlags f1 p sub) := by
    rw [ht1def, nodeAt_setFlags]
    simp [hsub]
  have hsub1c : (setFlags f1 p sub).collapsed = true := by
    rw [setFlags_collapsed]
    show (if p = p then true else sub.collapsed) = true
    simp
  obtain ⟨cl, hM1⟩ := renderSeg_collapsed s t1 p _ hsub1 hsub1c
  have hlen1 : (render s t1).length = A.length + 1 + B.length := by
    rw [h2, hM1]
    simp
    omega
  -- `vc`'s focus sits on that single line
  have hvc_focus : vc.focus = (A.length : Int) := by
    rw [hvcdef, setFocus_focus, adjustViewport_lines]
    show clampI _ 0 (((render s t1).length : Int) - 1) = _
    rw [hlen1]
    refine clampI_eq_self _ _ _ (by omega) (by push_cast; omega)
  have hvc_focus_nat : vc.focus.toNat = A.length := by
    rw [hvc_focus]
    simp
  have hvc_lines : vc.lines = render s t1 := rfl
  have hvc_owner : vc.ownerAt vc.focus.toNat = p := by
    rw [hvc_focus_nat]
    show (vc.lines.getD A.length default).owner = p
    rw [hvc_lines, h2, hM1,
      show A ++ [(⟨cl, p⟩ : RLine)] ++ B = A ++ (⟨cl, p⟩ : RLine) :: B from (by simp),
      getD_middle]
  set f2 : List Nat → Bool → Bool := fun q c => if q = p then false else c with hf2def
  have ht2 : setFlags f2 [] t1 = t := by
    rw [ht1def, setFlags_setFlags]
    refine setFlags_eq_self _ [] t ?_
    intro q sub2 hsub2
    simp only [List.nil_append]
    by_cases hqp : q = p
    · subst hqp
      rw [hsub] at hsub2
      injection hsub2 with hsub2
      subst hsub2
      show (if p = p then false else _) = _
      simp [hsubc]
    · show (if q = p then false else (if q = p then true else sub2.collapsed)) = _
      simp [hqp]
  have hInv1 : ViewInv vc := by
    refine ⟨rfl, eqFaithfulB_setFlags f1 t hEq, ?_, ?_⟩
    · rw [hvc_focus]; positivity
    · rw [hvc_focus]
      show (A.length : Int) < ((render s t1).length : Int)
      rw [hlen1]
      push_cast
      omega
  have hf2cond : ∀ q c, isPre (vc.ownerAt vc.focus.toNat) q = false → f2 q c = c := by
    rw [hvc_owner]
    intro q c hq
    have hne : q ≠ p := by
      intro h; subst h; rw [isPre_refl] at hq; simp at hq
    show (if q = p then false else c) = c
    simp [hne]
  obtain ⟨A2, B2, g1, g2, g3, gve⟩ := flag_rerender_focus_eq vc f2 hs hInv1 hf2cond
  have hec : vc.expandCurrent = View.setFocus
      (View.adjustViewport
        { vc with
          tree := setFlags f2 [] vc.tree
          lines := render vc.style (setFlags f2 [] vc.tree) })
      ((A2.length : Nat) : Int) := by
    rw [← gve]
    simp only [View.expandCurrent]
    rw [hvc_owner]
    have hsub1b : nodeAt vc.tree p = some (setFlags f1 p sub) := hsub1
    rw [hsub1b]
    show (if (!(setFlags f1 p sub).collapsed) = true then vc else _) = _
    rw [hsub1c]
    rw [if_neg (show ¬((!true) = true) from (by simp))]
  rw [hcc, hec]
  constructor
  · show render vc.style (setFlags f2 [] vc.tree) = v.lines
    have hvt : vc.tree = t1 := rfl
    have hvs : vc.style = s := rfl
    rw [hvt, hvs, ht2, hlines]
  · show setFlags f2 [] vc.tree = v.tree
    have hvt : vc.tree = t1 := rfl
    rw [hvt, ht2]

/-! ## Facts about the concrete instances -/

theorem sStyle_productive : Style.productive sStyle := by
  intro c
  simp [sStyle]

theorem sStyle_leafOneLine : Style.leafOneLine sStyle := by
  intro c _
  simp [sStyle]

theorem vGood_inv : ViewInv vGood :=
  ⟨rfl, by decide, by decide, by decide⟩

/-- C1 counterexample: on the tree of `{"b": [7], "b[0]": 7}` the list
element `.b[0]` (path `[0, 0]`) and the dict entry `.b[0]` (path `[1]`) are
distinct nodes that `Node.__eq__` identifies (same name, same value).  With
the focus on the leaf at `[0, 0]`, `node_span`'s `inside` test therefore
also absorbs the line of node `[1]`, and collapse followed by expand drops
a line: the line-entry list is not restored. -/
theorem c1_cex :
    (vCex.collapseCurrent.expandCurrent).lines ≠ vCex.lines ∧
    vCex.lines = render vCex.style vCex.tree ∧
    vCex.tree = tCex ∧
    (vCex.collapseCurrent.expandCurrent).lines.length = 3 ∧
    vCex.lines.length = 4 := by
  exact ⟨by decide, rfl, rfl, by decide, by decide⟩

theorem c1_roundtrip_witness :
    ((vGood.collapseCurrent.expandCurrent).lines = vGood.lines ∧
     (vGood.collapseCurrent.expandCurrent).tree = vGood.tree) :=
  c1_collapse_expand_roundtrip vGood sStyle_productive vGood_inv
    (by
      intro sub h
      have h3 : some vGood.tree = some sub := h
      injection h3 with h4
      rw [← h4]
      decide)

/-- C3 counterexample: in the ambiguous tree, expanding the collapsed leaf
at `[0, 0]` (focused on its single line 2) finds a 2-line span — because
`node_span`'s `==`-based `inside` test also claims line 3, owned by the
distinct but `==`-equal node `[1]` — and so replaces 2 lines, not exactly
1, by the 1-line expansion: the list shrinks from 4 lines to 3. -/
theorem c3_cex :
    vCex3.lines.length = 4 ∧
    (vCex3.expandCurrent).lines.length = 3 ∧
    ((nodeAt vCex3.tree (vCex3.ownerAt vCex3.focus.toNat)).map NTree.collapsed)
      = some true ∧
    nodeSpan vCex3.tree vCex3.lines 2 (dataAtD vCex3.tree (vCex3.ownerAt 2)) = (2, 3) := by
  exact ⟨by decide, by decide, by decide, by decide⟩

/-- Amended C3: under a faithful `Node.__eq__` (part of `ViewInv`),
collapsing the focused expanded node replaces exactly its rendered span by
exactly one compact line, and expanding the focused collapsed node replaces
exactly its one compact line by its full rendering, the rest of the line
list surviving unchanged on both sides. -/
theorem c3_span_replacement (v : View)
    (hs : Style.productive v.style) (hInv : ViewInv v) :
    (∀ sub, nodeAt v.tree (v.ownerAt v.focus.toNat) = some sub → sub.collapsed = false →
      ∃ A B cl,
        v.lines = A ++ renderSeg v.style v.tree (v.ownerAt v.focus.toNat) ++ B ∧
        v.collapseCurrent.lines = A ++ [⟨cl, v.ownerAt v.focus.toNat⟩] ++ B) ∧
    (∀ sub, nodeAt v.tree (v.ownerAt v.focus.toNat) = some sub → sub.collapsed = true →
      ∃ A B cl,
        v.lines = A ++ [⟨cl, v.ownerAt v.focus.toNat⟩] ++ B ∧
        v.expandCurrent.lines =
          A ++ renderSeg v.style
            (setFlags (fun q c => if q = v.ownerAt v.focus.toNat then false else c) [] v.tree)
            (v.ownerAt v.focus.toNat) ++ B) := by
  set s := v.style with hsdef
  set t := v.tree with htdef
  set p := v.ownerAt v.focus.toNat with hpdef
  constructor
  · intro sub hsub hsubc
    set f1 : List Nat → Bool → Bool := fun q c => if q = p then true else c with hf1def
    have hf1cond : ∀ q c, isPre p q = false → f1 q c = c := by
      intro q c hq
      have hne : q ≠ p := by
        intro h; subst h; rw [isPre_refl] at hq; simp at hq
      show (if q = p then true else c) = c
      simp [hne]
    obtain ⟨A, B, h1, h2, h3, hvc⟩ := flag_rerender_focus_eq v f1 hs hInv hf1cond
    rw [← hsdef, ← htdef, ← hpdef] at h1 h2
    set t1 := setFlags f1 [] t with ht1def
    set vc := View.setFocus
      (View.adjustViewport { v with tree := t1, lines := render s t1 })
      ((A.length : Nat) : Int) with hvcdef
    have hcc : v.collapseCurrent = vc := by
      rw [← hvc]
      simp only [View.collapseCurrent]
      rw [← htdef, ← hpdef, hsub]
      show (if sub.collapsed = true then v else _) = _
      rw [hsubc]
      rw [if_neg (show ¬(false = true) from (by simp))]
    have hsub1 : nodeAt t1 p = some (setFlags f1 p sub) := by
      rw [ht1def, nodeAt_setFlags]
      simp [hsub]
    have hsub1c : (setFlags f1 p sub).collapsed = true := by
      rw [setFlags_collapsed]
      show (if p = p then true else sub.collapsed) = true
      simp
    obtain ⟨cl, hM1⟩ := renderSeg_collapsed s t1 p _ hsub1 hsub1c
    refine ⟨A, B, cl, h1, ?_⟩
    rw [hcc]
    show render s t1 = A ++ [⟨cl, p⟩] ++ B
    rw [h2, hM1]
  · intro sub hsub hsubc
    set f2 : List Nat → Bool → Bool := fun q c => if q = p then false else c with hf2def
    have hf2cond : ∀ q c, isPre p q = false → f2 q c = c := by
      intro q c hq
      have hne : q ≠ p := by
        intro h; subst h; rw [isPre_refl] at hq; simp at hq
      show (if q = p then false else c) = c
      simp [hne]
    obtain ⟨A, B, h1, h2, h3, hvc⟩ := flag_rerender_focus_eq v f2 hs hInv hf2cond
    rw [← hsdef, ← htdef, ← hpdef] at h1 h2
    set t2 := setFlags f2 [] t with ht2def
    set vc := View.setFocus
      (View.adjustViewport { v with tree := t2, lines := render s t2 })
      ((A.length : Nat) : Int) with hvcdef
    obtain ⟨cl, hM1⟩ := renderSeg_collapsed s t p sub hsub hsubc
    have hec : v.expandCurrent = vc := by
      rw [← hvc]
      simp only [View.expandCurrent]
      rw [← htdef, ← hpdef, hsub]
      show (if (!sub.collapsed) = true then v else _) = _
      rw [hsubc]
      rw [if_neg (show ¬((!true) = true) from (by simp))]
    refine ⟨A, B, cl, ?_, ?_⟩
    · rw [h1, hM1]
    · rw [hec]
      show render s t2 = A ++ renderSeg s t2 p ++ B
      exact h2

theorem c3_span_replacement_witness :
    (∀ sub, nodeAt vGood.tree (vGood.ownerAt vGood.focus.toNat) = some sub →
      sub.collapsed = false →
      ∃ A B cl,
        vGood.lines = A ++ renderSeg vGood.style vGood.tree (vGood.ownerAt vGood.focus.toNat) ++ B ∧
        vGood.collapseCurrent.lines = A ++ [⟨cl, vGood.ownerAt vGood.focus.toNat⟩] ++ B) ∧
    (∀ sub, nodeAt vGood.tree (vGood.ownerAt vGood.focus.toNat) = some sub →
      sub.collapsed = true →
      ∃ A B cl,
        vGood.lines = A ++ [⟨cl, vGood.ownerAt vGood.focus.toNat⟩] ++ B ∧
        vGood.expandCurrent.lines =
          A ++ renderSeg vGood.style
            (setFlags (fun q c => if q = vGood.ownerAt vGood.focus.toNat then false else c)
              [] vGood.tree)
            (vGood.ownerAt vGood.focus.toNat) ++ B) :=
  c3_span_replacement vGood sStyle_productive vGood_inv

/-- A leaf node (no children) renders to exactly one line under a style
satisfying the leaf-one-line obligation, collapsed or not. -/
theorem renderNode_leaf_len (s : Style) (hl1 : Style.leafOneLine s) (path : List Nat)
    (lvl : Nat) (ic il : Bool) (u : NTree) (hlf : u.leaf = true) (hck : u.children = []) :
    (renderNode s path lvl ic il u).length = 1 := by
  match u with
  | .mk d l c kids =>
    simp only [NTree.leaf] at hlf
    simp only [NTree.children] at hck
    subst hlf
    subst hck
    simp only [renderNode]
    split
    · simp
    · obtain ⟨hpre, hpost⟩ := hl1 ⟨d, true, true, lvl, ic, il⟩ rfl
      simp [renderKids, hpre, hpost]

/-- C4 counterexample: in the tree of `{"b": [7], "b[0]": 7}` line 2 is
owned by the leaf at path `[0, 0]`, yet `node_span` returns `(2, 3)`, not
`(2, 2)`: the `Node.__eq__`-based `inside` test also accepts line 3, owned
by the distinct node `[1]` that has the same name and value. -/
theorem c4_cex :
    ((nodeAt tCex [0, 0]).map NTree.leaf) = some true ∧
    ((render sStyle tCex).getD 2 default).owner = [0, 0] ∧
    nodeSpan tCex (render sStyle tCex) 2 (dataAtD tCex [0, 0]) = (2, 3) ∧
    nodeSpan tCex (render sStyle tCex) 2 (dataAtD tCex [0, 0]) ≠ (2, 2) := by
  exact ⟨by decide, by decide, by decide, by decide⟩

/-- Amended C4: when `Node.__eq__` is faithful on the tree (part of
`ViewInv`) and the style renders leaves on one line, `node_span` at a line
owned by a childless leaf returns `(i, i)`, and `node_span` for the root
returns `(0, len(lines) - 1)` from any start line. -/
theorem c4_node_span_leaf_and_root (v : View)
    (hs : Style.productive v.style) (hl1 : Style.leafOneLine v.style)
    (hInv : ViewInv v) :
    (∀ i sub, i < v.lines.length →
      nodeAt v.tree (v.ownerAt i) = some sub →
      sub.leaf = true → sub.children = [] →
      nodeSpan v.tree v.lines i (dataAtD v.tree (v.ownerAt i)) = (i, i)) ∧
    (∀ start, start < v.lines.length →
      nodeSpan v.tree v.lines start (dataAtD v.tree []) = (0, v.lines.length - 1)) := by
  obtain ⟨hlines, hEq, hf0, hf1⟩ := hInv
  constructor
  · intro i sub hi hsub hlf hck
    obtain ⟨A, B, h1, h2, h3, h4, h5, hsp, h6⟩ :=
      rerender_core v (fun _ c => c) i hlines hEq hs hi (fun _ _ _ => rfl)
    rw [setFlags_id] at hsp
    have hMlen : (renderSeg v.style v.tree (v.ownerAt i)).length = 1 := by
      rw [renderSeg_eq_of_valid v.style v.tree _ sub hsub]
      exact renderNode_leaf_len v.style hl1 _ _ _ _ sub hlf hck
    rw [hMlen] at hsp h5
    have hiA : i = A.length := by omega
    rw [hsp, hiA]
    simp
  · intro start hstart
    have hne : v.lines ≠ [] := by
      rw [hlines]
      exact render_ne_nil v.style hs v.tree
    have hvalid_all : ∀ rl ∈ v.lines, (nodeAt v.tree rl.owner).isSome = true := by
      intro rl hmem
      rw [hlines] at hmem
      obtain ⟨q, ho, hv⟩ := renderNode_owner v.style [] 0 false false v.tree rl hmem
      simp only [List.nil_append] at ho
      rw [ho]
      exact ((visPath_iff v.tree q).mp hv).1
    have hroot : (nodeAt v.tree []).isSome = true := rfl
    have hin : ∀ rl ∈ v.lines, insideB v.tree (dataAtD v.tree []) rl.owner = true := by
      intro rl hmem
      rw [insideB_eq_isPre hEq [] rl.owner hroot (hvalid_all rl hmem)]
      rfl
    have hseg := nodeSpan_seg v.tree (dataAtD v.tree []) [] v.lines [] start hne hin
      (by intro rl h; simp at h) (by intro rl h; simp at h)
      (by simp) (by simpa using hstart)
    simpa using hseg

theorem c4_node_span_witness :
    (∀ i sub, i < vGood.lines.length →
      nodeAt vGood.tree (vGood.ownerAt i) = some sub →
      sub.leaf = true → sub.children = [] →
      nodeSpan vGood.tree vGood.lines i (dataAtD vGood.tree (vGood.ownerAt i)) = (i, i)) ∧
    (∀ start, start < vGood.lines.length →
      nodeSpan vGood.tree vGood.lines start (dataAtD vGood.tree [])
        = (0, vGood.lines.length - 1)) :=
  c4_node_span_leaf_and_root vGood sStyle_productive sStyle_leafOneLine vGood_inv

/-! ## The highlighter preserves visible text -/

theorem stripSeqs_cons_esc (e : String) (l : List Frag) :
    stripSeqs (.esc e :: l) = stripSeqs l := rfl

theorem stripSeqs_cons_ch (c : Char) (l : List Frag) :
    stripSeqs (.ch c :: l) = c :: stripSeqs l := rfl

theorem stripSeqs_append (a b : List Frag) :
    stripSeqs (a ++ b) = stripSeqs a ++ stripSeqs b :=
  List.filterMap_append a b _

theorem stripSeqs_map_ch : ∀ cs : List Char, stripSeqs (cs.map .ch) = cs
  | [] => rfl
  | c :: cs => by
    show c :: stripSeqs (cs.map .ch) = c :: cs
    rw [stripSeqs_map_ch cs]

theorem stripSeqs_hlWrap (cs : List Char) : stripSeqs (hlWrap cs) = cs := by
  simp only [hlWrap, hlOn, hlOff, stripSeqs_cons_esc, stripSeqs_append, stripSeqs_map_ch]
  simp [stripSeqs]

theorem stripSeqs_escapesBefore : ∀ (l : List Frag) (i : Nat),
    stripSeqs (escapesBefore l i) = []
  | [], _ => rfl
  | .esc e :: rest, i => by
    rw [escapesBefore, stripSeqs_cons_esc]
    exact stripSeqs_escapesBefore rest i
  | .ch c :: rest, i => by
    rw [escapesBefore]
    split
    · rfl
    · exact stripSeqs_escapesBefore rest (i - 1)

/-- The escape-merging pass preserves the (shared) visible text. -/
theorem stripSeqs_combineF : ∀ (fuel : Nat) (l1 l2 : List Frag),
    l1.length + l2.length ≤ fuel → stripSeqs l1 = stripSeqs l2 →
    stripSeqs (combineF fuel l1 l2) = stripSeqs l1 := by
  intro fuel
  induction fuel with
  | zero =>
    intro l1 l2 hlen hstrip
    match l1, l2 with
    | [], [] => rfl
    | fr :: r1, l2 => simp at hlen
    | [], fr :: r2 => simp at hlen
  | succ fu ih =>
    intro l1 l2 hlen hstrip
    match l1, l2 with
    | [], l2 =>
      simp only [combineF]
      exact hstrip.symm
    | fr :: r1, [] =>
      simp only [combineF]
    | .esc e :: r1, fr2 :: r2 =>
      simp only [combineF, stripSeqs_cons_esc]
      refine ih r1 (fr2 :: r2) (by simp only [List.length_cons] at hlen ⊢; omega) ?_
      rw [← stripSeqs_cons_esc e r1]
      exact hstrip
    | .ch c :: r1, .esc e :: r2 =>
      simp only [combineF, stripSeqs_cons_esc]
      refine ih (.ch c :: r1) r2 (by simp only [List.length_cons] at hlen ⊢; omega) ?_
      rw [← stripSeqs_cons_esc e r2]
      exact hstrip
    | .ch c :: r1, .ch d :: r2 =>
      simp only [combineF, stripSeqs_cons_ch]
      rw [stripSeqs_cons_ch, stripSeqs_cons_ch] at hstrip
      injection hstrip with h1 h2
      rw [ih r1 r2 (by simp only [List.length_cons] at hlen ⊢; omega) h2]

/-- C6 (code bug): the truncation strategy fails on an ordinary long line
with no styling escapes.  On `"abcdef"` at width 5 the line is wider than
the terminal, `_trunc_index` is entered with `target_length = 4`, and its
entry assertion `length < target_length` fires (`visLen (take 4) = 4`):
`truncate` raises instead of truncating, so the style raises on a valid
node. -/
theorem c6_truncation_raises :
    truncateLine 5 (("abcdef".toList).map Frag.ch) = none ∧
    visLen (("abcdef".toList).map Frag.ch) = 6 ∧
    truncIndex (("abcdef".toList).map Frag.ch) 4 = none ∧
    truncateLine 5 (Frag.esc "e" :: ("abcdef".toList).map Frag.ch)
      = some (Frag.esc "e" :: ("abc".toList).map Frag.ch ++ truncMarker) := by
  refine ⟨by decide, by decide, by decide, by decide⟩

/-- C7 counterexample: on a freshly opened 3-line view with height 10 the
adjusted viewport is `(0, 10)`: its end exceeds `len(lines) - 1 = 2`, so
the visible span is not kept within the bounds of the line-entry list. -/
theorem c7_cex :
    (View.adjustViewport vGood).visible = (0, 10) ∧
    (View.adjustViewport vGood).lines.length = 3 ∧
    ¬((View.adjustViewport vGood).visible.2
        ≤ ((View.adjustViewport vGood).lines.length : Int) - 1) := by
  refine ⟨by decide, by decide, by decide⟩

/-- Amended C7: after `adjust_viewport` the visible span `(first, last)`
satisfies `last = first + height` (an inclusive span of `height` rows is
drawn from it), `first ≥ 0` always, and `last ≤ len(lines) - 1` whenever
the list is long enough (`height ≤ len - 1`); with at least `context`
clearance on each side (`2*context ≤ height`) the focus lies inside the
span and within `context` of each edge except when the span is pinned at
the top (`first = 0`) or at the bottom (`first = max 0 (len - 1 -
height)`). -/
theorem c7_viewport_invariants (v : View) (hh : 0 < v.height) (hc : 0 ≤ v.context)
    (h2c : 2 * v.context ≤ v.height)
    (hf0 : 0 ≤ v.focus) (hf1 : v.focus ≤ (v.lines.length : Int) - 1) :
    (View.adjustViewport v).visible.2 = (View.adjustViewport v).visible.1 + v.height ∧
    0 ≤ (View.adjustViewport v).visible.1 ∧
    (v.height ≤ (v.lines.length : Int) - 1 →
      (View.adjustViewport v).visible.2 ≤ (v.lines.length : Int) - 1) ∧
    (View.adjustViewport v).visible.1 ≤ v.focus ∧
    v.focus ≤ (View.adjustViewport v).visible.2 ∧
    ((View.adjustViewport v).visible.1 + v.context ≤ v.focus ∨
      (View.adjustViewport v).visible.1 = 0) ∧
    (v.focus ≤ (View.adjustViewport v).visible.1 + v.height - v.context ∨
      (View.adjustViewport v).visible.1 = max 0 ((v.lines.length : Int) - 1 - v.height)) := by
  simp only [View.adjustViewport]
  split_ifs <;>
    exact ⟨trivial, by omega, by omega, by omega, by omega, by omega, by omega⟩

theorem c7_viewport_witness :
    (View.adjustViewport vGood).visible.2 = (View.adjustViewport vGood).visible.1 + vGood.height ∧
    0 ≤ (View.adjustViewport vGood).visible.1 ∧
    (vGood.height ≤ (vGood.lines.length : Int) - 1 →
      (View.adjustViewport vGood).visible.2 ≤ (vGood.lines.length : Int) - 1) ∧
    (View.adjustViewport vGood).visible.1 ≤ vGood.focus ∧
    vGood.focus ≤ (View.adjustViewport vGood).visible.2 ∧
    ((View.adjustViewport vGood).visible.1 + vGood.context ≤ vGood.focus ∨
      (View.adjustViewport vGood).visible.1 = 0) ∧
    (vGood.focus ≤ (View.adjustViewport vGood).visible.1 + vGood.height - vGood.context ∨
      (View.adjustViewport vGood).visible.1
        = max 0 ((vGood.lines.length : Int) - 1 - vGood.height)) :=
  c7_viewport_invariants vGood (by decide) (by decide) (by decide) (by decide) (by decide)

/-! ## LazyList facts -/

/-- Realizing through index `n` leaves the producer holding exactly the
elements past the realized prefix (a no-op drop when nothing is pulled). -/
theorem extractUntilLen_iterator {α : Type} (n : Nat) (ll : LzList α) (it : List α)
    (h : ll.iterator = some it) :
    (extractUntilLen n ll).iterator = some (it.drop (n - ll.realized.length)) := by
  simp only [extractUntilLen, h]
  split
  · rfl
  · rename_i hle
    rw [h]
    congr 1
    have h0 : n - ll.realized.length = 0 := by omega
    rw [h0, List.drop_zero]

/-- Every `MutableSequence` operation preserves a discarded producer. -/
theorem step_iterator_none {α : Type} (ll : LzList α) (op : LLOp α)
    (h : ll.iterator = none) : (LLOp.step ll op).iterator = none := by
  cases op with
  | getI i => simp [LLOp.step, LzList.getItem, extractUntilLen, h]
  | getS s e =>
    cases e <;> simp [LLOp.step, LzList.getSlice, extractUntilLen, h]
  | setI i x =>
    simp only [LLOp.step, LzList.setItem, extractUntilLen, h]
    split <;> simp [h]
  | setS s e vals =>
    cases e <;> simp [LLOp.step, LzList.setSlice, extractUntilLen, h]
  | delI i =>
    simp only [LLOp.step, LzList.delItem]
    split <;> simp [h]
  | delS s e => simp [LLOp.step, LzList.delSlice, h]
  | ins i x => simp [LLOp.step, LzList.insertAt, h]
  | lenReal => simp [LLOp.step, LzList.realLength, h]

/-- A discarded producer stays discarded across any operation sequence. -/
theorem foldl_step_iterator_none {α : Type} : ∀ (ops : List (LLOp α)) (ll : LzList α),
    ll.iterator = none → (ops.foldl LLOp.step ll).iterator = none
  | [], _, h => h
  | op :: rest, ll, h =>
    foldl_step_iterator_none rest (LLOp.step ll op) (step_iterator_none ll op h)

/-- C8: assigning to an open-ended slice (`ll[s:] = vals`) sets the
producer reference to `None` without pulling from it, and no later
`MutableSequence` operation ever restores (or pulls from) it; assigning to
a bounded slice or a single index keeps the producer and realizes exactly
up to the end of the assigned range (the producer retains everything past
it). -/
theorem c8_open_slice_discards {α : Type} (ll : LzList α) (s : Nat) (vals : List α) :
    (ll.setSlice s none vals).iterator = none ∧
    (∀ ops : List (LLOp α),
      (ops.foldl LLOp.step (ll.setSlice s none vals)).iterator = none) ∧
    (∀ e vals2 it, ll.iterator = some it →
      (ll.setSlice s (some e) vals2).iterator
        = some (it.drop (e - ll.realized.length))) ∧
    (∀ i x it, ll.iterator = some it →
      (LLOp.step ll (.setI i x)).iterator
        = some (it.drop (i + 1 - ll.realized.length))) := by
  have hnone : (ll.setSlice s none vals).iterator = none := rfl
  refine ⟨hnone, ?_, ?_, ?_⟩
  · intro ops
    exact foldl_step_iterator_none ops _ hnone
  · intro e vals2 it h
    simp only [LzList.setSlice]
    exact extractUntilLen_iterator e ll it h
  · intro i x it h
    simp only [LLOp.step, LzList.setItem]
    split
    · exact extractUntilLen_iterator (i + 1) ll it h
    · exact extractUntilLen_iterator (i + 1) ll it h

/-- A small lazy list: realized prefix `[0, 1]`, producer still holding
`[10, 11, 12]`. -/
def llW : LzList Nat := ⟨some [10, 11, 12], [0, 1]⟩

theorem c8_open_slice_witness :
    (llW.setSlice 1 none [5]).iterator = none ∧
    (([LLOp.getI 9, LLOp.getS 0 none, LLOp.lenReal] : List (LLOp Nat)).foldl LLOp.step
        (llW.setSlice 1 none [5])).iterator = none ∧
    (llW.setSlice 1 (some 3) [7]).iterator = some [11, 12] ∧
    (LLOp.step llW (.setI 2 9)).iterator = some [11, 12] := by
  obtain ⟨h1, h2, h3, h4⟩ := c8_open_slice_discards llW 1 [5]
  refine ⟨h1, h2 _, ?_, ?_⟩
  · have h5 := h3 3 [7] [10, 11, 12] rfl
    simpa using h5
  · have h5 := h4 2 9 [10, 11, 12] rfl
    simpa using h5

/-- C9: `Node.__eq__` consults the names and the (Python-`==`) values
alone — `kind`, `key`, children and collapsed state do not participate —
and the asserting variant raises (`none`) exactly when two nodes compare
equal with different kinds; the `inside` test of `node_span` (also used by
`collapse_other`) is the `Node.__eq__` comparison against every
ancestor-or-self. -/
theorem c9_eq_name_value_only :
    (∀ a b : NTree, pyNodeEq a b
        = (a.data.name == b.data.name && pyValEq a.data.value b.data.value)) ∧
    (∀ (n1 n2 : String) (v1 v2 : PyVal) (k1 k2 : Kind) (key1 key2 : Option PyVal)
        (l1 l2 c1 c2 : Bool) (ch1 ch2 : List NTree),
      pyNodeEq (.mk ⟨n1, k1, v1, key1⟩ l1 c1 ch1) (.mk ⟨n2, k2, v2, key2⟩ l2 c2 ch2)
        = (n1 == n2 && pyValEq v1 v2)) ∧
    (∀ a b : NTree,
      (pyNodeEqChecked a b).isNone = (pyNodeEq a b && !(a.data.kind == b.data.kind))) ∧
    (∀ (t : NTree) (nd : NData) (q : List Nat),
      insideB t nd q = (prefixesOf q).any fun r =>
        match nodeAt t r with
        | some sub => nodeEq nd sub.data
        | none => false) := by
  refine ⟨fun a b => rfl, fun _ _ _ _ _ _ _ _ _ _ _ _ _ _ => rfl, ?_, fun _ _ _ => rfl⟩
  intro a b
  simp only [pyNodeEqChecked]
  split
  · rename_i hcond
    simp [hcond]
  · rename_i hcond
    simp only [Option.isNone_some]
    exact (Bool.eq_false_iff.mpr hcond).symm

/-- C10: deleting a single index or a slice from the lazy list touches only
the already-realized prefix: the producer reference is unchanged and
nothing is pulled from it, so a later unbounded read yields the remaining
realized elements followed by everything the producer still holds. -/
theorem c10_delete_frame_effect {α : Type} (ll : LzList α) :
    (∀ i r, ll.delItem i = some r →
      r.iterator = ll.iterator ∧ r.realized = ll.realized.eraseIdx i) ∧
    (∀ s e, (ll.delSlice s e).iterator = ll.iterator ∧
      (ll.delSlice s e).realized = pyListDelSlice ll.realized s e) ∧
    (∀ s e it, ll.iterator = some it →
      ((ll.delSlice s e).getSlice 0 none).2 = pyListDelSlice ll.realized s e ++ it) := by
  refine ⟨?_, fun s e => ⟨rfl, rfl⟩, ?_⟩
  · intro i r h
    simp only [LzList.delItem] at h
    split at h
    · injection h with h2
      rw [← h2]
      exact ⟨rfl, rfl⟩
    · exact absurd h (by simp)
  · intro s e it h
    simp [LzList.getSlice, LzList.delSlice, pyListGetSlice, h]

theorem c10_delete_frame_witness :
    ((llW.delSlice 0 (some 1)).iterator = llW.iterator ∧
      (llW.delSlice 0 (some 1)).realized = pyListDelSlice llW.realized 0 (some 1)) ∧
    (((llW.delSlice 0 (some 1)).getSlice 0 none).2
      = pyListDelSlice llW.realized 0 (some 1) ++ [10, 11, 12]) ∧
    ((⟨some [10, 11, 12], [0]⟩ : LzList Nat).iterator = llW.iterator ∧
      (⟨some [10, 11, 12], [0]⟩ : LzList Nat).realized = llW.realized.eraseIdx 1) :=
  ⟨(c10_delete_frame_effect llW).2.1 0 (some 1),
   (c10_delete_frame_effect llW).2.2 0 (some 1) [10, 11, 12] rfl,
   (c10_delete_frame_effect llW).1 1 ⟨some [10, 11, 12], [0]⟩ (by decide)⟩

/-! ## The weak view invariant: supporting lemmas -/

theorem isPre_total_left : ∀ {a : List Nat} {w b : List Nat}, isPre w (a ++ b) = true →
    isPre w a = true ∨ isPre a w = true := by
  intro a
  induction a with
  | nil => intro w b _; exact Or.inr rfl
  | cons x a ih =>
    intro w b h
    match w with
    | [] => exact Or.inl rfl
    | y :: w =>
      simp only [List.cons_append, isPre, Bool.and_eq_true, beq_iff_eq] at h ⊢
      obtain ⟨h1, h2⟩ := h
      subst h1
      rcases ih h2 with h3 | h3
      · exact Or.inl ⟨rfl, h3⟩
      · exact Or.inr ⟨rfl, h3⟩

theorem visPath_isPre (t : NTree) : ∀ {r : List Nat} {q : List Nat},
    isPre r q = true → visPath t q = true → visPath t r = true := by
  intro r
  induction r generalizing t with
  | nil => intro q _ _; rfl
  | cons a r ih =>
    intro q hpre hq
    match q with
    | [] => simp [isPre] at hpre
    | b :: q =>
      simp only [isPre, Bool.and_eq_true, beq_iff_eq] at hpre
      obtain ⟨h1, h2⟩ := hpre
      subst h1
      simp only [visPath, Bool.and_eq_true] at hq ⊢
      refine ⟨hq.1, ?_⟩
      have hq2 := hq.2
      match hk : t.children[a]? with
      | some k =>
        rw [hk] at hq2
        simp only [hk]
        exact ih k h2 hq2
      | none =>
        rw [hk] at hq2
        simp at hq2

theorem visPath_append (t : NTree) (p q : List Nat) :
    visPath t (p ++ q) =
      (visPath t p &&
        (match nodeAt t p with
         | some sub => visPath sub q
         | none => false)) := by
  induction p generalizing t with
  | nil => simp [visPath, nodeAt]
  | cons j p ih =>
    show visPath t (j :: (p ++ q)) = _
    simp only [visPath, nodeAt]
    match hk : t.children[j]? with
    | some k =>
      simp only [hk]
      rw [ih k]
      simp [Bool.and_assoc]
    | none => simp [hk]

theorem visPath_setFlags_congr (f : List Nat → Bool → Bool) (t : NTree) {w : List Nat}
    (hf : ∀ r c, isPre r w = true → r ≠ w → f r c = c) :
    visPath (setFlags f [] t) w = visPath t w := by
  rw [Bool.eq_iff_iff, visPath_iff, visPath_iff]
  constructor
  · rintro ⟨h1, h2⟩
    rw [isSome_nodeAt_setFlags] at h1
    refine ⟨h1, ?_⟩
    intro r hr
    obtain ⟨sub2, hsub2, hc2⟩ := h2 r hr
    rw [nodeAt_setFlags] at hsub2
    match hnr : nodeAt t r with
    | some sub =>
      rw [hnr, Option.map_some'] at hsub2
      injection hsub2 with hsub2
      simp only [List.nil_append] at hsub2
      refine ⟨sub, rfl, ?_⟩
      rw [mem_strictPrefixesOf] at hr
      have hfr := hf r sub.collapsed hr.1 hr.2
      rw [← hfr, ← setFlags_collapsed f r sub, hsub2]
      exact hc2
    | none => rw [hnr] at hsub2; simp at hsub2
  · rintro ⟨h1, h2⟩
    refine ⟨by rw [isSome_nodeAt_setFlags]; exact h1, ?_⟩
    intro r hr
    obtain ⟨sub, hsub, hc⟩ := h2 r hr
    refine ⟨setFlags f r sub, by rw [nodeAt_setFlags, hsub, Option.map_some']; simp, ?_⟩
    rw [mem_strictPrefixesOf] at hr
    rw [setFlags_collapsed, hf r sub.collapsed hr.1 hr.2]
    exact hc

theorem visPath_expandAll (t : NTree) (q : List Nat)
    (hv : (nodeAt t q).isSome = true) :
    visPath (setFlags (fun _ _ => false) [] t) q = true := by
  rw [visPath_iff]
  refine ⟨by rw [isSome_nodeAt_setFlags]; exact hv, ?_⟩
  intro r hr
  rw [mem_strictPrefixesOf] at hr
  have hrv : (nodeAt t r).isSome = true := isSome_nodeAt_of_isPre hv hr.1
  match hnr : nodeAt t r with
  | some sub =>
    refine ⟨setFlags (fun _ _ => false) r sub,
      by rw [nodeAt_setFlags, hnr, Option.map_some']; simp, ?_⟩
    rw [setFlags_collapsed]
  | none => rw [hnr] at hrv; simp at hrv

/-! ## Characterizations of the two span scans -/

theorem scanDown_le (pred : Nat → Bool) : ∀ s, scanDown pred s ≤ s := by
  intro s
  induction s with
  | zero => simp [scanDown]
  | succ f ih =>
    simp only [scanDown]
    split
    · omega
    · omega

theorem scanDown_stop (pred : Nat → Bool) :
    ∀ s, scanDown pred s = 0 ∨ pred (scanDown pred s - 1) = false := by
  intro s
  induction s with
  | zero => exact Or.inl rfl
  | succ f ih =>
    simp only [scanDown]
    split
    · exact ih
    · rename_i hp
      refine Or.inr ?_
      simpa using (Bool.eq_false_iff.mpr hp)

theorem scanDown_true (pred : Nat → Bool) :
    ∀ s j, scanDown pred s ≤ j → j < s → pred j = true := by
  intro s
  induction s with
  | zero => intro j _ h; omega
  | succ f ih =>
    intro j h1 h2
    simp only [scanDown] at h1
    split at h1
    · rename_i hp
      by_cases hj : j = f
      · subst hj; exact hp
      · exact ih j h1 (by omega)
    · omega

theorem scanUpF_ge (pred : Nat → Bool) (len : Nat) :
    ∀ fuel l, l ≤ scanUpF pred len fuel l := by
  intro fuel
  induction fuel with
  | zero => intro l; simp [scanUpF]
  | succ fu ih =>
    intro l
    simp only [scanUpF]
    split
    · have := ih (l + 1); omega
    · omega

theorem scanUpF_le (pred : Nat → Bool) (len : Nat) :
    ∀ fuel l, l ≤ len - 1 → scanUpF pred len fuel l ≤ len - 1 := by
  intro fuel
  induction fuel with
  | zero => intro l h; simpa [scanUpF] using h
  | succ fu ih =>
    intro l h
    simp only [scanUpF]
    split
    · rename_i hc
      simp only [Bool.and_eq_true, decide_eq_true_eq] at hc
      exact ih (l + 1) (by omega)
    · exact h

theorem scanUpF_true (pred : Nat → Bool) (len : Nat) :
    ∀ fuel l j, l < j → j ≤ scanUpF pred len fuel l → pred j = true := by
  intro fuel
  induction fuel with
  | zero => intro l j h1 h2; simp only [scanUpF] at h2; omega
  | succ fu ih =>
    intro l j h1 h2
    simp only [scanUpF] at h2
    split at h2
    · rename_i hc
      simp only [Bool.and_eq_true, decide_eq_true_eq] at hc
      by_cases hj : j = l + 1
      · subst hj; exact hc.2
      · exact ih (l + 1) j (by omega) h2
    · omega

theorem scanUpF_stop (pred : Nat → Bool) (len : Nat) :
    ∀ fuel l, l ≤ len - 1 → len - 1 - l ≤ fuel →
    scanUpF pred len fuel l = len - 1 ∨ pred (scanUpF pred len fuel l + 1) = false := by
  intro fuel
  induction fuel with
  | zero =>
    intro l h1 h2
    simp only [scanUpF]
    omega
  | succ fu ih =>
    intro l h1 h2
    simp only [scanUpF]
    split
    · rename_i hc
      simp only [Bool.and_eq_true, decide_eq_true_eq] at hc
      exact ih (l + 1) (by omega) (by omega)
    · rename_i hc
      simp only [Bool.and_eq_true, decide_eq_true_eq, not_and] at hc
      by_cases hl : l < len - 1
      · refine Or.inr ?_
        have := hc hl
        simpa using (Bool.eq_false_iff.mpr this)
      · exact Or.inl (by omega)

/-! ## Consequences of `build`-sanity -/

theorem treeSane_self {t : NTree} (h : treeSane t = true) {p : List Nat}
    (hp : (nodeAt t p).isSome = true) :
    nodeEq (dataAtD t p) (dataAtD t p) = true := by
  simp only [treeSane, List.all_eq_true, Bool.and_eq_true] at h
  exact (h p ((mem_nodePaths t p).mpr hp)).1

theorem treeSane_anc {t : NTree} (h : treeSane t = true) {p r : List Nat}
    (hp : (nodeAt t p).isSome = true) (hr : isPre r p = true) (hne : r ≠ p) :
    nodeEq (dataAtD t p) (dataAtD t r) = false := by
  simp only [treeSane, List.all_eq_true, Bool.and_eq_true] at h
  have h2 := (h p ((mem_nodePaths t p).mpr hp)).2 r (mem_strictPrefixesOf.mpr ⟨hr, hne⟩)
  simpa using h2

theorem treeSane_setFlags (f : List Nat → Bool → Bool) (t : NTree)
    (h : treeSane t = true) : treeSane (setFlags f [] t) = true := by
  simp only [treeSane, List.all_eq_true, Bool.and_eq_true] at h ⊢
  intro p hp
  rw [mem_nodePaths, isSome_nodeAt_setFlags, ← mem_nodePaths] at hp
  obtain ⟨h1, h2⟩ := h p hp
  rw [dataAtD_setFlags]
  refine ⟨h1, ?_⟩
  intro r hr
  rw [dataAtD_setFlags]
  exact h2 r hr

/-- The `inside` test accepts every line owned by a descendant-or-self of a
self-`==`-equal node. -/
theorem insideB_self {t : NTree} {p : List Nat} (hself : nodeEq (dataAtD t p) (dataAtD t p) = true)
    {sub : NTree} (hp : nodeAt t p = some sub) {w : List Nat} (hw : isPre p w = true) :
    insideB t (dataAtD t p) w = true := by
  simp only [insideB, List.any_eq_true]
  refine ⟨p, mem_prefixesOf.mpr hw, ?_⟩
  rw [hp]
  show nodeEq (dataAtD t p) sub.data = true
  rw [show (sub.data : NData) = dataAtD t p from (by simp [dataAtD, hp])]
  exact hself

/-! ## Block structure of renderings and line lists -/

theorem getD_mem_of_lt {α : Type} [Inhabited α] (l : List α) (i : Nat) (h : i < l.length) :
    l.getD i default ∈ l := by
  rw [List.getD_eq_getElem?_getD, List.getElem?_eq_getElem h]
  simpa using List.getElem_mem h

theorem getD_append3_left (A M B : List RLine) (m : Nat) (h : m < A.length) :
    (A ++ M ++ B).getD m default = A.getD m default := by
  rw [List.getD_eq_getElem?_getD, List.getD_eq_getElem?_getD, List.append_assoc,
    List.getElem?_append_left h]

theorem getD_append3_mid (A M B : List RLine) (m : Nat) (h1 : A.length ≤ m)
    (h2 : m < A.length + M.length) :
    (A ++ M ++ B).getD m default = M.getD (m - A.length) default := by
  rw [List.getD_eq_getElem?_getD, List.getD_eq_getElem?_getD, List.append_assoc,
    List.getElem?_append_right h1, List.getElem?_append_left (by omega)]

theorem getD_append3_right (A M B : List RLine) (m : Nat) (h1 : A.length + M.length ≤ m) :
    (A ++ M ++ B).getD m default = B.getD (m - A.length - M.length) default := by
  rw [List.getD_eq_getElem?_getD, List.getD_eq_getElem?_getD, List.append_assoc,
    List.getElem?_append_right (by omega : A.length ≤ m),
    List.getElem?_append_right (by omega : M.length ≤ m - A.length)]

/-- Every rendering is block-structured: the lines owned by any node's
subtree are contiguous.  Each query path is handled by splitting the
rendering around that node's span. -/
theorem renderNode_block (s : Style) (path : List Nat) (lvl : Nat) (ic il : Bool)
    (u : NTree) : blockStr (renderNode s path lvl ic il u) := by
  intro q i j k hij hjk hk hi hk2
  set lines := renderNode s path lvl ic il u with hlines
  have howner : ∀ m, m < lines.length →
      ∃ x, (lines.getD m default).owner = path ++ x ∧ visPath u x = true := by
    intro m hm
    obtain ⟨x, hx, hv⟩ := renderNode_owner s path lvl ic il u _
      (getD_mem_of_lt lines m hm)
    exact ⟨x, hx, hv⟩
  by_cases hqp : isPre q path = true
  · obtain ⟨xj, hxj, -⟩ := howner j (by omega)
    rw [hxj]
    exact isPre_trans hqp (isPre_append path xj)
  · obtain ⟨xk, hxk, hvk⟩ := howner k hk
    have hk4 : isPre q (path ++ xk) = true := by rw [← hxk]; exact hk2
    rcases isPre_total_left hk4 with h | h
    · exact absurd h hqp
    · obtain ⟨q2, hq2⟩ := isPre_iff_append.mp h
      subst hq2
      have hvq2 : visPath u q2 = true := by
        rw [isPre_append_cancel] at hk4
        exact visPath_isPre u hk4 hvk
      obtain ⟨A, B, heq, hA, hB⟩ := renderDecomp s q2 u path lvl ic il hvq2
      have h2 := heq (fun _ c => c) (fun _ _ _ => rfl)
      rw [setFlags_id, setFlags_id] at h2
      rw [← hlines] at h2
      set M := renderNode s (path ++ q2) (lvl + q2.length) (icAt ic q2) (ilAt il u q2)
        (subAtD u q2) with hM
      have hMowner : ∀ m, m < M.length →
          isPre (path ++ q2) ((M.getD m default).owner) = true := by
        intro m hm
        obtain ⟨y, hy, -⟩ := renderNode_owner s (path ++ q2) (lvl + q2.length)
          (icAt ic q2) (ilAt il u q2) (subAtD u q2) _ (getD_mem_of_lt M m hm)
        rw [hy]
        exact isPre_append _ y
      have hlen2 : lines.length = A.length + M.length + B.length := by
        rw [h2]; simp; omega
      have hzone : ∀ m, m < lines.length →
          isPre (path ++ q2) ((lines.getD m default).owner) = true →
          A.length ≤ m ∧ m < A.length + M.length := by
        intro m hm hhit
        constructor
        · by_contra hc
          have hmA : m < A.length := by omega
          rw [h2, getD_append3_left A M B m hmA] at hhit
          have hfa := hA _ (getD_mem_of_lt A m hmA)
          rw [hhit] at hfa
          simp at hfa
        · by_contra hc
          have hmB : A.length + M.length ≤ m := by omega
          rw [h2, getD_append3_right A M B m hmB] at hhit
          have hmB2 : m - A.length - M.length < B.length := by omega
          have hfb := hB _ (getD_mem_of_lt B _ hmB2)
          rw [hhit] at hfb
          simp at hfb
      have hiz := hzone i (by omega) hi
      have hkz := hzone k hk (by rw [hxk]; exact hk4)
      rw [h2, getD_append3_mid A M B j (by omega) (by omega)]
      exact hMowner (j - A.length) (by omega)

theorem getD_map_isPre (q : List Nat) (lines : List RLine) (m : Nat)
    (h : m < lines.length) :
    (lines.map fun rl2 => isPre q rl2.owner).getD m false
      = isPre q ((lines.getD m default).owner) := by
  rw [List.getD_eq_getElem?_getD, List.getD_eq_getElem?_getD, List.getElem?_map,
    List.getElem?_eq_getElem h]
  rfl

theorem blockStr_of_D {lines : List RLine} (h : blockStrD lines = true) :
    blockStr lines := by
  intro q i j k hij hjk hk hi hk2
  have hi' : i < lines.length := by omega
  have hj' : j < lines.length := by omega
  simp only [blockStrD, List.all_eq_true] at h
  have h2 := h _ (getD_mem_of_lt lines i hi') q (mem_prefixesOf.mpr hi)
  simp only [convexB, List.all_eq_true, List.mem_range, List.length_map] at h2
  have h3 := h2 i hi' j hj' k hk
  rw [getD_map_isPre q lines i hi', getD_map_isPre q lines j hj',
    getD_map_isPre q lines k hk, hi, hk2] at h3
  simpa [hij, hjk] using h3

theorem isPre_antisymm {p r : List Nat} (h1 : isPre p r = true) (h2 : isPre r p = true) :
    p = r := by
  have l1 := isPre_length h1
  have l2 := isPre_length h2
  obtain ⟨u, hu⟩ := isPre_iff_append.mp h1
  subst hu
  have hu0 : u.length = 0 := by
    simp only [List.length_append] at l1 l2
    omega
  have hunil : u = [] := List.length_eq_zero.mp hu0
  simp [hunil]

theorem getD_take_of_lt (olds : List RLine) (a m : Nat) (hm : m < a) :
    (olds.take a).getD m default = olds.getD m default := by
  rw [List.getD_eq_getElem?_getD, List.getD_eq_getElem?_getD, List.getElem?_take]
  simp [hm]

theorem getD_drop (olds : List RLine) (n m : Nat) :
    (olds.drop n).getD m default = olds.getD (n + m) default := by
  rw [List.getD_eq_getElem?_getD, List.getD_eq_getElem?_getD, List.getElem?_drop]

/-- Splicing a node's rendered block over its (possibly `==`-inflated) span
preserves block structure, provided the span covers every line of the
node's subtree, the new block is owned inside the subtree and internally
block-structured, and the old list was block-structured. -/
theorem blockStr_splice (olds : List RLine) (a b : Nat) (N : List RLine) (p : List Nat)
    (start : Nat) (hstart : start < olds.length)
    (hps : (olds.getD start default).owner = p)
    (ha : a ≤ start) (hb : start ≤ b) (hblen : b < olds.length)
    (hAfree : ∀ m, m < a → isPre p ((olds.getD m default).owner) = false)
    (hBfree : ∀ m, b < m → m < olds.length → isPre p ((olds.getD m default).owner) = false)
    (hNowner : ∀ m, m < N.length → isPre p ((N.getD m default).owner) = true)
    (hNblock : blockStr N)
    (hold : blockStr olds) :
    blockStr (spliceIncl olds a b N) := by
  have hlenTake : (olds.take a).length = a := by rw [List.length_take]; omega
  have hlen2 : (spliceIncl olds a b N).length
      = a + N.length + (olds.length - (b + 1)) := by
    simp only [spliceIncl, List.length_append, List.length_take, List.length_drop]
    omega
  have o2A : ∀ m, m < a →
      (spliceIncl olds a b N).getD m default = olds.getD m default := by
    intro m hm
    show ((olds.take a) ++ N ++ olds.drop (b + 1)).getD m default = _
    rw [getD_append3_left _ _ _ m (by omega)]
    exact getD_take_of_lt olds a m hm
  have o2N : ∀ m, a ≤ m → m < a + N.length →
      (spliceIncl olds a b N).getD m default = N.getD (m - a) default := by
    intro m h1 h2
    show ((olds.take a) ++ N ++ olds.drop (b + 1)).getD m default = _
    rw [getD_append3_mid _ _ _ m (by omega) (by omega), hlenTake]
  have o2B : ∀ m, a + N.length ≤ m →
      (spliceIncl olds a b N).getD m default
        = olds.getD (b + 1 + (m - a - N.length)) default := by
    intro m h1
    show ((olds.take a) ++ N ++ olds.drop (b + 1)).getD m default = _
    rw [getD_append3_right _ _ _ m (by omega), hlenTake, getD_drop]
  intro q i j k hij hjk hk hi hk2
  rw [hlen2] at hk
  have hpq_of_N : ∀ m, a ≤ m → m < a + N.length →
      isPre q ((spliceIncl olds a b N).getD m default).owner = true →
      isPre q p = true ∨ isPre p q = true := by
    intro m h1 h2 hhit
    rw [o2N m h1 h2] at hhit
    have hNo := hNowner (m - a) (by omega)
    obtain ⟨y, hy⟩ := isPre_iff_append.mp hNo
    rw [hy] at hhit
    exact isPre_total_left hhit
  -- case on the zone of j
  by_cases hjN1 : j < a
  · -- j in the old prefix; so is i
    have hiA : i < a := by omega
    rw [o2A j hjN1]
    rw [o2A i hiA] at hi
    by_cases hkA : k < a
    · rw [o2A k hkA] at hk2
      exact hold q i j k hij hjk (by omega) hi hk2
    · by_cases hkN : k < a + N.length
      · rcases hpq_of_N k (by omega) hkN hk2 with hqp | hpq
        · -- q at-or-above p: old hit at start
          have hstart_hit : isPre q ((olds.getD start default).owner) = true := by
            rw [hps]; exact hqp
          exact hold q i j start hij (by omega) hstart hi hstart_hit
        · -- p strictly inside q: contradicts A-freeness at i
          have := isPre_trans hpq hi
          rw [hAfree i hiA] at this
          simp at this
      · -- k in the old suffix
        rw [o2B k (by omega)] at hk2
        exact hold q i j (b + 1 + (k - a - N.length)) hij (by omega) (by omega) hi hk2
  · by_cases hjN2 : j < a + N.length
    · -- j inside the new block
      by_cases hqp : isPre q p = true
      · rw [o2N j (by omega) hjN2]
        exact isPre_trans hqp (hNowner (j - a) (by omega))
      · -- hits i and k pin q strictly below p or yield a contradiction
        by_cases hiA : i < a
        · rw [o2A i hiA] at hi
          by_cases hkN : k < a + N.length
          · rcases hpq_of_N k (by omega) hkN hk2 with h | h
            · exact absurd h hqp
            · have := isPre_trans h hi
              rw [hAfree i hiA] at this
              simp at this
          · rw [o2B k (by omega)] at hk2
            have hstart_hit := hold q i start (b + 1 + (k - a - N.length))
              (by omega) (by omega) (by omega) hi hk2
            rw [hps] at hstart_hit
            exact absurd hstart_hit hqp
        · have hiN : a ≤ i := by omega
          by_cases hiN2 : i < a + N.length
          · rcases hpq_of_N i hiN hiN2 hi with h | h
            · exact absurd h hqp
            · -- p ≤ q: k must be in N too, then N-internal convexity
              by_cases hkN : k < a + N.length
              · rw [o2N i hiN hiN2] at hi
                rw [o2N k (by omega) hkN] at hk2
                rw [o2N j (by omega) hjN2]
                exact hNblock q (i - a) (j - a) (k - a) (by omega) (by omega)
                  (by omega) hi hk2
              · rw [o2B k (by omega)] at hk2
                have := isPre_trans h hk2
                rw [hBfree (b + 1 + (k - a - N.length)) (by omega) (by omega)] at this
                simp at this
          · omega
    · -- j in the old suffix; so is k
      have hkB : a + N.length ≤ k := by omega
      rw [o2B j (by omega)]
      rw [o2B k hkB] at hk2
      by_cases hiA : i < a
      · rw [o2A i hiA] at hi
        exact hold q i (b + 1 + (j - a - N.length)) (b + 1 + (k - a - N.length))
          (by omega) (by omega) (by omega) hi hk2
      · by_cases hiN2 : i < a + N.length
        · rcases hpq_of_N i (by omega) hiN2 hi with h | h
          · have hstart_hit : isPre q ((olds.getD start default).owner) = true := by
              rw [hps]; exact h
            exact hold q start (b + 1 + (j - a - N.length)) (b + 1 + (k - a - N.length))
              (by omega) (by omega) (by omega) hstart_hit hk2
          · have := isPre_trans h hk2
            rw [hBfree (b + 1 + (k - a - N.length)) (by omega) (by omega)] at this
            simp at this
        · rw [o2B i (by omega)] at hi
          exact hold q (b + 1 + (i - a - N.length)) (b + 1 + (j - a - N.length))
            (b + 1 + (k - a - N.length)) (by omega) (by omega) (by omega) hi hk2

theorem spliceIncl_getD_left (olds : List RLine) (a b : Nat) (N : List RLine) (m : Nat)
    (hm : m < a) (hml : m < olds.length) :
    (spliceIncl olds a b N).getD m default = olds.getD m default := by
  show ((olds.take a) ++ N ++ olds.drop (b + 1)).getD m default = _
  rw [getD_append3_left _ _ _ m (by rw [List.length_take]; omega)]
  exact getD_take_of_lt olds a m hm

theorem spliceIncl_getD_mid (olds : List RLine) (a b : Nat) (N : List RLine) (m : Nat)
    (hal : a ≤ olds.length) (h1 : a ≤ m) (h2 : m < a + N.length) :
    (spliceIncl olds a b N).getD m default = N.getD (m - a) default := by
  show ((olds.take a) ++ N ++ olds.drop (b + 1)).getD m default = _
  rw [getD_append3_mid _ _ _ m (by rw [List.length_take]; omega)
    (by rw [List.length_take]; omega), List.length_take]
  congr 2
  omega

theorem spliceIncl_getD_right (olds : List RLine) (a b : Nat) (N : List RLine) (m : Nat)
    (hal : a ≤ olds.length) (h1 : a + N.length ≤ m) :
    (spliceIncl olds a b N).getD m default
      = olds.getD (b + 1 + (m - a - N.length)) default := by
  show ((olds.take a) ++ N ++ olds.drop (b + 1)).getD m default = _
  rw [getD_append3_right _ _ _ m (by rw [List.length_take]; omega), getD_drop]
  congr 1
  rw [List.length_take]
  omega

theorem insideB_nil (t : NTree) (nd : NData) :
    insideB t nd [] = nodeEq nd t.data := by
  show ((match nodeAt t [] with
    | some sub => nodeEq nd sub.data
    | none => false) || false) = nodeEq nd t.data
  simp only [Bool.or_false]
  rfl

/-- The `rerender`-then-`set_focus` tail of `collapse_current` /
`expand_current` / `expand_below` preserves the weak invariant, with no
equality-faithfulness assumption: the scanned span may absorb lines of
`==`-equal cousins, but it always covers the focused node's whole block,
so the splice never strands an invisible line. -/
theorem winv_flag_rerender (v : View) (f : List Nat → Bool → Bool)
    (hs : Style.productive v.style) (hW : WInv v)
    (hf : ∀ q c, isPre (v.ownerAt v.focus.toNat) q = false → f q c = c) :
    WInv ((View.rerender { v with tree := setFlags f [] v.tree } v.focus.toNat).1.setFocus
      (((View.rerender { v with tree := setFlags f [] v.tree } v.focus.toNat).2.1 : Nat) : Int)) := by
  obtain ⟨hf0, hf1, hvis, h0, hsane, hblk⟩ := hW
  set s := v.style with hsdef
  set t := v.tree with htdef
  set start := v.focus.toNat with hstartdef
  set p := v.ownerAt start with hpdef
  have hstart : start < v.lines.length := by
    rw [hstartdef]
    omega
  set t2 := setFlags f [] t with ht2
  have hmem_start : v.lines.getD start default ∈ v.lines := getD_mem_of_lt _ _ hstart
  have howner_start : (v.lines.getD start default).owner = p := rfl
  have hvp : visPath t p = true := by rw [← howner_start]; exact hvis _ hmem_start
  have hvalid : (nodeAt t p).isSome = true := ((visPath_iff t p).mp hvp).1
  have hvalid2 : (nodeAt t2 p).isSome = true := by
    rw [ht2, isSome_nodeAt_setFlags]; exact hvalid
  set nd := dataAtD t2 p with hnd
  have hnd_t : nd = dataAtD t p := by rw [hnd, ht2]; exact dataAtD_setFlags f t p
  set pred : Nat → Bool := fun j =>
    match v.lines[j]? with
    | some rl => insideB t2 nd rl.owner
    | none => false
    with hpredd
  set a := scanDown pred start with ha
  set b := scanUpF pred v.lines.length v.lines.length start with hb
  have hpred_lt : ∀ m, m < v.lines.length →
      pred m = insideB t nd ((v.lines.getD m default).owner) := by
    intro m hm
    show (match v.lines[m]? with
      | some rl => insideB t2 nd rl.owner
      | none => false) = _
    rw [List.getElem?_eq_getElem hm]
    show insideB t2 nd (v.lines[m]).owner = insideB t nd ((v.lines.getD m default).owner)
    rw [ht2, insideB_setFlags]
    congr 1
    rw [List.getD_eq_getElem?_getD, List.getElem?_eq_getElem hm]
    rfl
  have hself : nodeEq (dataAtD t p) (dataAtD t p) = true := treeSane_self hsane hvalid
  have hpredP : ∀ m, m < v.lines.length →
      isPre p ((v.lines.getD m default).owner) = true → pred m = true := by
    intro m hm hdesc
    rw [hpred_lt m hm, hnd_t]
    match hnp : nodeAt t p with
    | some sub => exact insideB_self hself hnp hdesc
    | none => rw [hnp] at hvalid; simp at hvalid
  have hstart_le : start ≤ v.lines.length - 1 := by omega
  have hb_le : b ≤ v.lines.length - 1 := scanUpF_le pred _ _ start hstart_le
  have ha_le : a ≤ start := scanDown_le pred start
  have hb_ge : start ≤ b := scanUpF_ge pred _ _ start
  have hAfree : ∀ m, m < a → isPre p ((v.lines.getD m default).owner) = false := by
    intro m hma
    by_contra hc
    have hc2 : isPre p ((v.lines.getD m default).owner) = true := by
      simpa using hc
    have h1 : isPre p ((v.lines.getD (a - 1) default).owner) = true :=
      hblk p m (a - 1) start (by omega) (by omega) hstart hc2
        (by rw [howner_start]; exact isPre_refl p)
    have h2 : pred (a - 1) = true := hpredP (a - 1) (by omega) h1
    have hstop := scanDown_stop pred start
    rw [← ha] at hstop
    rcases hstop with h3 | h3
    · omega
    · rw [h2] at h3; simp at h3
  have hBfree : ∀ m, b < m → m < v.lines.length →
      isPre p ((v.lines.getD m default).owner) = false := by
    intro m hbm hm
    by_contra hc
    have hc2 : isPre p ((v.lines.getD m default).owner) = true := by
      simpa using hc
    have h1 : isPre p ((v.lines.getD (b + 1) default).owner) = true :=
      hblk p start (b + 1) m (by omega) (by omega) hm
        (by rw [howner_start]; exact isPre_refl p) hc2
    have h2 : pred (b + 1) = true := hpredP (b + 1) (by omega) h1
    have hstop := scanUpF_stop pred v.lines.length v.lines.length start hstart_le (by omega)
    rw [← hb] at hstop
    rcases hstop with h3 | h3
    · omega
    · rw [h2] at h3; simp at h3
  set N := renderSeg s t2 p with hN
  have hNne : N ≠ [] := renderSeg_ne_nil s hs t2 p hvalid2
  have hNlen : 0 < N.length := List.length_pos.mpr hNne
  set lines2 := spliceIncl v.lines a b N with hlines2
  have hre : View.rerender { v with tree := t2 } start
      = (View.adjustViewport { v with tree := t2, lines := lines2 },
         (a, a + N.length - 1)) := rfl
  have hlen2 : lines2.length = a + N.length + (v.lines.length - (b + 1)) := by
    rw [hlines2]
    simp only [spliceIncl, List.length_append, List.length_take, List.length_drop]
    omega
  have hvp2 : visPath t2 p = true := by
    rw [ht2]
    rw [visPath_setFlags_congr f t (fun r c hr hne => hf r c
      (by
        by_contra hcc
        have hcc2 : isPre p r = true := by simpa using hcc
        exact hne (isPre_antisymm hr hcc2)))]
    exact hvp
  have hNowner : ∀ m, m < N.length →
      ∃ x, (N.getD m default).owner = p ++ x ∧ visPath t2 (N.getD m default).owner = true := by
    intro m hm
    have hmem : N.getD m default ∈ N := getD_mem_of_lt N m hm
    match hnp2 : nodeAt t2 p with
    | some sub2 =>
      have hmem2 : N.getD m default ∈ renderNode s p p.length (icAt false p)
          (ilAt false t2 p) sub2 := by
        rw [← renderSeg_eq_of_valid s t2 p sub2 hnp2]
        exact hmem
      obtain ⟨x, hx, hvx⟩ := renderNode_owner s p p.length (icAt false p)
        (ilAt false t2 p) sub2 _ hmem2
      refine ⟨x, hx, ?_⟩
      rw [hx, visPath_append, hnp2, hvp2]
      simpa using hvx
    | none => rw [hnp2] at hvalid2; simp at hvalid2
  have hvis_keep : ∀ m, m < v.lines.length →
      isPre p ((v.lines.getD m default).owner) = false →
      visPath t2 ((v.lines.getD m default).owner) = true := by
    intro m hm hfree
    rw [ht2, visPath_setFlags_congr f t (fun r c hr _ => hf r c
      (by
        by_contra hcc
        have hcc2 : isPre p r = true := by simpa using hcc
        have hpw := isPre_trans hcc2 hr
        rw [hfree] at hpw
        simp at hpw))]
    exact hvis _ (getD_mem_of_lt _ _ hm)
  have hvis2 : ∀ rl ∈ lines2, visPath t2 rl.owner = true := by
    intro rl hmem
    obtain ⟨n, hn, hrl⟩ := List.getElem_of_mem hmem
    have hrl2 : rl = lines2.getD n default := by
      rw [← hrl, List.getD_eq_getElem?_getD, List.getElem?_eq_getElem hn]
      rfl
    rw [hlen2] at hn
    subst hrl2
    by_cases hnA : n < a
    · rw [hlines2, spliceIncl_getD_left v.lines a b N n hnA (by omega)]
      exact hvis_keep n (by omega) (hAfree n hnA)
    · by_cases hnN : n < a + N.length
      · rw [hlines2, spliceIncl_getD_mid v.lines a b N n (by omega) (by omega) hnN]
        obtain ⟨x, -, hv⟩ := hNowner (n - a) (by omega)
        exact hv
      · rw [hlines2, spliceIncl_getD_right v.lines a b N n (by omega) (by omega)]
        exact hvis_keep _ (by omega) (hBfree _ (by omega) (by omega))
  have h0' : (lines2.getD 0 default).owner = [] := by
    by_cases hp0 : p = []
    · have hall : ∀ m, m < v.lines.length → pred m = true := by
        intro m hm
        refine hpredP m hm ?_
        rw [hp0]
        rfl
      have ha0 : a = 0 := by
        by_contra hc
        have hstop := scanDown_stop pred start
        rw [← ha] at hstop
        rcases hstop with h3 | h3
        · exact hc h3
        · rw [hall (a - 1) (by omega)] at h3
          simp at h3
      rw [hlines2, ha0, spliceIncl_getD_mid v.lines 0 b N 0 (by omega) (by omega)
        (by omega)]
      show ((N.getD 0 default)).owner = []
      rw [hN, hp0]
      obtain ⟨l, rest, hh⟩ := renderNode_head s hs [] 0 (icAt false [])
        (ilAt false t2 []) t2
      show (((renderNode s [] 0 (icAt false []) (ilAt false t2 []) t2).getD 0 default)).owner = []
      rw [hh]
      rfl
    · have hstart_ne : start ≠ 0 := by
        intro hc
        rw [hc] at howner_start
        rw [h0] at howner_start
        exact hp0 howner_start.symm
      have ha1 : 1 ≤ a := by
        by_contra hc
        have hp0t : pred 0 = true := by
          refine scanDown_true pred start 0 (by omega) (by omega)
        rw [hpred_lt 0 (by omega), h0, hnd_t] at hp0t
        rw [insideB_nil, show (t.data : NData) = dataAtD t [] from rfl,
          treeSane_anc hsane hvalid (show isPre [] p = true from rfl)
            (fun hc2 => hp0 hc2.symm)] at hp0t
        simp at hp0t
      rw [hlines2, spliceIncl_getD_left v.lines a b N 0 (by omega) (by omega)]
      exact h0
  have hblk2 : blockStr lines2 := by
    rw [hlines2]
    refine blockStr_splice v.lines a b N p start hstart howner_start ha_le hb_ge
      (by omega) hAfree hBfree ?_ ?_ hblk
    · intro m hm
      obtain ⟨x, hx, -⟩ := hNowner m hm
      rw [hx]
      exact isPre_append p x
    · rw [hN]
      match hnp2 : nodeAt t2 p with
      | some sub2 =>
        rw [renderSeg_eq_of_valid s t2 p sub2 hnp2]
        exact renderNode_block s p p.length (icAt false p) (ilAt false t2 p) sub2
      | none => rw [hnp2] at hvalid2; simp at hvalid2
  rw [hre]
  have hlen2pos : 1 ≤ lines2.length := by omega
  refine ⟨?_, ?_, ?_, ?_, ?_, ?_⟩
  · show 0 ≤ clampI ((a : Nat) : Int) 0 ((lines2.length : Int) - 1)
    exact (clampI_bounds _ 0 _ (by omega)).1
  · show clampI ((a : Nat) : Int) 0 ((lines2.length : Int) - 1) < (lines2.length : Int)
    have hcb := (clampI_bounds ((a : Nat) : Int) 0 ((lines2.length : Int) - 1) (by omega)).2
    omega
  · exact hvis2
  · exact h0'
  · rw [ht2]
    exact treeSane_setFlags f t hsane
  · exact hblk2

/-- `rerender(0)` from a weak-invariant state replaces the whole line list
by the full rendering of the (already updated) tree: line 0 is owned by the
root, whose `inside` test accepts every line, so the span is the entire
list. -/
theorem winv_rerender0_lines (v : View) (f : List Nat → Bool → Bool)
    (hW : WInv v) :
    (View.rerender { v with tree := setFlags f [] v.tree } 0).1
      = View.adjustViewport
          { v with
            tree := setFlags f [] v.tree
            lines := render v.style (setFlags f [] v.tree) } ∧
    (View.rerender { v with tree := setFlags f [] v.tree } 0).2.1 = 0 := by
  obtain ⟨hf0, hf1, hvis, h0, hsane, hblk⟩ := hW
  have hlen1 : 0 < v.lines.length := by omega
  refine ⟨?_, rfl⟩
  have hp0 : View.ownerAt { v with tree := setFlags f [] v.tree } 0 = [] := h0
  have hself2 : nodeEq (dataAtD (setFlags f [] v.tree) [])
      (dataAtD (setFlags f [] v.tree) []) = true :=
    treeSane_self (treeSane_setFlags f v.tree hsane) rfl
  have hpredT : ∀ m, m < v.lines.length →
      (match v.lines[m]? with
        | some rl => insideB (setFlags f [] v.tree)
            (dataAtD (setFlags f [] v.tree) []) rl.owner
        | none => false) = true := by
    intro m hm
    rw [List.getElem?_eq_getElem hm]
    show insideB (setFlags f [] v.tree) (dataAtD (setFlags f [] v.tree) [])
      (v.lines[m]).owner = true
    exact insideB_self hself2 rfl (show isPre [] (v.lines[m]).owner = true from rfl)
  have hspan : nodeSpan (setFlags f [] v.tree) v.lines 0
      (dataAtD (setFlags f [] v.tree) []) = (0, v.lines.length - 1) := by
    have h2 : scanUpF (fun j =>
        match v.lines[j]? with
        | some rl => insideB (setFlags f [] v.tree)
            (dataAtD (setFlags f [] v.tree) []) rl.owner
        | none => false) v.lines.length v.lines.length 0 = v.lines.length - 1 := by
      refine scanUpF_eq _ v.lines.length v.lines.length 0 (v.lines.length - 1)
        (by omega) (by omega) (fun k hk1 hk2 => hpredT k (by omega)) (Or.inl rfl) (by omega)
    simp only [nodeSpan]
    rw [h2]
    rfl
  have hsplice : spliceIncl v.lines 0 (v.lines.length - 1)
      (renderSeg v.style (setFlags f [] v.tree) [])
      = render v.style (setFlags f [] v.tree) := by
    show v.lines.take 0 ++ renderSeg v.style (setFlags f [] v.tree) []
        ++ v.lines.drop (v.lines.length - 1 + 1) = _
    rw [show v.lines.length - 1 + 1 = v.lines.length from (by omega), List.take_zero,
      List.drop_length]
    simp only [List.nil_append, List.append_nil]
    rfl
  show View.adjustViewport
      { v with
        tree := setFlags f [] v.tree
        lines := spliceIncl v.lines
          (nodeSpan (setFlags f [] v.tree) v.lines 0
            (dataAtD (setFlags f [] v.tree)
              (View.ownerAt { v with tree := setFlags f [] v.tree } 0))).1
          (nodeSpan (setFlags f [] v.tree) v.lines 0
            (dataAtD (setFlags f [] v.tree)
              (View.ownerAt { v with tree := setFlags f [] v.tree } 0))).2
          (renderSeg v.style (setFlags f [] v.tree)
            (View.ownerAt { v with tree := setFlags f [] v.tree } 0)) } = _
  rw [hp0, hspan]
  show View.adjustViewport
      { v with
        tree := setFlags f [] v.tree
        lines := spliceIncl v.lines 0 (v.lines.length - 1)
          (renderSeg v.style (setFlags f [] v.tree) []) } = _
  rw [hsplice]

/-- Any view whose line list is a fresh full rendering of a sane tree
satisfies the weak invariant after a focus clamp. -/
theorem winv_fresh (v : View) (t2 : NTree) (hs : Style.productive v.style)
    (hsane2 : treeSane t2 = true) (i : Int) :
    WInv ((View.adjustViewport { v with tree := t2, lines := render v.style t2 }).setFocus i) := by
  set L := render v.style t2 with hL
  have hLne : L ≠ [] := render_ne_nil v.style hs t2
  have hLpos : 0 < L.length := List.length_pos.mpr hLne
  refine ⟨?_, ?_, ?_, ?_, hsane2, ?_⟩
  · show 0 ≤ clampI i 0 ((L.length : Int) - 1)
    exact (clampI_bounds _ _ _ (by omega)).1
  · show clampI i 0 ((L.length : Int) - 1) < (L.length : Int)
    have hcb := (clampI_bounds i 0 ((L.length : Int) - 1) (by omega)).2
    omega
  · show ∀ rl ∈ L, visPath t2 rl.owner = true
    intro rl hmem
    rw [hL] at hmem
    obtain ⟨q, ho, hv⟩ := renderNode_owner v.style [] 0 false false t2 rl hmem
    simp only [List.nil_append] at ho
    rw [ho]
    exact hv
  · show (L.getD 0 default).owner = []
    obtain ⟨l, rest, hh⟩ := renderNode_head v.style hs [] 0 false false t2
    rw [hL]
    show ((renderNode v.style [] 0 false false t2).getD 0 default).owner = []
    rw [hh]
    rfl
  · show blockStr L
    rw [hL]
    exact renderNode_block v.style [] 0 false false t2

/-- The refocus scan over a fresh full rendering finds any visible node. -/
theorem winv_fresh_refocus (v : View) (t2 : NTree) (hs : Style.productive v.style)
    (hsane2 : treeSane t2 = true) (p : List Nat) (hvp2 : visPath t2 p = true) :
    WInv ((View.adjustViewport { v with tree := t2, lines := render v.style t2 }).refocus p) := by
  obtain ⟨rl, hmem, ho⟩ := renderNode_contains v.style hs [] 0 false false t2 p hvp2
  simp only [List.nil_append] at ho
  have hfo := firstOwner_isSome_of_mem hmem ho
  show WInv (match firstOwner p (render v.style t2) with
    | some i => (View.adjustViewport { v with tree := t2, lines := render v.style t2 }).setFocus (i : Int)
    | none => View.adjustViewport { v with tree := t2, lines := render v.style t2 })
  match hfi : firstOwner p (render v.style t2) with
  | some i => exact winv_fresh v t2 hs hsane2 (i : Int)
  | none =>
    rw [show firstOwner p (render v.style t2) = firstOwner p (renderNode v.style [] 0 false false t2) from rfl] at hfi
    rw [hfi] at hfo
    simp at hfo

theorem winv_setFocus (v : View) (hW : WInv v) (i : Int) : WInv (v.setFocus i) := by
  obtain ⟨hf0, hf1, hvis, h0, hsane, hblk⟩ := hW
  refine ⟨?_, ?_, hvis, h0, hsane, hblk⟩
  · show 0 ≤ clampI i 0 ((v.lines.length : Int) - 1)
    exact (clampI_bounds _ _ _ (by omega)).1
  · show clampI i 0 ((v.lines.length : Int) - 1) < (v.lines.length : Int)
    have hcb := (clampI_bounds i 0 ((v.lines.length : Int) - 1) (by omega)).2
    omega

theorem winv_jumpMatch (v : View) (hW : WInv v) (fw : Bool) : WInv (v.jumpMatch fw) := by
  simp only [View.jumpMatch]
  split
  · exact winv_setFocus v hW _
  · exact hW

theorem winv_collapseCurrent (v : View) (hs : Style.productive v.style) (hW : WInv v) :
    WInv v.collapseCurrent := by
  simp only [View.collapseCurrent]
  match hsub : nodeAt v.tree (v.ownerAt v.focus.toNat) with
  | none => exact hW
  | some sub =>
    show WInv (if sub.collapsed = true then v else _)
    by_cases hc : sub.collapsed = true
    · rw [if_pos hc]
      exact hW
    · rw [if_neg hc]
      refine winv_flag_rerender v _ hs hW ?_
      intro q c hq
      show (if q = v.ownerAt v.focus.toNat then true else c) = c
      have hne : q ≠ v.ownerAt v.focus.toNat := by
        intro h; subst h; rw [isPre_refl] at hq; simp at hq
      simp [hne]

theorem winv_expandCurrent (v : View) (hs : Style.productive v.style) (hW : WInv v) :
    WInv v.expandCurrent := by
  simp only [View.expandCurrent]
  match hsub : nodeAt v.tree (v.ownerAt v.focus.toNat) with
  | none => exact hW
  | some sub =>
    show WInv (if (!sub.collapsed) = true then v else _)
    by_cases hc : (!sub.collapsed) = true
    · rw [if_pos hc]
      exact hW
    · rw [if_neg hc]
      refine winv_flag_rerender v _ hs hW ?_
      intro q c hq
      show (if q = v.ownerAt v.focus.toNat then false else c) = c
      have hne : q ≠ v.ownerAt v.focus.toNat := by
        intro h; subst h; rw [isPre_refl] at hq; simp at hq
      simp [hne]

theorem winv_expandBelow (v : View) (hs : Style.productive v.style) (hW : WInv v) :
    WInv v.expandBelow := by
  refine winv_flag_rerender v _ hs hW ?_
  intro q c hq
  show (if isPre (v.ownerAt v.focus.toNat) q then false else c) = c
  simp [hq]

theorem winv_collapseAll (v : View) (hs : Style.productive v.style) (hW : WInv v) :
    WInv v.collapseAll := by
  obtain ⟨h1, h2⟩ := winv_rerender0_lines v (fun _ _ => true) hW
  show WInv ((View.rerender { v with tree := setFlags (fun _ _ => true) [] v.tree } 0).1.setFocus
    (((View.rerender { v with tree := setFlags (fun _ _ => true) [] v.tree } 0).2.1 : Nat) : Int))
  rw [h1, h2]
  exact winv_fresh v _ hs (treeSane_setFlags _ _ hW.2.2.2.2.1) _

theorem winv_expandAll (v : View) (hs : Style.productive v.style) (hW : WInv v) :
    WInv v.expandAll := by
  obtain ⟨hf0, hf1, hvis, h0, hsane, hblk⟩ := hW
  obtain ⟨h1, h2⟩ := winv_rerender0_lines v (fun _ _ => false)
    ⟨hf0, hf1, hvis, h0, hsane, hblk⟩
  show WInv ((View.rerender { v with tree := setFlags (fun _ _ => false) [] v.tree } 0).1.refocus
    (v.ownerAt v.focus.toNat))
  rw [h1]
  refine winv_fresh_refocus v _ hs (treeSane_setFlags _ _ hsane) _ ?_
  refine visPath_expandAll v.tree _ ?_
  have hstart : v.focus.toNat < v.lines.length := by omega
  have hvp : visPath v.tree (v.ownerAt v.focus.toNat) = true :=
    hvis _ (getD_mem_of_lt _ _ hstart)
  exact ((visPath_iff _ _).mp hvp).1

theorem winv_collapseOther (v : View) (hs : Style.productive v.style) (hW : WInv v) :
    WInv v.collapseOther := by
  obtain ⟨hf0, hf1, hvis, h0, hsane, hblk⟩ := hW
  obtain ⟨h1, h2⟩ := winv_rerender0_lines v (collapseOtherF v.tree (v.ownerAt v.focus.toNat))
    ⟨hf0, hf1, hvis, h0, hsane, hblk⟩
  show WInv ((View.rerender
      { v with tree := setFlags (collapseOtherF v.tree (v.ownerAt v.focus.toNat)) [] v.tree }
      0).1.refocus (v.ownerAt v.focus.toNat))
  rw [h1]
  refine winv_fresh_refocus v _ hs (treeSane_setFlags _ _ hsane) _ ?_
  have hstart : v.focus.toNat < v.lines.length := by omega
  have hvp : visPath v.tree (v.ownerAt v.focus.toNat) = true :=
    hvis _ (getD_mem_of_lt _ _ hstart)
  have hvalid : (nodeAt v.tree (v.ownerAt v.focus.toNat)).isSome = true :=
    ((visPath_iff _ _).mp hvp).1
  rw [visPath_setFlags_congr (collapseOtherF v.tree (v.ownerAt v.focus.toNat)) v.tree ?_]
  · exact hvp
  · intro r c hr hne
    show (if (strictPrefixesOf r).any
        (fun r2 => nodeEq (dataAtD v.tree (v.ownerAt v.focus.toNat)) (dataAtD v.tree r2)) then c
      else if !((prefixesOf (v.ownerAt v.focus.toNat)).any
        (fun r2 => nodeEq (dataAtD v.tree r) (dataAtD v.tree r2))) then true else c) = c
    by_cases hb1 : (strictPrefixesOf r).any
        (fun r2 => nodeEq (dataAtD v.tree (v.ownerAt v.focus.toNat)) (dataAtD v.tree r2)) = true
    · rw [if_pos hb1]
    · have hb2 : (prefixesOf (v.ownerAt v.focus.toNat)).any
          (fun r2 => nodeEq (dataAtD v.tree r) (dataAtD v.tree r2)) = true := by
        simp only [List.any_eq_true]
        refine ⟨r, mem_prefixesOf.mpr hr, ?_⟩
        exact treeSane_self hsane (isSome_nodeAt_of_isPre hvalid hr)
      rw [if_neg hb1, hb2]
      simp

theorem winv_applyOp (v : View) (op : NavOp) (hs : Style.productive v.style)
    (hW : WInv v) : WInv (applyOp v op) := by
  cases op with
  | setF i => exact winv_setFocus v hW i
  | moveF d => exact winv_setFocus v hW _
  | jumpN fw => exact winv_setFocus v hW _
  | jumpM fw => exact winv_jumpMatch v hW fw
  | colCur => exact winv_collapseCurrent v hs hW
  | colOther => exact winv_collapseOther v hs hW
  | colAll => exact winv_collapseAll v hs hW
  | expCur => exact winv_expandCurrent v hs hW
  | expBelow => exact winv_expandBelow v hs hW
  | expAll => exact winv_expandAll v hs hW

theorem winv_applyOps (ops : List NavOp) (v : View) (hs : Style.productive v.style)
    (hW : WInv v) : WInv (applyOps ops v) := by
  induction ops generalizing v with
  | nil => exact hW
  | cons op rest ih =>
    have h1 := winv_applyOp v op hs hW
    have h2 : Style.productive (applyOp v op).style := by
      rw [applyOp_style]
      exact hs
    exact ih (applyOp v op) h2 h1

/-- A freshly constructed view of a sane tree satisfies the weak
invariant. -/
theorem winv_mkView (root : NTree) (s : Style) (tm : TermM) (w h : Int) (search : String)
    (hs : Style.productive s) (hsane : treeSane root = true) :
    WInv (mkView root s tm w h search) := by
  have hne : render s root ≠ [] := render_ne_nil s hs root
  have hpos : 0 < (render s root).length := List.length_pos.mpr hne
  refine ⟨le_refl 0, ?_, ?_, ?_, hsane, ?_⟩
  · show (0 : Int) < ((render s root).length : Int)
    omega
  · show ∀ rl ∈ render s root, visPath root rl.owner = true
    intro rl hmem
    obtain ⟨q, ho, hv⟩ := renderNode_owner s [] 0 false false root rl hmem
    simp only [List.nil_append] at ho
    rw [ho]
    exact hv
  · show ((render s root).getD 0 default).owner = []
    obtain ⟨l, rest, hh⟩ := renderNode_head s hs [] 0 false false root
    show ((renderNode s [] 0 false false root).getD 0 default).owner = []
    rw [hh]
    rfl
  · show blockStr (render s root)
    exact renderNode_block s [] 0 false false root

/-- C2: for every view of a non-empty tree satisfying the weak invariant
(which a freshly opened view of any `build`-produced tree does, with no
equality-faithfulness requirement — `==`-ambiguous trees such as `tCex`
included) and every sequence of the public navigation and collapse/expand
operations, the focus index stays in `[0, len(lines) - 1]`. -/
theorem c2_focus_in_bounds (v : View) (ops : List NavOp)
    (hs : Style.productive v.style) (hW : WInv v) :
    0 ≤ (applyOps ops v).focus ∧
    (applyOps ops v).focus ≤ ((applyOps ops v).lines.length : Int) - 1 := by
  obtain ⟨h1, h2, -, -, -, -⟩ := winv_applyOps ops v hs hW
  exact ⟨h1, by omega⟩

theorem vCex_winv : WInv vCex :=
  ⟨by decide, by decide, by decide, by decide, by decide, blockStr_of_D (by decide)⟩

theorem c2_focus_in_bounds_witness :
    0 ≤ (applyOps [NavOp.colCur, NavOp.expCur, NavOp.jumpN true, NavOp.colOther,
        NavOp.expAll, NavOp.moveF 5] vCex).focus ∧
    (applyOps [NavOp.colCur, NavOp.expCur, NavOp.jumpN true, NavOp.colOther,
        NavOp.expAll, NavOp.moveF 5] vCex).focus ≤
      (((applyOps [NavOp.colCur, NavOp.expCur, NavOp.jumpN true, NavOp.colOther,
        NavOp.expAll, NavOp.moveF 5] vCex).lines.length : Int) - 1) :=
  c2_focus_in_bounds vCex
    [NavOp.colCur, NavOp.expCur, NavOp.jumpN true, NavOp.colOther,
      NavOp.expAll, NavOp.moveF 5]
    sStyle_productive vCex_winv
